import Mathlib

/-! # Huffman compression: Counter.c and huffman.c

A shallow embedding of the frequency counter (`Counter.c`) and of the Huffman
tree builder, encoder and decoder (`huffman.c`), followed by the properties
proved about them.

Conventions of the embedding.

* A symbol is a C string compared with `strcmp`.  The development is parametric
  in the symbol type `α` with a linear order; `strcmp (a, b) < 0` is `a < b`,
  `strcmp (a, b) > 0` is `a > b`.
* A pointer to a struct is a value of an inductive type with a constructor
  `null` for the `NULL` pointer.
* `int` fields that hold frequencies are `Int`, and the result of every
  addition on them (`node->freq++` in Counter.c, the sum of two frequencies in
  `mergeTwoMins`) is reduced to the 32-bit two's complement range by `wrapInt`:
  `INT_MAX + 1` is stored as `-2147483648`, which is what the compiled code
  does where the C standard leaves signed overflow undefined.
* Array sizes, indices and counters of entries are `Nat`.  A counter of entries
  is at most the number of distinct symbols of the stream, and the embedding is
  exact for it as long as that number is at most `INT_MAX` = 2147483647.
* A file that is read is the list of the symbols it yields; the file that
  `decode` writes is the list of the values passed to `FileWrite`.
* A run that dereferences `NULL` or accesses an array outside its bounds ends
  in `Except.error`; `malloc` is assumed to succeed.
-/

namespace Huffman

/-! ## Counter.c -/

/-- Pointer to a `struct counterNode` of Counter.c: `null` is `NULL`. -/
inductive counterNode (α : Type) where
  | null : counterNode α
  | node (character : α) (freq : Int) (left right : counterNode α) : counterNode α
  deriving Repr

/-- The `struct counter` of Counter.c. -/
structure counter (α : Type) where
  root : counterNode α
  numItems : Nat
  deriving Repr

/-- Modelled from the spec: `struct item` is declared in Counter.h, which is not
among the sources; it has the two fields that Counter.c and huffman.c use, a
symbol and its count (the spec's Frequency Table entry). -/
structure item (α : Type) where
  character : α
  freq : Int
  deriving Repr, DecidableEq

/-- The ways a run can leave defined behaviour. -/
inductive Fault where
  | nullDeref : Fault
  | outOfBounds : Fault
  | uninitialised : Fault
  deriving Repr, DecidableEq

deriving instance DecidableEq for Except

/-- The value that a C `int` holds when it is assigned the result `z` of an
addition: `z` reduced to the 32-bit two's complement range, from `-2^31` to
`2^31 - 1`. -/
def wrapInt (z : Int) : Int :=
  (z + 2147483648) % 4294967296 - 2147483648

/-- Function `CounterNew`: an empty counter. -/
def CounterNew {α : Type} : counter α :=
  { root := counterNode.null, numItems := 0 }

/-- Function `insertNode`: returns the new subtree and the updated `*numItems`. -/
def insertNode {α : Type} [LinearOrder α] :
    counterNode α → α → Nat → counterNode α × Nat
  | counterNode.null, character, numItems =>
      (counterNode.node character 1 counterNode.null counterNode.null, numItems + 1)
  | counterNode.node ch f l r, character, numItems =>
      if character < ch then
        let res := insertNode l character numItems
        (counterNode.node ch f res.1 r, res.2)
      else if character > ch then
        let res := insertNode r character numItems
        (counterNode.node ch f l res.1, res.2)
      else
        (counterNode.node ch (wrapInt (f + 1)) l r, numItems)

/-- Function `CounterAdd`. -/
def CounterAdd {α : Type} [LinearOrder α] (c : counter α) (character : α) : counter α :=
  let res := insertNode c.root character c.numItems
  { root := res.1, numItems := res.2 }

/-- Function `CounterNumItems`. -/
def CounterNumItems {α : Type} (c : counter α) : Nat :=
  c.numItems

/-- The `while` loop of `CounterGet`, walking down from `current`. -/
def CounterGetLoop {α : Type} [LinearOrder α] : counterNode α → α → Int
  | counterNode.null, _ => 0
  | counterNode.node ch f l r, character =>
      if character < ch then CounterGetLoop l character
      else if character > ch then CounterGetLoop r character
      else f

/-- Function `CounterGet`. -/
def CounterGet {α : Type} [LinearOrder α] (c : counter α) (character : α) : Int :=
  CounterGetLoop c.root character

/-- Function `arrayOfItems`: the in-order walk that writes `items_array[*index]`
and increments `*index`.  The array is given by its allocated length `cap` and
the entries written so far, `written`, so that `*index` is `written.length`; a
write at an index that is not below `cap` is out of bounds. -/
def arrayOfItems {α : Type} :
    counterNode α → Nat → List (item α) → Except Fault (List (item α))
  | counterNode.null, _, written => Except.ok written
  | counterNode.node ch f l r, cap, written =>
      match arrayOfItems l cap written with
      | Except.error e => Except.error e
      | Except.ok w1 =>
          if w1.length < cap then
            arrayOfItems r cap (w1 ++ [{ character := ch, freq := f }])
          else Except.error Fault.outOfBounds

/-- Function `CounterItems`: the returned array (empty for `NULL`) paired with
the value stored in `*numItems`. -/
def CounterItems {α : Type} (c : counter α) : Except Fault (List (item α) × Nat) :=
  if c.numItems = 0 then Except.ok ([], 0)
  else
    match arrayOfItems c.root c.numItems [] with
    | Except.error e => Except.error e
    | Except.ok items => Except.ok (items, c.numItems)

/-! ## huffman.c: building the tree -/

/-- Modelled from the spec: `struct huffmanTree` is declared in huffman.h, which
is not among the sources; it has the four fields huffman.c reads and writes
(the spec's Tree Node): `character` (`NULL` in an internal node), `freq`, `left`
and `right`.  The constructor `null` is the `NULL` pointer. -/
inductive huffmanTree (α : Type) where
  | null : huffmanTree α
  | node (character : Option α) (freq : Int) (left right : huffmanTree α) : huffmanTree α
  deriving Repr, DecidableEq

/-- Test `p == NULL`. -/
def huffmanTree.isNull {α : Type} : huffmanTree α → Bool
  | huffmanTree.null => true
  | huffmanTree.node _ _ _ _ => false

/-- Field read `p->freq`; only used on slots known to be non-`NULL`. -/
def huffmanTree.freq {α : Type} : huffmanTree α → Int
  | huffmanTree.null => 0
  | huffmanTree.node _ f _ _ => f

/-- Function `createCounterBst`: adds every symbol read from the file. -/
def createCounterBst {α : Type} [LinearOrder α] (stream : List α) : counter α :=
  stream.foldl CounterAdd CounterNew

/-- The condition `*min == UNINITIALISED || nodes[i]->freq < nodes[*min]->freq`
of `findTwoMins`; `none` is `UNINITIALISED`. -/
def displaces {α : Type} (nodes : List (huffmanTree α)) (i : Nat) : Option Nat → Bool
  | none => true
  | some m => decide ((nodes.getD i huffmanTree.null).freq < (nodes.getD m huffmanTree.null).freq)

/-- One iteration of the `for` loop of `findTwoMins`, on the pair
`(*min1, *min2)`. -/
def findTwoMinsStep {α : Type} (nodes : List (huffmanTree α))
    (mins : Option Nat × Option Nat) (i : Nat) : Option Nat × Option Nat :=
  if (nodes.getD i huffmanTree.null).isNull then mins
  else if displaces nodes i mins.1 then (some i, mins.1)
  else if displaces nodes i mins.2 then (mins.1, some i)
  else mins

/-- Function `findTwoMins`: the values left in `*min1` and `*min2`. -/
def findTwoMins {α : Type} (nodes : List (huffmanTree α)) (size : Nat) :
    Option Nat × Option Nat :=
  (List.range size).foldl (findTwoMinsStep nodes) (none, none)

/-- Function `mergeTwoMins`: the array after the merge.  Reading `nodes[-1]` or
the `freq` of a `NULL` slot is a fault. -/
def mergeTwoMins {α : Type} (nodes : List (huffmanTree α)) (min1 min2 : Option Nat) :
    Except Fault (List (huffmanTree α)) :=
  match min1, min2 with
  | some m1, some m2 =>
      match nodes.getD m1 huffmanTree.null, nodes.getD m2 huffmanTree.null with
      | huffmanTree.node c1 f1 l1 r1, huffmanTree.node c2 f2 l2 r2 =>
          let new_node := huffmanTree.node none (wrapInt (f1 + f2))
            (huffmanTree.node c1 f1 l1 r1) (huffmanTree.node c2 f2 l2 r2)
          Except.ok ((nodes.set m1 new_node).set m2 huffmanTree.null)
      | _, _ => Except.error Fault.nullDeref
  | _, _ => Except.error Fault.outOfBounds

/-- The merge loop of `createHuffmanTree`, `for (i = 1; i < numItems; i++)`,
with `iters` iterations left; `size` is `numItems`. -/
def mergeLoop {α : Type} (size : Nat) :
    Nat → List (huffmanTree α) → Except Fault (List (huffmanTree α))
  | 0, nodes => Except.ok nodes
  | iters + 1, nodes =>
      let mins := findTwoMins nodes size
      match mergeTwoMins nodes mins.1 mins.2 with
      | Except.error e => Except.error e
      | Except.ok nodes1 => mergeLoop size iters nodes1

/-- The last loop of `createHuffmanTree`: the first non-`NULL` slot, `NULL` if
there is none. -/
def firstNonNull {α : Type} : List (huffmanTree α) → huffmanTree α
  | [] => huffmanTree.null
  | huffmanTree.null :: rest => firstNonNull rest
  | huffmanTree.node c f l r :: _ => huffmanTree.node c f l r

/-- The leaf that `createHuffmanTree` allocates for `items[i]`. -/
def leafOfItem {α : Type} (it : item α) : huffmanTree α :=
  huffmanTree.node (some it.character) it.freq huffmanTree.null huffmanTree.null

/-- The part of `createHuffmanTree` after the call of `CounterItems`, from the
array `items` and the count `numItems` to the returned root.  The loop that
allocates the leaves reads `items[0]` to `items[numItems - 1]`. -/
def treeOfItems {α : Type} (items : List (item α)) (numItems : Nat) :
    Except Fault (huffmanTree α) :=
  if numItems = 0 then Except.ok huffmanTree.null
  else if items.length < numItems then Except.error Fault.uninitialised
  else
    match mergeLoop numItems (numItems - 1) ((items.take numItems).map leafOfItem) with
    | Except.error e => Except.error e
    | Except.ok nodes => Except.ok (firstNonNull (nodes.take numItems))

/-- The spec's `build_tree`: `treeOfItems` on a frequency table given as the
list of its entries. -/
def build_tree {α : Type} (table : List (item α)) : Except Fault (huffmanTree α) :=
  treeOfItems table table.length

/-- Function `createHuffmanTree`, on the symbols of the input file. -/
def createHuffmanTree {α : Type} [LinearOrder α] (stream : List α) :
    Except Fault (huffmanTree α) :=
  match CounterItems (createCounterBst stream) with
  | Except.error e => Except.error e
  | Except.ok res => treeOfItems res.1 res.2

/-! ## huffman.c: the code table -/

/-- Pointer to a `struct bst` of huffman.c: `null` is `NULL`. -/
inductive bst (α : Type) where
  | null : bst α
  | node (character : α) (encoding : List Char) (left right : bst α) : bst α
  deriving Repr, DecidableEq

/-- The `struct nodeQueue` of huffman.c. -/
structure nodeQueue (α : Type) where
  node : huffmanTree α
  path : List Char
  deriving Repr

/-- Constant `MAX_QUEUE_LENGTH`. -/
def MAX_QUEUE_LENGTH : Nat := 1000

/-- Function `insertBst`. -/
def insertBst {α : Type} [LinearOrder α] : bst α → α → List Char → bst α
  | bst.null, character, currentPath => bst.node character currentPath bst.null bst.null
  | bst.node ch enc l r, character, currentPath =>
      if character < ch then bst.node ch enc (insertBst l character currentPath) r
      else if character > ch then bst.node ch enc l (insertBst r character currentPath)
      else bst.node ch enc l r

/-- Function `findNode`: the node found; comparing with the `character` of a
`NULL` node is a fault. -/
def findNode {α : Type} [LinearOrder α] : bst α → α → Except Fault (bst α)
  | bst.null, _ => Except.error Fault.nullDeref
  | bst.node ch enc l r, character =>
      if character < ch then findNode l character
      else if character > ch then findNode r character
      else Except.ok (bst.node ch enc l r)

/-- Field read `node->encoding`. -/
def bst.encoding {α : Type} : bst α → Except Fault (List Char)
  | bst.null => Except.error Fault.nullDeref
  | bst.node _ enc _ _ => Except.ok enc

/-- The local variables of `bfsTraversal`.  The list `queue` holds the cells
`queue[0]` to `queue[rear - 1]`, so `rear` is its length.  The `root` that is
allocated before the loop has no character and no encoding until the first
leaf is met: until then (`isFirstLeaf = false`) it is `bst.null`. -/
structure bfsState (α : Type) where
  queue : List (nodeQueue α)
  front : Nat
  isFirstLeaf : Bool
  root : bst α
  deriving Repr

/-- The statements `queue[rear] = temp; rear++;` on the array of
`MAX_QUEUE_LENGTH` cells. -/
def enqueue {α : Type} (queue : List (nodeQueue α)) (temp : nodeQueue α) :
    Except Fault (List (nodeQueue α)) :=
  if queue.length < MAX_QUEUE_LENGTH then Except.ok (queue ++ [temp])
  else Except.error Fault.outOfBounds

/-- The leaf branch of the loop body of `bfsTraversal`: the first leaf fills the
root in, the others are inserted with `insertBst`. -/
def bfsVisitLeaf {α : Type} [LinearOrder α] (st : bfsState α) (character : Option α)
    (currentPath : List Char) : Except Fault (Bool × bst α) :=
  match character with
  | none => Except.error Fault.nullDeref
  | some c =>
      if st.isFirstLeaf = false then Except.ok (true, bst.node c currentPath bst.null bst.null)
      else Except.ok (st.isFirstLeaf, insertBst st.root c currentPath)

/-- The two conditional enqueues that end the loop body of `bfsTraversal`: the
left child with the path extended by `'0'`, then the right child with the path
extended by `'1'`. -/
def enqueueChildren {α : Type} (queue : List (nodeQueue α)) (currentPath : List Char)
    (left right : huffmanTree α) : Except Fault (List (nodeQueue α)) :=
  match (if left.isNull then Except.ok queue
         else enqueue queue { node := left, path := currentPath ++ ['0'] }) with
  | Except.error e => Except.error e
  | Except.ok queue1 =>
      if right.isNull then Except.ok queue1
      else enqueue queue1 { node := right, path := currentPath ++ ['1'] }

/-- One iteration of the `while (front < rear)` loop of `bfsTraversal`. -/
def bfsStep {α : Type} [LinearOrder α] (st : bfsState α) : Except Fault (bfsState α) :=
  match st.queue.get? st.front with
  | none => Except.error Fault.outOfBounds
  | some current =>
      match current.node with
      | huffmanTree.null => Except.error Fault.nullDeref
      | huffmanTree.node character _ left right =>
          match (if left.isNull && right.isNull then bfsVisitLeaf st character current.path
                 else Except.ok (st.isFirstLeaf, st.root)) with
          | Except.error e => Except.error e
          | Except.ok flagRoot =>
              match enqueueChildren st.queue current.path left right with
              | Except.error e => Except.error e
              | Except.ok queue2 =>
                  Except.ok { queue := queue2, front := st.front + 1,
                              isFirstLeaf := flagRoot.1, root := flagRoot.2 }

/-- The `while (front < rear)` loop of `bfsTraversal`, run for at most `fuel`
iterations. -/
def bfsLoop {α : Type} [LinearOrder α] : Nat → bfsState α → Except Fault (bfsState α)
  | 0, st => Except.ok st
  | fuel + 1, st =>
      if st.front < st.queue.length then
        match bfsStep st with
        | Except.error e => Except.error e
        | Except.ok st1 => bfsLoop fuel st1
      else Except.ok st

/-- The state of `bfsTraversal` when the loop is entered. -/
def bfsInit {α : Type} (tree : huffmanTree α) : bfsState α :=
  { queue := [{ node := tree, path := [] }], front := 0, isFirstLeaf := false, root := bst.null }

/-- Function `bfsTraversal` (the spec's `derive_code_table`).  Each iteration
increments `front` and `rear` never exceeds `MAX_QUEUE_LENGTH`, so the loop
ends within `MAX_QUEUE_LENGTH` iterations. -/
def bfsTraversal {α : Type} [LinearOrder α] (tree : huffmanTree α) : Except Fault (bst α) :=
  match bfsLoop MAX_QUEUE_LENGTH (bfsInit tree) with
  | Except.error e => Except.error e
  | Except.ok st => Except.ok st.root

/-! ## huffman.c: encode and decode -/

/-- The body of the reading loop of `encode` for one symbol: the result string
with the symbol's code appended. -/
def encodeStep {α : Type} [LinearOrder α] (root : bst α) (result : List Char) (character : α) :
    Except Fault (List Char) :=
  match findNode root character with
  | Except.error e => Except.error e
  | Except.ok node =>
      match node.encoding with
      | Except.error e => Except.error e
      | Except.ok code => Except.ok (result ++ code)

/-- The reading loop of `encode`. -/
def encodeLoop {α : Type} [LinearOrder α] (root : bst α) :
    List Char → List α → Except Fault (List Char)
  | result, [] => Except.ok result
  | result, character :: rest =>
      match encodeStep root result character with
      | Except.error e => Except.error e
      | Except.ok result1 => encodeLoop root result1 rest

/-- Function `encode`, on the tree and the symbols of the input file; `none` is
the `NULL` result.  (The file name is not part of the embedding, so its `NULL`
test has no counterpart.) -/
def encode {α : Type} [LinearOrder α] (tree : huffmanTree α) (stream : List α) :
    Except Fault (Option (List Char)) :=
  match tree with
  | huffmanTree.null => Except.ok none
  | huffmanTree.node c f l r =>
      match bfsTraversal (huffmanTree.node c f l r) with
      | Except.error e => Except.error e
      | Except.ok root =>
          match encodeLoop root [] stream with
          | Except.error e => Except.error e
          | Except.ok result => Except.ok (some result)

/-- The assignments `current = current->left` and `current = current->right`
of `decode` for the character `ch` of the encoding. -/
def decodeMove {α : Type} (current : huffmanTree α) (ch : Char) : Except Fault (huffmanTree α) :=
  if ch = '0' then
    match current with
    | huffmanTree.null => Except.error Fault.nullDeref
    | huffmanTree.node _ _ left _ => Except.ok left
  else if ch = '1' then
    match current with
    | huffmanTree.null => Except.error Fault.nullDeref
    | huffmanTree.node _ _ _ right => Except.ok right
  else Except.ok current

/-- The `for` loop of `decode`: `tree` is the root, `current` the node reached,
`out` the values passed to `FileWrite` so far. -/
def decodeLoop {α : Type} (tree : huffmanTree α) :
    huffmanTree α → List (Option α) → List Char → Except Fault (List (Option α))
  | _, out, [] => Except.ok out
  | current, out, ch :: rest =>
      match decodeMove current ch with
      | Except.error e => Except.error e
      | Except.ok huffmanTree.null => Except.error Fault.nullDeref
      | Except.ok (huffmanTree.node character f left right) =>
          if left.isNull && right.isNull then decodeLoop tree tree (out ++ [character]) rest
          else decodeLoop tree (huffmanTree.node character f left right) out rest

/-- Function `decode`: the list of the values written to the output file. -/
def decode {α : Type} (tree : huffmanTree α) (encoding : List Char) :
    Except Fault (List (Option α)) :=
  decodeLoop tree tree [] encoding

/-! ## Vocabulary of the properties -/

/-- A leaf: a node whose two children are `NULL` (the test of `decode` and of
`bfsTraversal`). -/
def huffmanTree.isLeaf {α : Type} : huffmanTree α → Bool
  | huffmanTree.null => false
  | huffmanTree.node _ _ l r => l.isNull && r.isNull

/-- Number of leaves of a tree. -/
def numLeaves {α : Type} : huffmanTree α → Nat
  | huffmanTree.null => 0
  | huffmanTree.node _ _ l r => if l.isNull && r.isNull then 1 else numLeaves l + numLeaves r

/-- Number of internal nodes (nodes that are not leaves) of a tree. -/
def numInternal {α : Type} : huffmanTree α → Nat
  | huffmanTree.null => 0
  | huffmanTree.node _ _ l r =>
      if l.isNull && r.isNull then 0 else numInternal l + numInternal r + 1

/-- Number of nodes of a tree. -/
def numNodes {α : Type} : huffmanTree α → Nat
  | huffmanTree.null => 0
  | huffmanTree.node _ _ l r => numNodes l + numNodes r + 1

/-- The `character` and `freq` fields of the leaves, from left to right. -/
def leafEntries {α : Type} : huffmanTree α → List (Option α × Int)
  | huffmanTree.null => []
  | huffmanTree.node c f l r =>
      if l.isNull && r.isNull then [(c, f)] else leafEntries l ++ leafEntries r

/-- The frequencies of the leaves, from left to right. -/
def leafFreqs {α : Type} (t : huffmanTree α) : List Int :=
  (leafEntries t).map Prod.snd

/-- Every node that is not a leaf has a left and a right child. -/
def bothChildren {α : Type} : huffmanTree α → Prop
  | huffmanTree.null => True
  | huffmanTree.node _ _ l r =>
      ((l.isNull = true ∧ r.isNull = true) ∨ (l.isNull = false ∧ r.isNull = false)) ∧
        bothChildren l ∧ bothChildren r

/-- The frequency stored in every internal node is the sum of the frequencies
stored in its two children. -/
def sumOfChildren {α : Type} : huffmanTree α → Prop
  | huffmanTree.null => True
  | huffmanTree.node _ f l r =>
      ((l.isNull = true ∧ r.isNull = true) ∨ f = l.freq + r.freq) ∧
        sumOfChildren l ∧ sumOfChildren r

/-- The frequency stored in every internal node is the sum of the frequencies
stored in its two children, reduced to a 32-bit `int`. -/
def sumOfChildrenInt {α : Type} : huffmanTree α → Prop
  | huffmanTree.null => True
  | huffmanTree.node _ f l r =>
      ((l.isNull = true ∧ r.isNull = true) ∨ f = wrapInt (l.freq + r.freq)) ∧
        sumOfChildrenInt l ∧ sumOfChildrenInt r

/-- A table of two entries whose counts add up to `INT_MAX + 1`. -/
def overflowPair : List (item Nat) :=
  [⟨1, 1073741824⟩, ⟨2, 1073741824⟩]

/-- A table of four entries of count `2^30` each. -/
def overflowTable : List (item Nat) :=
  [⟨1, 1073741824⟩, ⟨2, 1073741824⟩, ⟨3, 1073741824⟩, ⟨4, 1073741824⟩]

/-- The chain `(((1 2) 3) 4)` with the frequencies that the merge loop stores
for `overflowTable`. -/
def overflowChain : huffmanTree Nat :=
  huffmanTree.node none 0
    (huffmanTree.node none (-1073741824)
      (huffmanTree.node none (-2147483648)
        (huffmanTree.node (some 1) 1073741824 huffmanTree.null huffmanTree.null)
        (huffmanTree.node (some 2) 1073741824 huffmanTree.null huffmanTree.null))
      (huffmanTree.node (some 3) 1073741824 huffmanTree.null huffmanTree.null))
    (huffmanTree.node (some 4) 1073741824 huffmanTree.null huffmanTree.null)

/-- The balanced tree `((1 2) (3 4))` over the entries of `overflowTable`. -/
def overflowBalanced : huffmanTree Nat :=
  huffmanTree.node none 0
    (huffmanTree.node none 0
      (huffmanTree.node (some 1) 1073741824 huffmanTree.null huffmanTree.null)
      (huffmanTree.node (some 2) 1073741824 huffmanTree.null huffmanTree.null))
    (huffmanTree.node none 0
      (huffmanTree.node (some 3) 1073741824 huffmanTree.null huffmanTree.null)
      (huffmanTree.node (some 4) 1073741824 huffmanTree.null huffmanTree.null))

/-- Sum over the leaves below a node at depth `d` of frequency times depth. -/
def wplAt {α : Type} : Nat → huffmanTree α → Int
  | _, huffmanTree.null => 0
  | d, huffmanTree.node _ f l r =>
      if l.isNull && r.isNull then f * d else wplAt (d + 1) l + wplAt (d + 1) r

/-- Weighted path length of a tree: sum over its leaves of frequency times
depth, the root being at depth 0. -/
def weightedPathLength {α : Type} (t : huffmanTree α) : Int :=
  wplAt 0 t

/-- The slots of the working array that are not `NULL`. -/
def activeNodes {α : Type} (nodes : List (huffmanTree α)) : List (huffmanTree α) :=
  nodes.filter (fun t => !t.isNull)

/-- In-order list of the entries of a counter tree. -/
def counterNode.toList {α : Type} : counterNode α → List (item α)
  | counterNode.null => []
  | counterNode.node ch f l r => l.toList ++ [{ character := ch, freq := f }] ++ r.toList

/-- Invariant of the loop of `bfsTraversal` on a tree of `N` nodes: the queue
fits the array, the cells from `front` on hold nodes whose leaves have a
character, and every node of the tree is either dequeued or below a pending
cell. -/
def bfsInv {α : Type} (N : Nat) (st : bfsState α) : Prop :=
  st.front ≤ st.queue.length ∧ st.queue.length ≤ MAX_QUEUE_LENGTH ∧
  (∀ q ∈ st.queue.drop st.front,
      q.node.isNull = false ∧ ∀ e ∈ leafEntries q.node, e.1.isSome = true) ∧
  st.front + ((st.queue.drop st.front).map (fun q => numNodes q.node)).sum = N

/-- Height of a tree: number of nodes on its longest branch. -/
def height {α : Type} : huffmanTree α → Nat
  | huffmanTree.null => 0
  | huffmanTree.node _ _ l r => max (height l) (height r) + 1

/-- The leaves below a node at depth `d`, each given by its frequency and its
depth. -/
def depthPairs {α : Type} : Nat → huffmanTree α → List (Int × Nat)
  | _, huffmanTree.null => []
  | d, huffmanTree.node _ f l r =>
      if l.isNull && r.isNull then [(f, d)] else depthPairs (d + 1) l ++ depthPairs (d + 1) r

/-- Cost of an assignment of depths to weights: the sum of weight times
depth. -/
def pairCost (M : Multiset (Int × Nat)) : Int :=
  (M.map (fun p => p.1 * (p.2 : Int))).sum

/-- Kraft sum of a multiset of depths, scaled by `2 ^ N`. -/
def kraftSum (N : Nat) (D : Multiset Nat) : Nat :=
  (D.map (fun d => 2 ^ (N - d))).sum

/-- The leaves of a tree, each given by its `character` field and the string
of `'0'` (left edge) and `'1'` (right edge) along the path from the root. -/
def leafPaths {α : Type} : huffmanTree α → List (Option α × List Char)
  | huffmanTree.null => []
  | huffmanTree.node c _ l r =>
      if l.isNull && r.isNull then [(c, [])]
      else (leafPaths l).map (fun e => (e.1, '0' :: e.2)) ++
        (leafPaths r).map (fun e => (e.1, '1' :: e.2))

/-- In-order list of the entries (symbol, encoding) of a code table. -/
def bst.toList {α : Type} : bst α → List (α × List Char)
  | bst.null => []
  | bst.node ch enc l r => l.toList ++ [(ch, enc)] ++ r.toList

/-- The leaves still to be visited by `bfsTraversal`: those below the pending
cells of the queue, with their paths from the root of the whole tree. -/
def pendingPaths {α : Type} (st : bfsState α) : List (Option α × List Char) :=
  (st.queue.drop st.front).flatMap
    (fun q => (leafPaths q.node).map (fun e => (e.1, q.path ++ e.2)))

/-- Invariant of the loop of `bfsTraversal` on the tree `t`, when the queue is
long enough for the nodes of `t`: the code table built so far is ordered and,
together with the leaves still to be visited, holds the leaves of `t` with
their paths. -/
def bfsTableInv {α : Type} [LinearOrder α] (t : huffmanTree α) (st : bfsState α) : Prop :=
  st.front ≤ st.queue.length ∧
  st.front + ((st.queue.drop st.front).map (fun q => numNodes q.node)).sum = numNodes t ∧
  (∀ q ∈ st.queue.drop st.front, q.node.isNull = false) ∧
  (st.isFirstLeaf = false → st.root = bst.null) ∧
  (st.root.toList.map Prod.fst).Sorted (· < ·) ∧
  (st.root.toList.map (fun e => (some e.1, e.2)) ++ pendingPaths st).Perm (leafPaths t)

/-- The cells that one iteration of `bfsTraversal` appends to the queue for the
children `left` and `right` of the node dequeued with path `currentPath`. -/
def childCells {α : Type} (currentPath : List Char) (left right : huffmanTree α) :
    List (nodeQueue α) :=
  (if left.isNull then [] else [{ node := left, path := currentPath ++ ['0'] }]) ++
    (if right.isNull then [] else [{ node := right, path := currentPath ++ ['1'] }])

/-- Field read `p->character`; only used on nodes known to be non-`NULL`. -/
def huffmanTree.character {α : Type} : huffmanTree α → Option α
  | huffmanTree.null => none
  | huffmanTree.node c _ _ _ => c

/-- The `for` loop of `decode` with the value of `current` kept: the result is
the node in `current` when the end of the encoding is reached, paired with the
values passed to `FileWrite`. -/
def decodeRun {α : Type} (tree : huffmanTree α) :
    huffmanTree α → List (Option α) → List Char →
      Except Fault (huffmanTree α × List (Option α))
  | current, out, [] => Except.ok (current, out)
  | current, out, ch :: rest =>
      match decodeMove current ch with
      | Except.error e => Except.error e
      | Except.ok huffmanTree.null => Except.error Fault.nullDeref
      | Except.ok (huffmanTree.node character f left right) =>
          if left.isNull && right.isNull then decodeRun tree tree (out ++ [character]) rest
          else decodeRun tree (huffmanTree.node character f left right) out rest

/-- The stream of Scenario A of the spec, `[a,a,a,b,b,c]`. -/
def scenarioStream : List Char := ['a', 'a', 'a', 'b', 'b', 'c']

/-- The node that the first merge of Scenario A creates from the leaves `c`
and `b`. -/
def scenarioMerged : huffmanTree Char :=
  huffmanTree.node none 3 (huffmanTree.node (some 'c') 1 huffmanTree.null huffmanTree.null)
    (huffmanTree.node (some 'b') 2 huffmanTree.null huffmanTree.null)

/-- The tree that `createHuffmanTree` returns for the stream of Scenario A. -/
def scenarioTree : huffmanTree Char :=
  huffmanTree.node none 6 (huffmanTree.node (some 'a') 3 huffmanTree.null huffmanTree.null)
    scenarioMerged

/-- An array of slots with a `NULL` slot and with ties, used as an example:
frequencies 2, `NULL`, 1, 1, 2. -/
def tieSlots : List (huffmanTree Char) :=
  [huffmanTree.node (some 'p') 2 huffmanTree.null huffmanTree.null,
   huffmanTree.null,
   huffmanTree.node (some 'q') 1 huffmanTree.null huffmanTree.null,
   huffmanTree.node (some 'r') 1 huffmanTree.null huffmanTree.null,
   huffmanTree.node (some 's') 2 huffmanTree.null huffmanTree.null]

/-- A table whose entry of lower count is at the larger position, used as an
example: `x` with count 2, then `y` with count 1. -/
def descendingTable : List (item Char) :=
  [{ character := 'x', freq := 2 }, { character := 'y', freq := 1 }]

/-- The frequency table of Scenario A of the spec. -/
def scenarioTable : List (item Char) :=
  [{ character := 'a', freq := 3 }, { character := 'b', freq := 2 },
   { character := 'c', freq := 1 }]

/-- The leaves of a tree from left to right, each given by its `character`, its
`freq` and its path from the root. -/
def leafRows {α : Type} : huffmanTree α → List (Option α × Int × List Char)
  | huffmanTree.null => []
  | huffmanTree.node c f l r =>
      if l.isNull && r.isNull then [(c, f, [])]
      else (leafRows l).map (fun e => (e.1, e.2.1, '0' :: e.2.2)) ++
        (leafRows r).map (fun e => (e.1, e.2.1, '1' :: e.2.2))

/-- The bit-path of a symbol in a tree: the path of the first leaf that carries
the symbol, the empty string when there is none. -/
def codeOf {α : Type} [DecidableEq α] (t : huffmanTree α) (x : α) : List Char :=
  match (leafPaths t).find? (fun e => decide (e.1 = some x)) with
  | some e => e.2
  | none => []

/-! # Properties -/

/-- A value of the 32-bit range is stored unchanged. -/
theorem wrapInt_eq_self (z : Int) (hlo : -2147483648 ≤ z) (hhi : z ≤ 2147483647) :
    wrapInt z = z := by
  unfold wrapInt
  omega

/-- Reducing an operand before an addition does not change the reduced sum. -/
theorem wrapInt_wrapInt_add (a b : Int) : wrapInt (wrapInt a + b) = wrapInt (a + b) := by
  unfold wrapInt
  omega

/-- A stored value is in the 32-bit range. -/
theorem wrapInt_range (z : Int) : -2147483648 ≤ wrapInt z ∧ wrapInt z ≤ 2147483647 := by
  unfold wrapInt
  omega

theorem wrapInt_zero : wrapInt 0 = 0 := by
  unfold wrapInt
  omega

/-- The value `INT_MAX + 1` is stored as `-2147483648`. -/
theorem wrapInt_two_pow_31 : wrapInt 2147483648 = -2147483648 := by
  unfold wrapInt
  omega

/-- The count of a symbol that occurs at most `INT_MAX` times is stored unchanged. -/
theorem wrapInt_natCast (n : Nat) (h : n ≤ 2147483647) : wrapInt (n : Int) = (n : Int) :=
  wrapInt_eq_self _ (by omega) (by omega)

/-! ## Selection of the two minima -/

section FindTwoMins
variable {α : Type}

/-- Slot `i` of the array holds a node. -/
theorem isNull_getD_false_lt (nodes : List (huffmanTree α)) (i : Nat)
    (h : (nodes.getD i huffmanTree.null).isNull = false) : i < nodes.length := by
  by_contra hlt
  rw [List.getD_eq_default _ _ (Nat.le_of_not_lt hlt)] at h
  simp [huffmanTree.isNull] at h

theorem findTwoMins_succ (nodes : List (huffmanTree α)) (k : Nat) :
    findTwoMins nodes (k + 1) = findTwoMinsStep nodes (findTwoMins nodes k) k := by
  simp [findTwoMins, List.range_succ, List.foldl_append]

/-- Loop invariant of `findTwoMins` after the slots below `k` were scanned. -/
theorem findTwoMins_inv (nodes : List (huffmanTree α)) (k : Nat) :
    (∀ i, (findTwoMins nodes k).1 = some i →
        i < k ∧ (nodes.getD i huffmanTree.null).isNull = false) ∧
    (∀ j, (findTwoMins nodes k).2 = some j →
        j < k ∧ (nodes.getD j huffmanTree.null).isNull = false ∧
        ∃ i, (findTwoMins nodes k).1 = some i ∧ i ≠ j ∧
          (nodes.getD i huffmanTree.null).freq ≤ (nodes.getD j huffmanTree.null).freq) ∧
    (∀ m, m < k → (nodes.getD m huffmanTree.null).isNull = false →
        ∃ i, (findTwoMins nodes k).1 = some i ∧
          (nodes.getD i huffmanTree.null).freq ≤ (nodes.getD m huffmanTree.null).freq ∧
          (m ≠ i → ∃ j, (findTwoMins nodes k).2 = some j ∧
            (nodes.getD j huffmanTree.null).freq ≤ (nodes.getD m huffmanTree.null).freq)) := by
  induction k with
  | zero => simp [findTwoMins]
  | succ k ih =>
    rw [findTwoMins_succ]
    obtain ⟨h1, h2, h3⟩ := ih
    generalize findTwoMins nodes k = mins at h1 h2 h3
    obtain ⟨m1, m2⟩ := mins
    simp only at h1 h2 h3
    unfold findTwoMinsStep
    by_cases hnull : (nodes.getD k huffmanTree.null).isNull = true
    · simp only [hnull, if_true]
      refine ⟨fun i hi => ⟨Nat.lt_succ_of_lt (h1 i hi).1, (h1 i hi).2⟩,
        fun j hj => ⟨Nat.lt_succ_of_lt (h2 j hj).1, (h2 j hj).2⟩, ?_⟩
      intro m hm hact
      have hmk : m ≠ k := by
        rintro rfl
        rw [hnull] at hact
        exact Bool.noConfusion hact
      exact h3 m (by omega) hact
    · have hact : (nodes.getD k huffmanTree.null).isNull = false := by
        simpa using hnull
      simp only [hact, Bool.false_eq_true, if_false]
      cases m1 with
      | none =>
        simp only [displaces, if_true]
        refine ⟨?_, ?_, ?_⟩
        · intro i hi
          simp only [Option.some.injEq] at hi
          subst hi
          exact ⟨Nat.lt_succ_self _, hact⟩
        · intro j hj
          simp at hj
        · intro m hm hm_act
          by_cases hmk : m = k
          · subst hmk
            exact ⟨m, rfl, le_refl _, fun h => absurd rfl h⟩
          · obtain ⟨i, hi, _⟩ := h3 m (by omega) hm_act
            simp at hi
      | some a =>
        obtain ⟨ha_lt, ha_act⟩ := h1 a rfl
        by_cases hlt : (nodes.getD k huffmanTree.null).freq < (nodes.getD a huffmanTree.null).freq
        · simp only [displaces, hlt, decide_True, if_true]
          refine ⟨?_, ?_, ?_⟩
          · intro i hi
            simp only [Option.some.injEq] at hi
            subst hi
            exact ⟨Nat.lt_succ_self _, hact⟩
          · intro j hj
            simp only [Option.some.injEq] at hj
            subst hj
            exact ⟨by omega, ha_act, k, rfl, by omega, le_of_lt hlt⟩
          · intro m hm hm_act
            refine ⟨k, rfl, ?_, ?_⟩
            · by_cases hmk : m = k
              · subst hmk; exact le_refl _
              · obtain ⟨i, hi, hle, _⟩ := h3 m (by omega) hm_act
                simp only [Option.some.injEq] at hi
                subst hi
                exact le_of_lt (lt_of_lt_of_le hlt hle)
            · intro hmk
              obtain ⟨i, hi, hle, _⟩ := h3 m (by omega) hm_act
              simp only [Option.some.injEq] at hi
              subst hi
              exact ⟨a, rfl, hle⟩
        · have hge : (nodes.getD a huffmanTree.null).freq ≤ (nodes.getD k huffmanTree.null).freq :=
            not_lt.mp hlt
          simp only [displaces, hlt, decide_False, Bool.false_eq_true, if_false]
          cases m2 with
          | none =>
            simp only [if_true]
            refine ⟨?_, ?_, ?_⟩
            · intro i hi
              simp only [Option.some.injEq] at hi
              subst hi
              exact ⟨by omega, ha_act⟩
            · intro j hj
              simp only [Option.some.injEq] at hj
              subst hj
              exact ⟨Nat.lt_succ_self _, hact, a, rfl, by omega, hge⟩
            · intro m hm hm_act
              by_cases hmk : m = k
              · subst hmk
                exact ⟨a, rfl, hge, fun _ => ⟨m, rfl, le_refl _⟩⟩
              · obtain ⟨i, hi, hle, h2nd⟩ := h3 m (by omega) hm_act
                refine ⟨i, hi, hle, fun hmi => ?_⟩
                obtain ⟨j, hj, _⟩ := h2nd hmi
                simp at hj
          | some b =>
            obtain ⟨hb_lt, hb_act, i0, hi0, hne, hle0⟩ := h2 b rfl
            simp only [Option.some.injEq] at hi0
            subst hi0
            by_cases hlt2 : (nodes.getD k huffmanTree.null).freq <
                (nodes.getD b huffmanTree.null).freq
            · simp only [hlt2, decide_True, if_true]
              refine ⟨?_, ?_, ?_⟩
              · intro i hi
                simp only [Option.some.injEq] at hi
                subst hi
                exact ⟨by omega, ha_act⟩
              · intro j hj
                simp only [Option.some.injEq] at hj
                subst hj
                exact ⟨Nat.lt_succ_self _, hact, a, rfl, by omega, hge⟩
              · intro m hm hm_act
                by_cases hmk : m = k
                · subst hmk
                  exact ⟨a, rfl, hge, fun _ => ⟨m, rfl, le_refl _⟩⟩
                · obtain ⟨i, hi, hle, h2nd⟩ := h3 m (by omega) hm_act
                  refine ⟨i, hi, hle, fun hmi => ?_⟩
                  obtain ⟨j, hj, hjle⟩ := h2nd hmi
                  simp only [Option.some.injEq] at hj
                  subst hj
                  exact ⟨k, rfl, le_of_lt (lt_of_lt_of_le hlt2 hjle)⟩
            · simp only [hlt2, decide_False, Bool.false_eq_true, if_false]
              refine ⟨?_, ?_, ?_⟩
              · intro i hi
                simp only [Option.some.injEq] at hi
                subst hi
                exact ⟨by omega, ha_act⟩
              · intro j hj
                simp only [Option.some.injEq] at hj
                subst hj
                exact ⟨by omega, hb_act, a, rfl, hne, hle0⟩
              · intro m hm hm_act
                by_cases hmk : m = k
                · subst hmk
                  exact ⟨a, rfl, hge, fun _ => ⟨b, rfl, not_lt.mp hlt2⟩⟩
                · exact h3 m (by omega) hm_act

end FindTwoMins

section Merge
variable {α : Type}

@[simp] theorem isNull_null : (huffmanTree.null : huffmanTree α).isNull = true := rfl

@[simp] theorem isNull_node (c : Option α) (f : Int) (l r : huffmanTree α) :
    (huffmanTree.node c f l r).isNull = false := rfl

theorem getD_set_ne (L : List (huffmanTree α)) (i j : Nat) (x : huffmanTree α) (h : i ≠ j) :
    (L.set i x).getD j huffmanTree.null = L.getD j huffmanTree.null := by
  simp [List.getD_eq_getElem?_getD, List.getElem?_set_ne h]

theorem getD_set_self (L : List (huffmanTree α)) (i : Nat) (x : huffmanTree α)
    (h : i < L.length) : (L.set i x).getD i huffmanTree.null = x := by
  simp [List.getD_eq_getElem?_getD, List.getElem?_set_self, h]

/-- Emptying an active slot removes its node from the active nodes. -/
theorem activeNodes_set_null (L : List (huffmanTree α)) (i : Nat)
    (hact : (L.getD i huffmanTree.null).isNull = false) :
    (activeNodes L).Perm
      (L.getD i huffmanTree.null :: activeNodes (L.set i huffmanTree.null)) := by
  induction L generalizing i with
  | nil => simp [huffmanTree.isNull] at hact
  | cons x xs ih =>
    cases i with
    | zero =>
      simp only [List.getD_cons_zero] at hact ⊢
      simp [activeNodes, List.filter_cons, hact]
    | succ i =>
      simp only [List.getD_cons_succ] at hact ⊢
      have := ih i hact
      simp only [activeNodes, List.set_cons_succ, List.filter_cons] at this ⊢
      split
      · exact (List.Perm.cons x this).trans (List.Perm.swap _ _ _)
      · exact this

/-- Filling an empty slot adds the node to the active nodes. -/
theorem activeNodes_set_of_null (L : List (huffmanTree α)) (i : Nat) (x : huffmanTree α)
    (hi : i < L.length) (hnull : (L.getD i huffmanTree.null).isNull = true)
    (hx : x.isNull = false) :
    (activeNodes (L.set i x)).Perm (x :: activeNodes L) := by
  induction L generalizing i with
  | nil => simp at hi
  | cons y ys ih =>
    cases i with
    | zero =>
      simp only [List.getD_cons_zero] at hnull
      simp [activeNodes, List.filter_cons, hnull, hx]
    | succ i =>
      simp only [List.getD_cons_succ] at hnull
      have := ih i (by simpa using hi) hnull
      simp only [activeNodes, List.set_cons_succ, List.filter_cons] at this ⊢
      split
      · exact (List.Perm.cons y this).trans (List.Perm.swap _ _ _)
      · exact this

theorem mem_activeNodes_iff (L : List (huffmanTree α)) (t : huffmanTree α) :
    t ∈ activeNodes L ↔ t.isNull = false ∧ ∃ m, m < L.length ∧ L.getD m huffmanTree.null = t := by
  unfold activeNodes
  rw [List.mem_filter]
  constructor
  · rintro ⟨hmem, hnn⟩
    obtain ⟨m, hm, rfl⟩ := List.mem_iff_getElem.mp hmem
    exact ⟨by simpa using hnn, m, hm, by simp [List.getD_eq_getElem?_getD, hm]⟩
  · rintro ⟨hnn, m, hm, rfl⟩
    refine ⟨?_, by simpa using hnn⟩
    rw [List.getD_eq_getElem?_getD, List.getElem?_eq_getElem hm]
    simp

/-- Effect of `mergeTwoMins` on two distinct active slots. -/
theorem mergeTwoMins_ok (nodes : List (huffmanTree α)) (i j : Nat)
    (hi : (nodes.getD i huffmanTree.null).isNull = false)
    (hj : (nodes.getD j huffmanTree.null).isNull = false) :
    mergeTwoMins nodes (some i) (some j) =
      Except.ok ((nodes.set i (huffmanTree.node none
        (wrapInt ((nodes.getD i huffmanTree.null).freq + (nodes.getD j huffmanTree.null).freq))
        (nodes.getD i huffmanTree.null) (nodes.getD j huffmanTree.null))).set j
          huffmanTree.null) := by
  unfold mergeTwoMins
  cases ha : nodes.getD i huffmanTree.null with
  | null => rw [ha] at hi; simp [huffmanTree.isNull] at hi
  | node c1 f1 l1 r1 =>
    cases hb : nodes.getD j huffmanTree.null with
    | null => rw [hb] at hj; simp [huffmanTree.isNull] at hj
    | node c2 f2 l2 r2 =>
      simp only [ha, hb]
      rfl

/-- The active nodes before and after a merge of the slots `i` and `j`. -/
theorem activeNodes_merge (nodes : List (huffmanTree α)) (i j : Nat) (hij : i ≠ j)
    (hi : (nodes.getD i huffmanTree.null).isNull = false)
    (hj : (nodes.getD j huffmanTree.null).isNull = false) (x : huffmanTree α)
    (hx : x.isNull = false) :
    ∃ rest : List (huffmanTree α),
      (activeNodes nodes).Perm
        (nodes.getD i huffmanTree.null :: nodes.getD j huffmanTree.null :: rest) ∧
      (activeNodes ((nodes.set i x).set j huffmanTree.null)).Perm (x :: rest) ∧
      ∀ c ∈ rest, ∃ m, m ≠ i ∧ m ≠ j ∧ (nodes.getD m huffmanTree.null).isNull = false ∧
        nodes.getD m huffmanTree.null = c := by
  have hilt := isNull_getD_false_lt nodes i hi
  have hjlt := isNull_getD_false_lt nodes j hj
  refine ⟨activeNodes ((nodes.set i huffmanTree.null).set j huffmanTree.null), ?_, ?_, ?_⟩
  · have h1 := activeNodes_set_null nodes i hi
    have hj2 : ((nodes.set i huffmanTree.null).getD j huffmanTree.null).isNull = false := by
      rw [getD_set_ne _ _ _ _ hij]; exact hj
    have h2 := activeNodes_set_null (nodes.set i huffmanTree.null) j hj2
    rw [getD_set_ne _ _ _ _ hij] at h2
    exact h1.trans (List.Perm.cons _ h2)
  · have hcomm : (nodes.set i x).set j huffmanTree.null =
        ((nodes.set i huffmanTree.null).set j huffmanTree.null).set i x := by
      rw [List.set_comm _ _ _ (Ne.symm hij), List.set_set]
    rw [hcomm]
    apply activeNodes_set_of_null
    · simpa using hilt
    · rw [getD_set_ne _ _ _ _ (Ne.symm hij), getD_set_self _ _ _ hilt]
      rfl
    · exact hx
  · intro c hc
    rw [mem_activeNodes_iff] at hc
    obtain ⟨hcn, m, hm, hmc⟩ := hc
    have hmj : m ≠ j := by
      rintro rfl
      rw [getD_set_self _ _ _ (by simpa using hjlt)] at hmc
      rw [← hmc] at hcn
      simp [huffmanTree.isNull] at hcn
    rw [getD_set_ne _ _ _ _ (Ne.symm hmj)] at hmc
    have hmi : m ≠ i := by
      rintro rfl
      rw [getD_set_self _ _ _ hilt] at hmc
      rw [← hmc] at hcn
      simp [huffmanTree.isNull] at hcn
    rw [getD_set_ne _ _ _ _ (Ne.symm hmi)] at hmc
    exact ⟨m, hmi, hmj, by rw [hmc]; exact hcn, hmc⟩

/-- With at least two active slots among the first `size`, `findTwoMins` selects
two distinct active slots: the first holds a minimum frequency, the second a
minimum among the others. -/
theorem findTwoMins_two (nodes : List (huffmanTree α)) (size : Nat)
    (hlen : nodes.length = size) (h2 : 2 ≤ (activeNodes nodes).length) :
    ∃ i j, findTwoMins nodes size = (some i, some j) ∧ i ≠ j ∧
      (nodes.getD i huffmanTree.null).isNull = false ∧
      (nodes.getD j huffmanTree.null).isNull = false ∧
      (nodes.getD i huffmanTree.null).freq ≤ (nodes.getD j huffmanTree.null).freq ∧
      ∀ m, m ≠ i → (nodes.getD m huffmanTree.null).isNull = false →
        (nodes.getD j huffmanTree.null).freq ≤ (nodes.getD m huffmanTree.null).freq := by
  obtain ⟨h1, h2i, h3⟩ := findTwoMins_inv nodes size
  -- an active slot exists
  have hex : ∃ p, (nodes.getD p huffmanTree.null).isNull = false := by
    have hpos : 0 < (activeNodes nodes).length := by omega
    obtain ⟨t, ht⟩ := List.exists_mem_of_length_pos hpos
    rw [mem_activeNodes_iff] at ht
    obtain ⟨hn, m, _, rfl⟩ := ht
    exact ⟨m, hn⟩
  obtain ⟨p, hp⟩ := hex
  have hplt : p < size := hlen ▸ isNull_getD_false_lt nodes p hp
  obtain ⟨i, hi, _, _⟩ := h3 p hplt hp
  obtain ⟨hilt, hiact⟩ := h1 i hi
  -- a second active slot exists
  have hex2 : ∃ q, q ≠ i ∧ (nodes.getD q huffmanTree.null).isNull = false := by
    by_contra hcon
    push_neg at hcon
    have hperm := activeNodes_set_null nodes i hiact
    have hnil : activeNodes (nodes.set i huffmanTree.null) = [] := by
      rw [List.eq_nil_iff_forall_not_mem]
      intro t ht
      rw [mem_activeNodes_iff] at ht
      obtain ⟨hn, m, hm, rfl⟩ := ht
      by_cases hmi : m = i
      · subst hmi
        rw [getD_set_self _ _ _ (by simpa using hm)] at hn
        simp [huffmanTree.isNull] at hn
      · rw [getD_set_ne _ _ _ _ (Ne.symm hmi)] at hn
        have := hcon m hmi
        exact this hn
    have := hperm.length_eq
    rw [hnil] at this
    simp at this
    omega
  obtain ⟨q, hqi, hq⟩ := hex2
  have hqlt : q < size := hlen ▸ isNull_getD_false_lt nodes q hq
  obtain ⟨i2, hi2, _, hsnd⟩ := h3 q hqlt hq
  rw [hi] at hi2
  simp only [Option.some.injEq] at hi2
  subst hi2
  obtain ⟨j, hj, _⟩ := hsnd hqi
  obtain ⟨_, hjact, i3, hi3, hne, hle⟩ := h2i j hj
  rw [hi] at hi3
  simp only [Option.some.injEq] at hi3
  subst hi3
  refine ⟨i, j, Prod.ext hi hj, hne, hiact, hjact, hle, ?_⟩
  intro m hmi hm
  have hmlt : m < size := hlen ▸ isNull_getD_false_lt nodes m hm
  obtain ⟨i4, hi4, _, hsnd4⟩ := h3 m hmlt hm
  rw [hi] at hi4
  simp only [Option.some.injEq] at hi4
  subst hi4
  obtain ⟨j4, hj4, hle4⟩ := hsnd4 hmi
  rw [hj] at hj4
  simp only [Option.some.injEq] at hj4
  subst hj4
  exact hle4

/-- Induction rule for the merge loop: a property of the multiset of active
nodes that every merge of two minimal nodes preserves holds for the single node
that is left after the loop, and the loop does not fault. -/
theorem mergeLoop_rule (Inv : Multiset (huffmanTree α) → Prop)
    (hstep : ∀ (a b : huffmanTree α) (rest : Multiset (huffmanTree α)),
      a.isNull = false → b.isNull = false → a.freq ≤ b.freq →
      (∀ c ∈ rest, b.freq ≤ c.freq) → Inv (a ::ₘ b ::ₘ rest) →
      Inv (huffmanTree.node none (wrapInt (a.freq + b.freq)) a b ::ₘ rest))
    (size k : Nat) (nodes : List (huffmanTree α)) (hlen : nodes.length = size)
    (hcard : (activeNodes nodes).length = k + 1)
    (hinv : Inv (activeNodes nodes : Multiset (huffmanTree α))) :
    ∃ nodes1 t, mergeLoop size k nodes = Except.ok nodes1 ∧ nodes1.length = size ∧
      activeNodes nodes1 = [t] ∧ Inv {t} := by
  induction k generalizing nodes with
  | zero =>
    obtain ⟨t, ht⟩ := List.length_eq_one.mp hcard
    refine ⟨nodes, t, rfl, hlen, ht, ?_⟩
    rw [ht] at hinv
    exact hinv
  | succ k ih =>
    obtain ⟨i, j, hfind, hij, hi, hj, hle, hmin⟩ :=
      findTwoMins_two nodes size hlen (by omega)
    have hmerge := mergeTwoMins_ok nodes i j hi hj
    obtain ⟨rest, hp1, hp2, hrest⟩ := activeNodes_merge nodes i j hij hi hj
      (huffmanTree.node none
        (wrapInt ((nodes.getD i huffmanTree.null).freq + (nodes.getD j huffmanTree.null).freq))
        (nodes.getD i huffmanTree.null) (nodes.getD j huffmanTree.null)) rfl
    generalize hn2 : (nodes.set i (huffmanTree.node none
        (wrapInt ((nodes.getD i huffmanTree.null).freq + (nodes.getD j huffmanTree.null).freq))
        (nodes.getD i huffmanTree.null) (nodes.getD j huffmanTree.null))).set j
          huffmanTree.null = nodes2 at hmerge hp2
    have hlen2 : nodes2.length = size := by
      rw [← hn2]
      simpa using hlen
    have hinv1 : Inv (nodes.getD i huffmanTree.null ::ₘ nodes.getD j huffmanTree.null ::ₘ
        (rest : Multiset (huffmanTree α))) := by
      have : (activeNodes nodes : Multiset (huffmanTree α)) =
          nodes.getD i huffmanTree.null ::ₘ nodes.getD j huffmanTree.null ::ₘ
            (rest : Multiset (huffmanTree α)) := by
        rw [Multiset.cons_coe, Multiset.cons_coe]
        exact Multiset.coe_eq_coe.mpr hp1
      rw [← this]
      exact hinv
    have hinv2 := hstep _ _ _ hi hj hle (by
      intro c hc
      obtain ⟨m, hmi, _, hm, rfl⟩ := hrest c (by simpa using hc)
      exact hmin m hmi hm) hinv1
    have hl1 := hp1.length_eq
    have hl2 := hp2.length_eq
    simp only [List.length_cons] at hl1 hl2
    have hinv3 : Inv (activeNodes nodes2 : Multiset (huffmanTree α)) := by
      have : (activeNodes nodes2 : Multiset (huffmanTree α)) =
          huffmanTree.node none
            (wrapInt ((nodes.getD i huffmanTree.null).freq + (nodes.getD j huffmanTree.null).freq))
            (nodes.getD i huffmanTree.null) (nodes.getD j huffmanTree.null) ::ₘ
            (rest : Multiset (huffmanTree α)) := by
        rw [Multiset.cons_coe]
        exact Multiset.coe_eq_coe.mpr hp2
      rw [this]
      exact hinv2
    obtain ⟨nodes1, t, hloop, hl, hact, hI⟩ := ih nodes2 hlen2 (by omega) hinv3
    refine ⟨nodes1, t, ?_, hl, hact, hI⟩
    simp only [mergeLoop, hfind, hmerge]
    exact hloop

theorem firstNonNull_eq (L : List (huffmanTree α)) :
    firstNonNull L = (activeNodes L).headD huffmanTree.null := by
  induction L with
  | nil => rfl
  | cons x xs ih =>
    cases x with
    | null => simpa [firstNonNull, activeNodes] using ih
    | node c f l r => simp [firstNonNull, activeNodes]

theorem activeNodes_map_leafOfItem (table : List (item α)) :
    activeNodes (table.map leafOfItem) = table.map leafOfItem := by
  unfold activeNodes
  rw [List.filter_eq_self]
  intro t ht
  obtain ⟨it, _, rfl⟩ := List.mem_map.mp ht
  rfl

/-- Induction rule for `build_tree` on a table that is not empty. -/
theorem build_tree_rule (Inv : Multiset (huffmanTree α) → Prop)
    (hstep : ∀ (a b : huffmanTree α) (rest : Multiset (huffmanTree α)),
      a.isNull = false → b.isNull = false → a.freq ≤ b.freq →
      (∀ c ∈ rest, b.freq ≤ c.freq) → Inv (a ::ₘ b ::ₘ rest) →
      Inv (huffmanTree.node none (wrapInt (a.freq + b.freq)) a b ::ₘ rest))
    (table : List (item α)) (hne : table ≠ [])
    (hinit : Inv ((table.map leafOfItem : List (huffmanTree α)) : Multiset (huffmanTree α))) :
    ∃ t, build_tree table = Except.ok t ∧ t.isNull = false ∧ Inv {t} := by
  have hpos : 0 < table.length := List.length_pos.mpr hne
  obtain ⟨nodes1, t, hloop, hl, hact, hI⟩ :=
    mergeLoop_rule Inv hstep table.length (table.length - 1) (table.map leafOfItem)
      (by simp) (by rw [activeNodes_map_leafOfItem]; simp; omega)
      (by rw [activeNodes_map_leafOfItem]; exact hinit)
  refine ⟨t, ?_, ?_, hI⟩
  · unfold build_tree treeOfItems
    have h0 : ¬ table.length = 0 := by omega
    simp only [h0, if_false, lt_irrefl, List.take_length, hloop]
    rw [← hl, List.take_length, firstNonNull_eq, hact]
    rfl
  · have : t ∈ activeNodes nodes1 := by rw [hact]; simp
    exact ((mem_activeNodes_iff _ _).mp this).1

theorem build_tree_nil : build_tree ([] : List (item α)) = Except.ok huffmanTree.null := rfl

end Merge

section Shape
variable {α : Type}

theorem leafEntries_merge (c : Option α) (f : Int) (a b : huffmanTree α)
    (ha : a.isNull = false) :
    leafEntries (huffmanTree.node c f a b) = leafEntries a ++ leafEntries b := by
  simp [leafEntries, ha]

theorem numLeaves_merge (c : Option α) (f : Int) (a b : huffmanTree α)
    (ha : a.isNull = false) :
    numLeaves (huffmanTree.node c f a b) = numLeaves a + numLeaves b := by
  simp [numLeaves, ha]

theorem numInternal_merge (c : Option α) (f : Int) (a b : huffmanTree α)
    (ha : a.isNull = false) :
    numInternal (huffmanTree.node c f a b) = numInternal a + numInternal b + 1 := by
  simp [numInternal, ha]

theorem numLeaves_eq_length (t : huffmanTree α) : numLeaves t = (leafEntries t).length := by
  induction t with
  | null => rfl
  | node c f l r ihl ihr =>
    simp only [numLeaves, leafEntries]
    split
    · rfl
    · simp [ihl, ihr]

theorem numNodes_eq (t : huffmanTree α) : numNodes t = numLeaves t + numInternal t := by
  induction t with
  | null => rfl
  | node c f l r ihl ihr =>
    simp only [numNodes, numLeaves, numInternal]
    split
    · rename_i h
      simp only [Bool.and_eq_true] at h
      cases l <;> cases r <;> simp_all [numNodes, numLeaves, numInternal]
    · omega

theorem bind_leafEntries_map_leafOfItem (table : List (item α)) :
    (table.map leafOfItem).flatMap leafEntries =
      table.map (fun it => (some it.character, it.freq)) := by
  induction table with
  | nil => rfl
  | cons it rest ih =>
    simp only [List.map_cons, List.flatMap_cons, ih]
    rfl

/-- Shape of the tree built from a table that is not empty. -/
theorem build_tree_shape_of_ne_nil (table : List (item α)) (hne : table ≠ []) :
    ∃ t, build_tree table = Except.ok t ∧ t.isNull = false ∧
      numLeaves t = table.length ∧ numInternal t + 1 = table.length ∧ bothChildren t ∧
      (leafEntries t).Perm (table.map (fun it => (some it.character, it.freq))) := by
  obtain ⟨t, hb, hn, hI⟩ := build_tree_rule
    (fun F => (∀ t ∈ F, t.isNull = false ∧ bothChildren t ∧ numLeaves t = numInternal t + 1) ∧
      F.bind (fun t => (leafEntries t : Multiset (Option α × Int))) =
        ((table.map (fun it => (some it.character, it.freq)) : List (Option α × Int)) :
          Multiset (Option α × Int)))
    (by
      intro a b rest ha hb _ _ hI
      obtain ⟨hall, hbind⟩ := hI
      constructor
      · intro t ht
        rw [Multiset.mem_cons] at ht
        rcases ht with rfl | ht
        · obtain ⟨_, hba, hla⟩ := hall a (by simp)
          obtain ⟨_, hbb, hlb⟩ := hall b (by simp)
          refine ⟨rfl, ⟨Or.inr ⟨ha, hb⟩, hba, hbb⟩, ?_⟩
          rw [numLeaves_merge _ _ _ _ ha, numInternal_merge _ _ _ _ ha]
          omega
        · exact hall t (by simp [ht])
      · rw [← hbind]
        simp only [Multiset.cons_bind, leafEntries_merge _ _ _ _ ha]
        rw [← Multiset.coe_add, add_assoc])
    table hne
    (by
      constructor
      · intro t ht
        obtain ⟨it, _, rfl⟩ := List.mem_map.mp (by simpa using ht)
        exact ⟨rfl, ⟨Or.inl ⟨rfl, rfl⟩, trivial, trivial⟩, rfl⟩
      · rw [Multiset.coe_bind, bind_leafEntries_map_leafOfItem])
  obtain ⟨hall, hbind⟩ := hI
  obtain ⟨_, hbc, hcount⟩ := hall t (by simp)
  rw [Multiset.singleton_bind] at hbind
  have hperm := Multiset.coe_eq_coe.mp hbind
  have hlen : numLeaves t = table.length := by
    rw [numLeaves_eq_length, hperm.length_eq]
    simp
  exact ⟨t, hb, hn, hlen, by omega, hbc, hperm⟩

/-- C2: for every frequency table with `n ≥ 2` entries, `build_tree` returns a
tree with exactly `n` leaves and `n - 1` internal nodes, in which every internal
node has a left and a right child, and whose leaves carry exactly the entries
(symbol, count) of the table, each once. -/
theorem build_tree_shape (table : List (item α)) (hn : 2 ≤ table.length) :
    ∃ t, build_tree table = Except.ok t ∧
      numLeaves t = table.length ∧ numInternal t = table.length - 1 ∧ bothChildren t ∧
      (leafEntries t).Perm (table.map (fun it => (some it.character, it.freq))) := by
  have hne : table ≠ [] := by
    rintro rfl
    simp at hn
  obtain ⟨t, hb, _, hl, hi, hbc, hperm⟩ := build_tree_shape_of_ne_nil table hne
  exact ⟨t, hb, hl, by omega, hbc, hperm⟩

theorem build_tree_shape_witness :
    2 ≤ ([⟨1, 3⟩, ⟨2, 2⟩, ⟨3, 1⟩] : List (item Nat)).length ∧
    ∃ t, build_tree ([⟨1, 3⟩, ⟨2, 2⟩, ⟨3, 1⟩] : List (item Nat)) = Except.ok t ∧
      numLeaves t = ([⟨1, 3⟩, ⟨2, 2⟩, ⟨3, 1⟩] : List (item Nat)).length ∧
      numInternal t = ([⟨1, 3⟩, ⟨2, 2⟩, ⟨3, 1⟩] : List (item Nat)).length - 1 ∧
      bothChildren t ∧
      (leafEntries t).Perm
        (([⟨1, 3⟩, ⟨2, 2⟩, ⟨3, 1⟩] : List (item Nat)).map
          (fun it => (some it.character, it.freq))) :=
  ⟨by decide, build_tree_shape [⟨1, 3⟩, ⟨2, 2⟩, ⟨3, 1⟩] (by decide)⟩

/-- No addition of the merge loop overflows when the frequencies of the active
nodes are not negative and add up to at most `INT_MAX`. -/
theorem wrapInt_merge (a b : huffmanTree α) (rest : Multiset (huffmanTree α))
    (hnn : ∀ t ∈ a ::ₘ b ::ₘ rest, 0 ≤ t.freq)
    (hsum : ((a ::ₘ b ::ₘ rest).map huffmanTree.freq).sum ≤ 2147483647) :
    wrapInt (a.freq + b.freq) = a.freq + b.freq := by
  have ha := hnn a (by simp)
  have hb := hnn b (by simp)
  have hr : 0 ≤ (rest.map huffmanTree.freq).sum := by
    apply Multiset.sum_nonneg
    intro x hx
    obtain ⟨c, hc, rfl⟩ := Multiset.mem_map.mp hx
    exact hnn c (by simp [hc])
  simp only [Multiset.map_cons, Multiset.sum_cons] at hsum
  exact wrapInt_eq_self _ (by omega) (by omega)

/-- Sum of the frequencies of the leaves that `build_tree` starts from. -/
theorem sum_freq_leafOfItem (table : List (item α)) :
    (((table.map leafOfItem : List (huffmanTree α)) : Multiset (huffmanTree α)).map
      huffmanTree.freq).sum = (table.map item.freq).sum := by
  rw [Multiset.map_coe, Multiset.sum_coe, List.map_map]
  rfl

/-- In every tree returned by `build_tree`, the frequency stored in each internal
node is the sum of the frequencies stored in its children reduced to a 32-bit
`int`. -/
theorem build_tree_sumOfChildrenInt (table : List (item α)) :
    ∃ t, build_tree table = Except.ok t ∧ sumOfChildrenInt t := by
  by_cases hne : table = []
  · subst hne
    exact ⟨huffmanTree.null, rfl, trivial⟩
  · obtain ⟨t, hb, _, hI⟩ := build_tree_rule
      (fun F => ∀ t ∈ F, sumOfChildrenInt t)
      (by
        intro a b rest _ _ _ _ hI t ht
        rw [Multiset.mem_cons] at ht
        rcases ht with rfl | ht
        · exact ⟨Or.inr rfl, hI a (by simp), hI b (by simp)⟩
        · exact hI t (by simp [ht]))
      table hne
      (by
        intro t ht
        obtain ⟨it, _, rfl⟩ := List.mem_map.mp (by simpa using ht)
        exact ⟨Or.inl ⟨rfl, rfl⟩, trivial, trivial⟩)
    exact ⟨t, hb, hI t (by simp)⟩

/-- C4, counterexample: for the table of two entries of count `2^30` each,
`build_tree` returns a root that stores `-2147483648`, which is not the sum
`2147483648` of the frequencies stored in its two children. -/
theorem build_tree_sum_wraps_past_int_max :
    build_tree overflowPair =
      Except.ok (huffmanTree.node none (-2147483648)
        (huffmanTree.node (some 1) 1073741824 huffmanTree.null huffmanTree.null)
        (huffmanTree.node (some 2) 1073741824 huffmanTree.null huffmanTree.null)) ∧
    ¬ sumOfChildren (huffmanTree.node none (-2147483648)
        (huffmanTree.node (some 1) 1073741824 huffmanTree.null huffmanTree.null)
        (huffmanTree.node (some 2) 1073741824 huffmanTree.null huffmanTree.null)) := by
  refine ⟨by decide, ?_⟩
  rintro ⟨h | h, _⟩
  · exact absurd h.1 (by decide)
  · exact absurd h (by decide)

/-- C4: for every frequency table whose counts are not negative and add up to at
most `INT_MAX` = 2147483647, in the tree returned by `build_tree` the frequency
stored in each internal node equals the sum of the frequencies stored in its
left and right children. -/
theorem build_tree_sumOfChildren_up_to_int_max (table : List (item α))
    (hpos : ∀ it ∈ table, 0 ≤ it.freq)
    (hsum : (table.map item.freq).sum ≤ 2147483647) :
    ∃ t, build_tree table = Except.ok t ∧ sumOfChildren t := by
  by_cases hne : table = []
  · subst hne
    exact ⟨huffmanTree.null, rfl, trivial⟩
  · obtain ⟨t, hb, _, hI, _, _⟩ := build_tree_rule
      (fun F => (∀ t ∈ F, sumOfChildren t) ∧ (∀ t ∈ F, 0 ≤ t.freq) ∧
        (F.map huffmanTree.freq).sum ≤ 2147483647)
      (by
        intro a b rest _ _ _ _ hI
        obtain ⟨hS, hnn, hle⟩ := hI
        have hw := wrapInt_merge a b rest hnn hle
        have ha := hnn a (by simp)
        have hb := hnn b (by simp)
        rw [hw]
        refine ⟨?_, ?_, ?_⟩
        · intro t ht
          rw [Multiset.mem_cons] at ht
          rcases ht with rfl | ht
          · exact ⟨Or.inr rfl, hS a (by simp), hS b (by simp)⟩
          · exact hS t (by simp [ht])
        · intro t ht
          rw [Multiset.mem_cons] at ht
          rcases ht with rfl | ht
          · show 0 ≤ a.freq + b.freq
            omega
          · exact hnn t (by simp [ht])
        · simp only [Multiset.map_cons, Multiset.sum_cons] at hle ⊢
          show a.freq + b.freq + _ ≤ _
          omega)
      table hne
      (by
        refine ⟨?_, ?_, ?_⟩
        · intro t ht
          obtain ⟨it, _, rfl⟩ := List.mem_map.mp (by simpa using ht)
          exact ⟨Or.inl ⟨rfl, rfl⟩, trivial, trivial⟩
        · intro t ht
          obtain ⟨it, hit, rfl⟩ := List.mem_map.mp (by simpa using ht)
          exact hpos it hit
        · rw [sum_freq_leafOfItem]
          exact hsum)
    exact ⟨t, hb, hI t (by simp)⟩

theorem build_tree_sumOfChildren_up_to_int_max_witness :
    (∀ it ∈ ([⟨1, 3⟩, ⟨2, 2⟩, ⟨3, 1⟩] : List (item Nat)), 0 ≤ it.freq) ∧
    (([⟨1, 3⟩, ⟨2, 2⟩, ⟨3, 1⟩] : List (item Nat)).map item.freq).sum ≤ 2147483647 ∧
    ∃ t, build_tree ([⟨1, 3⟩, ⟨2, 2⟩, ⟨3, 1⟩] : List (item Nat)) = Except.ok t ∧
      sumOfChildren t :=
  ⟨by decide, by decide,
    build_tree_sumOfChildren_up_to_int_max [⟨1, 3⟩, ⟨2, 2⟩, ⟨3, 1⟩] (by decide) (by decide)⟩

end Shape

section Degenerate
variable {α : Type} [LinearOrder α]

/-- C9: for the empty symbol stream `createHuffmanTree` (`build_tree` on the
empty table) returns the absent tree `NULL`, and `encode` applied to the absent
tree returns the absent result `NULL` for every input stream. -/
theorem empty_input_absent :
    createHuffmanTree ([] : List α) = Except.ok huffmanTree.null ∧
    build_tree ([] : List (item α)) = Except.ok huffmanTree.null ∧
    ∀ stream : List α, encode huffmanTree.null stream = Except.ok none :=
  ⟨rfl, rfl, fun _ => rfl⟩

end Degenerate

/-- In-order list of the symbols of a counter tree. -/
theorem keys_node {α : Type} (ch : α) (f : Int) (l r : counterNode α) :
    (counterNode.node ch f l r).toList.map item.character =
      l.toList.map item.character ++ ch :: r.toList.map item.character := by
  simp [counterNode.toList]

section Counter
variable {α : Type} [LinearOrder α]

theorem sorted_node_iff (ch : α) (f : Int) (l r : counterNode α) :
    ((counterNode.node ch f l r).toList.map item.character).Sorted (· < ·) ↔
      (l.toList.map item.character).Sorted (· < ·) ∧
      (r.toList.map item.character).Sorted (· < ·) ∧
      (∀ k ∈ l.toList.map item.character, k < ch) ∧
      (∀ k ∈ r.toList.map item.character, ch < k) := by
  rw [keys_node]
  simp only [List.Sorted, List.pairwise_append, List.pairwise_cons, List.mem_cons]
  constructor
  · rintro ⟨hl, ⟨hr1, hr2⟩, hlr⟩
    exact ⟨hl, hr2, fun k hk => hlr k hk ch (Or.inl rfl), hr1⟩
  · rintro ⟨hl, hr, hlt, hgt⟩
    refine ⟨hl, ⟨hgt, hr⟩, ?_⟩
    rintro a ha b (rfl | hb)
    · exact hlt a ha
    · exact lt_trans (hlt a ha) (hgt b hb)

/-- Symbols of the tree after `insertNode`. -/
theorem mem_keys_insertNode (t : counterNode α) (s : α) (n : Nat) (k : α) :
    k ∈ (insertNode t s n).1.toList.map item.character ↔
      k = s ∨ k ∈ t.toList.map item.character := by
  induction t with
  | null => simp [insertNode, counterNode.toList]
  | node ch f l r ihl ihr =>
    unfold insertNode
    split
    · rw [keys_node, keys_node]
      simp only [List.mem_append, List.mem_cons, ihl]
      tauto
    · split
      · rw [keys_node, keys_node]
        simp only [List.mem_append, List.mem_cons, ihr]
        tauto
      · rename_i h1 h2
        have : s = ch := le_antisymm (not_lt.mp h2) (not_lt.mp h1)
        subst this
        rw [keys_node, keys_node]
        simp only [List.mem_append, List.mem_cons]
        tauto

/-- The function `insertNode` keeps the symbols in ascending order. -/
theorem sorted_insertNode (t : counterNode α) (s : α) (n : Nat)
    (h : (t.toList.map item.character).Sorted (· < ·)) :
    ((insertNode t s n).1.toList.map item.character).Sorted (· < ·) := by
  induction t with
  | null => simp [insertNode, counterNode.toList]
  | node ch f l r ihl ihr =>
    rw [sorted_node_iff] at h
    obtain ⟨hl, hr, hlt, hgt⟩ := h
    unfold insertNode
    split
    · rename_i h1
      rw [sorted_node_iff]
      refine ⟨ihl hl, hr, ?_, hgt⟩
      intro k hk
      rcases (mem_keys_insertNode l s n k).mp hk with rfl | hk
      · exact h1
      · exact hlt k hk
    · split
      · rename_i h1 h2
        rw [sorted_node_iff]
        refine ⟨hl, ihr hr, hlt, ?_⟩
        intro k hk
        rcases (mem_keys_insertNode r s n k).mp hk with rfl | hk
        · exact h2
        · exact hgt k hk
      · rw [sorted_node_iff]
        exact ⟨hl, hr, hlt, hgt⟩

/-- A symbol that is not in the tree has count 0. -/
theorem CounterGetLoop_of_not_mem (t : counterNode α) (s : α)
    (h : s ∉ t.toList.map item.character) : CounterGetLoop t s = 0 := by
  induction t with
  | null => rfl
  | node ch f l r ihl ihr =>
    rw [keys_node] at h
    simp only [List.mem_append, List.mem_cons, not_or] at h
    obtain ⟨h1, h2, h3⟩ := h
    unfold CounterGetLoop
    split
    · exact ihl h1
    · split
      · exact ihr h3
      · rename_i ha hb
        exact absurd (le_antisymm (not_lt.mp hb) (not_lt.mp ha)) h2

/-- The count of the inserted symbol goes up by one, as a 32-bit `int`. -/
theorem CounterGetLoop_insertNode_self (t : counterNode α) (s : α) (n : Nat) :
    CounterGetLoop (insertNode t s n).1 s = wrapInt (CounterGetLoop t s + 1) := by
  induction t with
  | null => simp [insertNode, CounterGetLoop, wrapInt]
  | node ch f l r ihl ihr =>
    unfold insertNode
    split
    · rename_i h1
      simp only [CounterGetLoop, h1, if_true]
      exact ihl
    · split
      · rename_i h1 h2
        simp only [CounterGetLoop, h1, h2, if_true, if_false]
        exact ihr
      · rename_i h1 h2
        simp only [CounterGetLoop, h1, h2, if_false]

/-- The counts of the other symbols do not change. -/
theorem CounterGetLoop_insertNode_ne (t : counterNode α) (s k : α) (n : Nat) (hk : k ≠ s)
    (h : (t.toList.map item.character).Sorted (· < ·)) :
    CounterGetLoop (insertNode t s n).1 k = CounterGetLoop t k := by
  induction t with
  | null =>
    simp only [insertNode, CounterGetLoop]
    rcases lt_trichotomy k s with h1 | h1 | h1
    · simp [h1]
    · exact absurd h1 hk
    · simp [h1, not_lt.mpr (le_of_lt h1)]
  | node ch f l r ihl ihr =>
    rw [sorted_node_iff] at h
    obtain ⟨hl, hr, _, _⟩ := h
    unfold insertNode
    split
    · simp only [CounterGetLoop, ihl hl]
    · split
      · simp only [CounterGetLoop, ihr hr]
      · rename_i h1 h2
        have hs : s = ch := le_antisymm (not_lt.mp h2) (not_lt.mp h1)
        subst hs
        simp only [CounterGetLoop]
        rcases lt_trichotomy k s with h3 | h3 | h3
        · simp [h3]
        · exact absurd h3 hk
        · simp [h3, not_lt.mpr (le_of_lt h3)]

/-- Number of entries after `insertNode`, in the tree and in `*numItems`. -/
theorem insertNode_count (t : counterNode α) (s : α) (n : Nat) :
    (insertNode t s n).2 + t.toList.length = n + (insertNode t s n).1.toList.length := by
  induction t with
  | null => simp [insertNode, counterNode.toList]
  | node ch f l r ihl ihr =>
    unfold insertNode
    split
    · simp only [counterNode.toList, List.length_append, List.length_cons, List.length_nil]
      omega
    · split
      · simp only [counterNode.toList, List.length_append, List.length_cons, List.length_nil]
        omega
      · simp [counterNode.toList]

/-- In a tree with ascending symbols every entry stores the count that
`CounterGet` returns for its symbol. -/
theorem toList_eq_map_keys (t : counterNode α)
    (h : (t.toList.map item.character).Sorted (· < ·)) :
    t.toList = (t.toList.map item.character).map
      (fun s => ({ character := s, freq := CounterGetLoop t s } : item α)) := by
  induction t with
  | null => rfl
  | node ch f l r ihl ihr =>
    rw [sorted_node_iff] at h
    obtain ⟨hl, hr, hlt, hgt⟩ := h
    rw [keys_node]
    simp only [counterNode.toList, List.map_append, List.map_cons, List.map_nil,
      List.append_assoc, List.singleton_append]
    congr 1
    · conv_lhs => rw [ihl hl]
      apply List.map_congr_left
      intro k hk
      simp [CounterGetLoop, hlt k hk]
    · congr 1
      · simp [CounterGetLoop]
      · conv_lhs => rw [ihr hr]
        apply List.map_congr_left
        intro k hk
        have := hgt k hk
        simp [CounterGetLoop, this, not_lt.mpr (le_of_lt this)]

/-- Invariant of the counter built from a stream. -/
theorem createCounterBst_inv (stream : List α) :
    ((createCounterBst stream).root.toList.map item.character).Sorted (· < ·) ∧
    (∀ s, s ∈ (createCounterBst stream).root.toList.map item.character ↔ s ∈ stream) ∧
    (∀ s, CounterGetLoop (createCounterBst stream).root s =
      wrapInt (stream.count s : Int)) ∧
    (createCounterBst stream).numItems = (createCounterBst stream).root.toList.length := by
  induction stream using List.reverseRecOn with
  | nil =>
    refine ⟨?_, ?_, ?_, ?_⟩ <;>
      simp [createCounterBst, CounterNew, counterNode.toList, CounterGetLoop, wrapInt_zero]
  | append_singleton xs x ih =>
    obtain ⟨hs, hm, hg, hn⟩ := ih
    have hfold : createCounterBst (xs ++ [x]) = CounterAdd (createCounterBst xs) x := by
      simp [createCounterBst, List.foldl_append]
    rw [hfold]
    generalize createCounterBst xs = c at hs hm hg hn
    simp only [CounterAdd]
    refine ⟨sorted_insertNode _ _ _ hs, ?_, ?_, ?_⟩
    · intro s
      rw [mem_keys_insertNode, hm]
      simp only [List.mem_append, List.mem_singleton]
      tauto
    · intro s
      by_cases hsx : s = x
      · subst hsx
        rw [CounterGetLoop_insertNode_self, hg, wrapInt_wrapInt_add]
        simp
      · rw [CounterGetLoop_insertNode_ne _ _ _ _ hsx hs, hg]
        simp [List.count_append, List.count_singleton, hsx]
    · have := insertNode_count c.root x c.numItems
      omega

/-- Number of entries of the counter built from a stream. -/
theorem createCounterBst_numItems (stream : List α) :
    (createCounterBst stream).numItems = stream.toFinset.card := by
  obtain ⟨hs, hm, _, hn⟩ := createCounterBst_inv stream
  rw [hn, ← List.length_map (createCounterBst stream).root.toList item.character]
  have hnd : ((createCounterBst stream).root.toList.map item.character).Nodup :=
    hs.nodup
  rw [← List.toFinset_card_of_nodup hnd]
  congr 1
  ext s
  simp [hm]

/-- The value that `CounterGet` returns after the symbols of a stream were
added: the number of occurrences reduced to a 32-bit `int`. -/
theorem CounterGet_eq_wrapInt (stream : List α) (s : α) :
    CounterGet (stream.foldl CounterAdd CounterNew) s = wrapInt (stream.count s : Int) :=
  (createCounterBst_inv stream).2.2.1 s

/-- C7, counterexample: after `2^31` additions of the symbol `0` to a new
Counter, `CounterGet` returns `-2147483648` for it, not its number of
occurrences `2147483648`: the `int` count has wrapped. -/
theorem counter_count_wraps_at_2_pow_31 :
    CounterGet ((List.replicate 2147483648 (0 : Nat)).foldl CounterAdd CounterNew) 0 =
      -2147483648 ∧
    (List.replicate 2147483648 (0 : Nat)).count 0 = 2147483648 := by
  have hc : (List.replicate 2147483648 (0 : Nat)).count 0 = 2147483648 :=
    List.count_replicate_self _ _
  refine ⟨?_, hc⟩
  rw [CounterGet_eq_wrapInt, hc]
  exact wrapInt_two_pow_31

/-- C7: after adding the symbols of any stream of at most `INT_MAX` =
2147483647 symbols, in order, to a new Counter with `CounterAdd`, `CounterGet`
returns for every symbol its number of occurrences in the stream (0 when it does
not occur), and `CounterNumItems` is the number of distinct symbols of the
stream. -/
theorem counter_counts_up_to_int_max (stream : List α) (hlen : stream.length ≤ 2147483647) :
    (∀ s : α, CounterGet (stream.foldl CounterAdd CounterNew) s = (stream.count s : Int)) ∧
    (∀ s : α, s ∉ stream → CounterGet (stream.foldl CounterAdd CounterNew) s = 0) ∧
    CounterNumItems (stream.foldl CounterAdd CounterNew) = stream.toFinset.card := by
  have hg : ∀ s : α, CounterGet (stream.foldl CounterAdd CounterNew) s =
      (stream.count s : Int) := by
    intro s
    rw [CounterGet_eq_wrapInt]
    exact wrapInt_natCast _ (le_trans (List.count_le_length _ _) hlen)
  refine ⟨hg, ?_, createCounterBst_numItems stream⟩
  intro s hs
  rw [hg s, List.count_eq_zero_of_not_mem hs]
  rfl

theorem counter_counts_up_to_int_max_witness :
    ([1, 2, 1] : List Nat).length ≤ 2147483647 ∧
    ((∀ s : Nat, CounterGet ([1, 2, 1].foldl CounterAdd CounterNew) s =
      (([1, 2, 1] : List Nat).count s : Int)) ∧
    (∀ s : Nat, s ∉ [1, 2, 1] →
      CounterGet ([1, 2, 1].foldl CounterAdd CounterNew) s = 0) ∧
    CounterNumItems ([1, 2, 1].foldl CounterAdd CounterNew) =
      ([1, 2, 1] : List Nat).toFinset.card) :=
  ⟨by decide, counter_counts_up_to_int_max [1, 2, 1] (by decide)⟩

end Counter

/-- When the array is long enough, `arrayOfItems` appends the entries of the
tree in order and no write is out of bounds. -/
theorem arrayOfItems_ok {α : Type} (t : counterNode α) (cap : Nat) (written : List (item α))
    (h : written.length + t.toList.length ≤ cap) :
    arrayOfItems t cap written = Except.ok (written ++ t.toList) := by
  induction t generalizing written with
  | null => simp [arrayOfItems, counterNode.toList]
  | node ch f l r ihl ihr =>
    simp only [counterNode.toList, List.length_append, List.length_cons, List.length_nil] at h
    unfold arrayOfItems
    rw [ihl written (by omega)]
    have hlt : (written ++ l.toList).length < cap := by
      simp only [List.length_append]
      omega
    simp only [hlt, if_true]
    rw [ihr _ (by simp only [List.length_append, List.length_cons, List.length_nil]; omega)]
    simp [counterNode.toList]

section Items
variable {α : Type} [LinearOrder α]

/-- The array and the count that `CounterItems` returns for the counter built
from a stream: the in-order entries of the tree and their number. -/
theorem CounterItems_createCounterBst (stream : List α) :
    CounterItems (createCounterBst stream) =
      Except.ok ((createCounterBst stream).root.toList, (createCounterBst stream).numItems) := by
  obtain ⟨_, _, _, hn⟩ := createCounterBst_inv stream
  unfold CounterItems
  split
  · rename_i h0
    rw [h0] at hn
    have : (createCounterBst stream).root.toList = [] :=
      List.eq_nil_of_length_eq_zero hn.symm
    rw [this, h0]
  · rw [arrayOfItems_ok _ _ _ (by simp [hn])]
    simp

/-- The symbols of the returned array are the distinct symbols of the stream in
ascending order. -/
theorem keys_createCounterBst (stream : List α) :
    (createCounterBst stream).root.toList.map item.character =
      stream.toFinset.sort (· ≤ ·) := by
  obtain ⟨hs, hm, _, _⟩ := createCounterBst_inv stream
  apply List.eq_of_perm_of_sorted (r := (· ≤ ·))
  · rw [List.perm_ext_iff_of_nodup hs.nodup (Finset.sort_nodup _ _)]
    intro s
    rw [hm, Finset.mem_sort, List.mem_toFinset]
  · exact hs.imp (fun h => le_of_lt h)
  · exact Finset.sort_sorted _ _

/-- Closed form of the frequency table of a stream. -/
theorem CounterItems_eq (stream : List α) :
    CounterItems (createCounterBst stream) =
      Except.ok ((stream.toFinset.sort (· ≤ ·)).map
        (fun s => ({ character := s, freq := wrapInt (stream.count s : Int) } : item α)),
        stream.toFinset.card) := by
  obtain ⟨hs, _, hg, _⟩ := createCounterBst_inv stream
  rw [CounterItems_createCounterBst, createCounterBst_numItems, toList_eq_map_keys _ hs,
    keys_createCounterBst]
  simp only [hg]

/-- The array that `CounterItems` returns does not depend on the order in which
the symbols were added. -/
theorem CounterItems_perm (stream other : List α) (hperm : other.Perm stream) :
    CounterItems (other.foldl CounterAdd CounterNew) =
      CounterItems (stream.foldl CounterAdd CounterNew) := by
  have h1 := CounterItems_eq other
  have h2 := CounterItems_eq stream
  simp only [createCounterBst] at h1 h2
  rw [h1, h2]
  have hfs : other.toFinset = stream.toFinset := by
    ext s
    simp [hperm.mem_iff]
  rw [hfs]
  have hc : ∀ s : α, other.count s = stream.count s := fun s => hperm.count_eq s
  simp only [hc]

/-- The table of a stream made of copies of one symbol. -/
theorem CounterItems_replicate (x : α) (k : Nat) (hk : 1 ≤ k) :
    CounterItems ((List.replicate k x).foldl CounterAdd CounterNew) =
      Except.ok ([{ character := x, freq := wrapInt (k : Int) }], 1) := by
  have h := CounterItems_eq (List.replicate k x)
  have hfs : (List.replicate k x).toFinset = {x} := by
    ext s
    simp only [List.mem_toFinset, List.mem_replicate, Finset.mem_singleton]
    constructor
    · exact fun h => h.2
    · exact fun h => ⟨by omega, h⟩
  rw [hfs, Finset.sort_singleton, Finset.card_singleton] at h
  simp only [List.map_cons, List.map_nil, List.count_replicate_self] at h
  exact h

/-- C8, counterexample: for the Counter built by `2^31` additions of the symbol
`7`, `CounterItems` returns the single entry `(7, -2147483648)`, which is not the
symbol with its count `2147483648`. -/
theorem counterItems_count_wraps_at_2_pow_31 :
    CounterItems ((List.replicate 2147483648 (7 : Nat)).foldl CounterAdd CounterNew) =
      Except.ok ([{ character := 7, freq := -2147483648 }], 1) ∧
    (List.replicate 2147483648 (7 : Nat)).count 7 = 2147483648 := by
  refine ⟨?_, List.count_replicate_self _ _⟩
  rw [CounterItems_replicate 7 2147483648 (by omega)]
  have hw : wrapInt ((2147483648 : Nat) : Int) = -2147483648 := wrapInt_two_pow_31
  rw [hw]

/-- C8: for every Counter built by `CounterAdd` calls from a stream of at most
`INT_MAX` = 2147483647 symbols, `CounterItems` returns exactly `CounterNumItems`
entries, one per distinct symbol with its count, in strictly ascending symbol
order whatever the order in which the symbols were added, and no write of
`arrayOfItems` is outside the allocated array. -/
theorem counterItems_sorted_complete_up_to_int_max (stream : List α)
    (hlen : stream.length ≤ 2147483647) :
    ∃ items : List (item α),
      CounterItems (stream.foldl CounterAdd CounterNew) =
        Except.ok (items, CounterNumItems (stream.foldl CounterAdd CounterNew)) ∧
      items.length = CounterNumItems (stream.foldl CounterAdd CounterNew) ∧
      (items.map item.character).Sorted (· < ·) ∧
      (∀ s : α, s ∈ items.map item.character ↔ s ∈ stream) ∧
      (∀ it ∈ items, it.freq = (stream.count it.character : Int)) ∧
      (∀ other : List α, other.Perm stream →
        CounterItems (other.foldl CounterAdd CounterNew) =
          CounterItems (stream.foldl CounterAdd CounterNew)) := by
  obtain ⟨hs, hm, hg, hn⟩ := createCounterBst_inv stream
  refine ⟨(createCounterBst stream).root.toList, CounterItems_createCounterBst stream,
    hn.symm, hs, hm, ?_, fun other hperm => CounterItems_perm stream other hperm⟩
  intro it hit
  rw [toList_eq_map_keys _ hs] at hit
  obtain ⟨s, _, rfl⟩ := List.mem_map.mp hit
  rw [hg s]
  exact wrapInt_natCast _ (le_trans (List.count_le_length _ _) hlen)

theorem counterItems_sorted_complete_up_to_int_max_witness :
    ([2, 1, 2] : List Nat).length ≤ 2147483647 ∧
    ∃ items : List (item Nat),
      CounterItems ([2, 1, 2].foldl CounterAdd CounterNew) =
        Except.ok (items, CounterNumItems ([2, 1, 2].foldl CounterAdd CounterNew)) ∧
      items.length = CounterNumItems ([2, 1, 2].foldl CounterAdd CounterNew) ∧
      (items.map item.character).Sorted (· < ·) ∧
      (∀ s : Nat, s ∈ items.map item.character ↔ s ∈ [2, 1, 2]) ∧
      (∀ it ∈ items, it.freq = (([2, 1, 2] : List Nat).count it.character : Int)) ∧
      (∀ other : List Nat, other.Perm [2, 1, 2] →
        CounterItems (other.foldl CounterAdd CounterNew) =
          CounterItems ([2, 1, 2].foldl CounterAdd CounterNew)) :=
  ⟨by decide, counterItems_sorted_complete_up_to_int_max [2, 1, 2] (by decide)⟩

/-- The function `createHuffmanTree` is `build_tree` on the frequency table of
the stream. -/
theorem createHuffmanTree_eq (stream : List α) :
    createHuffmanTree stream = build_tree ((stream.toFinset.sort (· ≤ ·)).map
      (fun s => ({ character := s, freq := wrapInt (stream.count s : Int) } : item α))) := by
  unfold createHuffmanTree build_tree
  rw [CounterItems_eq]
  simp

end Items

section Single
variable {α : Type} [LinearOrder α]

theorem encodeLoop_single (x : α) (k : Nat) :
    encodeLoop (bst.node x [] bst.null bst.null) [] (List.replicate k x) = Except.ok [] := by
  induction k with
  | zero => rfl
  | succ k ih =>
    simp only [List.replicate_succ, encodeLoop, encodeStep, findNode, lt_irrefl, if_false,
      gt_iff_lt, bst.encoding, List.append_nil]
    exact ih

/-- The tree of a stream made of copies of one symbol: a single leaf that
holds the symbol and the number of copies reduced to a 32-bit `int`. -/
theorem createHuffmanTree_replicate (x : α) (k : Nat) (hk : 1 ≤ k) :
    createHuffmanTree (List.replicate k x) =
      Except.ok (huffmanTree.node (some x) (wrapInt (k : Int)) huffmanTree.null
        huffmanTree.null) := by
  have h := CounterItems_replicate x k hk
  unfold createHuffmanTree createCounterBst
  rw [h]
  rfl

/-- C10, counterexample: for the stream made of `2^31` copies of `'x'`,
`createHuffmanTree` returns the leaf `('x', -2147483648)`, not the leaf
`('x', 2147483648)`. -/
theorem single_symbol_count_wraps_at_2_pow_31 :
    createHuffmanTree (List.replicate 2147483648 'x') =
      Except.ok (huffmanTree.node (some 'x') (-2147483648) huffmanTree.null
        huffmanTree.null) ∧
    createHuffmanTree (List.replicate 2147483648 'x') ≠
      Except.ok (huffmanTree.node (some 'x') ((2147483648 : Nat) : Int) huffmanTree.null
        huffmanTree.null) := by
  have hw : wrapInt ((2147483648 : Nat) : Int) = -2147483648 := wrapInt_two_pow_31
  rw [createHuffmanTree_replicate 'x' 2147483648 (by omega), hw]
  refine ⟨rfl, ?_⟩
  intro h
  injection h with h
  injection h with _ h
  omega

/-- C10: for every stream made of `k ≥ 1` copies of one symbol `x`,
`createHuffmanTree` returns a single leaf with no internal node that holds `x`
and the count `k` reduced to a 32-bit `int`, which is `k` itself when
`k ≤ INT_MAX` = 2147483647; the derived code table is exactly `x ↦ ""`, `encode`
returns the empty string whatever `k` is, and `decode` of the empty string emits
no symbol. -/
theorem single_symbol_stream_int (x : α) (k : Nat) (hk : 1 ≤ k) :
    createHuffmanTree (List.replicate k x) =
      Except.ok (huffmanTree.node (some x) (wrapInt (k : Int)) huffmanTree.null
        huffmanTree.null) ∧
    (k ≤ 2147483647 → wrapInt (k : Int) = (k : Int)) ∧
    numInternal (huffmanTree.node (some x) (wrapInt (k : Int)) huffmanTree.null
      huffmanTree.null) = 0 ∧
    bfsTraversal (huffmanTree.node (some x) (wrapInt (k : Int)) huffmanTree.null
      huffmanTree.null) = Except.ok (bst.node x [] bst.null bst.null) ∧
    encode (huffmanTree.node (some x) (wrapInt (k : Int)) huffmanTree.null huffmanTree.null)
      (List.replicate k x) = Except.ok (some []) ∧
    decode (huffmanTree.node (some x) (wrapInt (k : Int)) huffmanTree.null huffmanTree.null)
      [] = Except.ok [] := by
  generalize hf : wrapInt (k : Int) = f
  have hbfs : bfsTraversal (huffmanTree.node (some x) f huffmanTree.null
      huffmanTree.null) = Except.ok (bst.node x [] bst.null bst.null) := rfl
  refine ⟨?_, ?_, rfl, hbfs, ?_, rfl⟩
  · rw [createHuffmanTree_replicate x k hk, hf]
  · intro hmax
    rw [← hf]
    exact wrapInt_natCast k hmax
  · unfold encode
    simp only [hbfs, encodeLoop_single]

theorem single_symbol_stream_int_witness :
    1 ≤ 3 ∧
    (createHuffmanTree (List.replicate 3 'x') =
      Except.ok (huffmanTree.node (some 'x') (wrapInt ((3 : Nat) : Int)) huffmanTree.null
        huffmanTree.null) ∧
    (3 ≤ 2147483647 → wrapInt ((3 : Nat) : Int) = ((3 : Nat) : Int)) ∧
    numInternal (huffmanTree.node (some 'x') (wrapInt ((3 : Nat) : Int)) huffmanTree.null
      huffmanTree.null) = 0 ∧
    bfsTraversal (huffmanTree.node (some 'x') (wrapInt ((3 : Nat) : Int)) huffmanTree.null
      huffmanTree.null) = Except.ok (bst.node 'x' [] bst.null bst.null) ∧
    encode (huffmanTree.node (some 'x') (wrapInt ((3 : Nat) : Int)) huffmanTree.null
      huffmanTree.null) (List.replicate 3 'x') = Except.ok (some []) ∧
    decode (huffmanTree.node (some 'x') (wrapInt ((3 : Nat) : Int)) huffmanTree.null
      huffmanTree.null) [] = Except.ok []) :=
  ⟨by decide, single_symbol_stream_int 'x' 3 (by decide)⟩

end Single

theorem enqueue_eq {α : Type} (queue : List (nodeQueue α)) (temp : nodeQueue α) :
    enqueue queue temp = if queue.length < MAX_QUEUE_LENGTH then Except.ok (queue ++ [temp])
      else Except.error Fault.outOfBounds := rfl

theorem childCells_numNodes {α : Type} (path : List Char) (l r : huffmanTree α) :
    ((childCells path l r).map (fun q => numNodes q.node)).sum = numNodes l + numNodes r := by
  cases l <;> cases r <;> simp [childCells, numNodes]

theorem childCells_spec {α : Type} (c : Option α) (f : Int) (path : List Char)
    (l r : huffmanTree α) :
    ∀ q ∈ childCells path l r, q.node.isNull = false ∧
      ∀ e ∈ leafEntries q.node, e ∈ leafEntries (huffmanTree.node c f l r) := by
  intro q hq
  cases l with
  | null =>
    cases r with
    | null => simp [childCells] at hq
    | node c2 f2 l2 r2 =>
      simp only [childCells, isNull_null, isNull_node, if_true, Bool.false_eq_true, if_false,
        List.nil_append, List.mem_singleton] at hq
      subst hq
      exact ⟨rfl, fun e he => by simpa [leafEntries] using he⟩
  | node c1 f1 l1 r1 =>
    simp only [childCells, isNull_node, Bool.false_eq_true, if_false, List.singleton_append,
      List.mem_cons] at hq
    rcases hq with rfl | hq
    · refine ⟨rfl, fun e he => ?_⟩
      rw [leafEntries_merge c f _ _ (isNull_node c1 f1 l1 r1)]
      exact List.mem_append_left _ he
    · cases r with
      | null => simp at hq
      | node c2 f2 l2 r2 =>
        simp only [isNull_node, Bool.false_eq_true, if_false, List.mem_singleton] at hq
        subst hq
        refine ⟨rfl, fun e he => ?_⟩
        rw [leafEntries_merge c f _ _ (isNull_node c1 f1 l1 r1)]
        exact List.mem_append_right _ he

/-- The two enqueues succeed exactly when the queue has room for the cells of
the children. -/
theorem enqueueChildren_eq {α : Type} (queue : List (nodeQueue α)) (path : List Char)
    (l r : huffmanTree α) (hq : queue.length ≤ MAX_QUEUE_LENGTH) :
    enqueueChildren queue path l r =
      if queue.length + (childCells path l r).length ≤ MAX_QUEUE_LENGTH then
        Except.ok (queue ++ childCells path l r)
      else Except.error Fault.outOfBounds := by
  cases l with
  | null =>
    cases r with
    | null => simp [enqueueChildren, childCells, hq]
    | node c2 f2 l2 r2 =>
      simp only [enqueueChildren, childCells, isNull_null, isNull_node, if_true,
        Bool.false_eq_true, if_false, enqueue_eq, List.nil_append, List.length_singleton]
      by_cases h : queue.length < MAX_QUEUE_LENGTH
      · simp [h, Nat.succ_le_of_lt h]
      · simp only [h, if_false]
        rw [if_neg (by omega)]
  | node c1 f1 l1 r1 =>
    cases r with
    | null =>
      simp only [enqueueChildren, childCells, isNull_null, isNull_node, if_true,
        Bool.false_eq_true, if_false, enqueue_eq, List.append_nil, List.length_singleton]
      by_cases h : queue.length < MAX_QUEUE_LENGTH
      · simp [h, Nat.succ_le_of_lt h]
      · simp only [h, if_false]
        rw [if_neg (by omega)]
    | node c2 f2 l2 r2 =>
      simp only [enqueueChildren, childCells, isNull_node, Bool.false_eq_true, if_false,
        enqueue_eq, List.singleton_append, List.length_cons, List.length_singleton,
        List.length_nil]
      by_cases h : queue.length < MAX_QUEUE_LENGTH
      · simp only [h, if_true, List.length_append, List.length_singleton]
        by_cases h2 : queue.length + 1 < MAX_QUEUE_LENGTH
        · simp only [h2, if_true]
          rw [if_pos (by omega)]
          simp
        · simp only [h2, if_false]
          rw [if_neg (by omega)]
      · simp only [h, if_false]
        rw [if_neg (by omega)]

section Queue
variable {α : Type} [LinearOrder α]

theorem bfsVisitLeaf_some (st : bfsState α) (x : α) (path : List Char) :
    ∃ fr, bfsVisitLeaf st (some x) path = Except.ok fr := by
  simp only [bfsVisitLeaf]
  split <;> exact ⟨_, rfl⟩

theorem bfsStep_eq (st : bfsState α) (c : Option α) (f : Int) (l r : huffmanTree α)
    (path : List Char)
    (hget : st.queue.get? st.front = some { node := huffmanTree.node c f l r, path := path }) :
    bfsStep st =
      match (if l.isNull && r.isNull then bfsVisitLeaf st c path
             else Except.ok (st.isFirstLeaf, st.root)) with
      | Except.error e => Except.error e
      | Except.ok flagRoot =>
          match enqueueChildren st.queue path l r with
          | Except.error e => Except.error e
          | Except.ok queue2 =>
              Except.ok { queue := queue2, front := st.front + 1,
                          isFirstLeaf := flagRoot.1, root := flagRoot.2 } := by
  unfold bfsStep
  rw [hget]

/-- The leaf branch of the loop body does not fault on a leaf that has a
character. -/
theorem bfsVisit_ok (st : bfsState α) (c : Option α) (f : Int) (l r : huffmanTree α)
    (path : List Char)
    (hlab : ∀ e ∈ leafEntries (huffmanTree.node c f l r), e.1.isSome = true) :
    ∃ fr, (if l.isNull && r.isNull then bfsVisitLeaf st c path
           else Except.ok (st.isFirstLeaf, st.root)) = Except.ok fr := by
  by_cases hleaf : (l.isNull && r.isNull) = true
  · have hc : c.isSome = true := hlab (c, f) (by simp [leafEntries, hleaf])
    obtain ⟨x, rfl⟩ := Option.isSome_iff_exists.mp hc
    simp only [hleaf, if_true]
    exact bfsVisitLeaf_some st x path
  · simp only [hleaf, if_false]
    exact ⟨_, rfl⟩

theorem bfsStep_inv (N : Nat) (st : bfsState α) (hJ : bfsInv N st)
    (hlt : st.front < st.queue.length) :
    bfsStep st = Except.error Fault.outOfBounds ∨ ∃ st1, bfsStep st = Except.ok st1 ∧
      bfsInv N st1 ∧ st1.front = st.front + 1 := by
  obtain ⟨_, hcap, hall, hsum⟩ := hJ
  have hdrop := List.drop_eq_getElem_cons hlt
  have hget : st.queue.get? st.front = some st.queue[st.front] := by
    rw [List.get?_eq_getElem?, List.getElem?_eq_getElem hlt]
  generalize st.queue[st.front] = cur at hdrop hget
  rw [hdrop] at hall hsum
  obtain ⟨hnn, hlab⟩ := hall cur (List.mem_cons_self _ _)
  have hrest : ∀ q ∈ st.queue.drop (st.front + 1),
      q.node.isNull = false ∧ ∀ e ∈ leafEntries q.node, e.1.isSome = true :=
    fun q hq => hall q (List.mem_cons_of_mem _ hq)
  simp only [List.map_cons, List.sum_cons] at hsum
  obtain ⟨node, path⟩ := cur
  cases node with
  | null => simp at hnn
  | node c f l r =>
    obtain ⟨fr, hfr⟩ := bfsVisit_ok st c f l r path hlab
    rw [bfsStep_eq st c f l r path hget, hfr, enqueueChildren_eq _ _ _ _ hcap]
    simp only
    by_cases hroom : st.queue.length + (childCells path l r).length ≤ MAX_QUEUE_LENGTH
    · right
      simp only [hroom, if_true]
      refine ⟨_, rfl, ⟨?_, ?_, ?_, ?_⟩, rfl⟩
      · simp only [List.length_append]
        omega
      · simpa only [List.length_append] using hroom
      · simp only
        rw [List.drop_append_of_le_length (by omega)]
        intro q hq
        rcases List.mem_append.mp hq with hq | hq
        · exact hrest q hq
        · obtain ⟨h1, h2⟩ := childCells_spec c f path l r q hq
          exact ⟨h1, fun e he => hlab e (h2 e he)⟩
      · simp only
        rw [List.drop_append_of_le_length (by omega)]
        simp only [List.map_append, List.sum_append, childCells_numNodes]
        simp only [numNodes] at hsum
        omega
    · left
      simp only [hroom, if_false]

/-- On a tree with more than `MAX_QUEUE_LENGTH` nodes the loop of `bfsTraversal`
writes outside the queue, however many iterations it is given beyond those
needed to reach the end of the array. -/
theorem bfsLoop_fault (N : Nat) (hN : MAX_QUEUE_LENGTH < N) (fuel : Nat) (st : bfsState α)
    (hJ : bfsInv N st) (hfuel : MAX_QUEUE_LENGTH ≤ fuel + st.front) :
    bfsLoop fuel st = Except.error Fault.outOfBounds := by
  induction fuel generalizing st with
  | zero =>
    exfalso
    obtain ⟨hfl, hcap, _, hsum⟩ := hJ
    have hge : st.queue.length ≤ st.front := by omega
    rw [List.drop_eq_nil_of_le hge] at hsum
    simp at hsum
    omega
  | succ fuel ih =>
    unfold bfsLoop
    by_cases hlt : st.front < st.queue.length
    · simp only [hlt, if_true]
      rcases bfsStep_inv N st hJ hlt with herr | ⟨st1, hok, hJ1, hfront⟩
      · rw [herr]
      · rw [hok]
        exact ih st1 hJ1 (by omega)
    · exfalso
      obtain ⟨hfl, hcap, _, hsum⟩ := hJ
      rw [List.drop_eq_nil_of_le (not_lt.mp hlt)] at hsum
      simp at hsum
      omega

/-- The queue ceiling: on a tree with more than `MAX_QUEUE_LENGTH` nodes whose
leaves all have a character, `bfsTraversal` writes outside its queue. -/
theorem bfsTraversal_fault (t : huffmanTree α) (hnn : t.isNull = false)
    (hlab : ∀ e ∈ leafEntries t, e.1.isSome = true) (hbig : MAX_QUEUE_LENGTH < numNodes t) :
    bfsTraversal t = Except.error Fault.outOfBounds := by
  unfold bfsTraversal
  rw [bfsLoop_fault (numNodes t) hbig MAX_QUEUE_LENGTH (bfsInit t) ?_ (by simp)]
  refine ⟨?_, ?_, ?_, ?_⟩
  · simp [bfsInit]
  · simp [bfsInit, MAX_QUEUE_LENGTH]
  · intro q hq
    simp only [bfsInit, List.drop_zero, List.mem_singleton] at hq
    subst hq
    exact ⟨hnn, hlab⟩
  · simp [bfsInit]

/-- A stream with more than 500 distinct symbols: the tree is built, but the
derivation of the code table and therefore `encode` write outside the queue. -/
theorem encode_fault_of_many_symbols (stream : List α) (h : 500 < stream.toFinset.card) :
    ∃ t, createHuffmanTree stream = Except.ok t ∧
      bfsTraversal t = Except.error Fault.outOfBounds ∧
      encode t stream = Except.error Fault.outOfBounds := by
  rw [createHuffmanTree_eq]
  have hlen : ((stream.toFinset.sort (· ≤ ·)).map
      (fun s => ({ character := s, freq := wrapInt (stream.count s : Int) } : item α))).length =
      stream.toFinset.card := by
    simp
  obtain ⟨t, hb, hnn, hl, hi, _, hperm⟩ := build_tree_shape_of_ne_nil
    ((stream.toFinset.sort (· ≤ ·)).map
      (fun s => ({ character := s, freq := wrapInt (stream.count s : Int) } : item α)))
    (by
      intro hnil
      rw [hnil] at hlen
      simp at hlen
      omega)
  have hfault : bfsTraversal t = Except.error Fault.outOfBounds := by
    apply bfsTraversal_fault t hnn
    · intro e he
      have := hperm.mem_iff.mp he
      obtain ⟨it, _, rfl⟩ := List.mem_map.mp this
      rfl
    · rw [numNodes_eq]
      simp only [MAX_QUEUE_LENGTH]
      omega
  refine ⟨t, hb, hfault, ?_⟩
  cases t with
  | null => simp at hnn
  | node c f l r =>
    unfold encode
    simp only [hfault]

/-- C1: the stream of the 501 distinct symbols 0, 1, ..., 500 has at least two
distinct symbols and `createHuffmanTree` builds its tree, but `encode` does not
return the encoding: the traversal that derives the code table writes outside
its queue of `MAX_QUEUE_LENGTH` cells, so no round trip takes place. -/
theorem round_trip_fault_501_symbols :
    ∃ t, createHuffmanTree (List.range 501) = Except.ok t ∧
      encode t (List.range 501) = Except.error Fault.outOfBounds := by
  obtain ⟨t, h1, _, h3⟩ := encode_fault_of_many_symbols (List.range 501)
    (by rw [List.toFinset_card_of_nodup (List.nodup_range 501), List.length_range]; decide)
  exact ⟨t, h1, h3⟩

/-- C5: the table of the 501 symbols 0, 1, ..., 500 with count 1 each gives a
Huffman tree whose leaves carry pairwise distinct symbols, and on that tree
`bfsTraversal` produces no code table: it writes outside its queue. -/
theorem code_table_fault_501_leaves :
    ∃ t : huffmanTree Nat,
      build_tree ((List.range 501).map (fun n => ({ character := n, freq := 1 } : item Nat))) =
        Except.ok t ∧
      ((leafEntries t).map Prod.fst).Nodup ∧
      bfsTraversal t = Except.error Fault.outOfBounds := by
  obtain ⟨t, hb, hnn, hl, hi, _, hperm⟩ := build_tree_shape_of_ne_nil
    ((List.range 501).map (fun n => ({ character := n, freq := 1 } : item Nat)))
    (by
      intro h
      have := congrArg List.length h
      simp at this)
  simp only [List.length_map, List.length_range] at hl hi
  refine ⟨t, hb, ?_, ?_⟩
  · rw [(hperm.map Prod.fst).nodup_iff]
    simp only [List.map_map]
    apply List.Nodup.map
    · intro a b hab
      simpa using hab
    · exact List.nodup_range 501
  · apply bfsTraversal_fault t hnn
    · intro e he
      obtain ⟨it, _, rfl⟩ := List.mem_map.mp (hperm.mem_iff.mp he)
      rfl
    · rw [numNodes_eq]
      simp only [MAX_QUEUE_LENGTH]
      omega

/-- C6: for the stream in which each of the 501 symbols 0, 1, ..., 500 occurs
twice, the tree is built but no code table is derived from it, prefix-free or
not: `bfsTraversal` writes outside its queue. -/
theorem prefix_code_fault_501_symbols :
    ∃ t, createHuffmanTree (List.range 501 ++ List.range 501) = Except.ok t ∧
      bfsTraversal t = Except.error Fault.outOfBounds := by
  obtain ⟨t, h1, h2, _⟩ := encode_fault_of_many_symbols (List.range 501 ++ List.range 501)
    (by
      have : (List.range 501 ++ List.range 501).toFinset = (List.range 501).toFinset := by
        ext s
        simp
      rw [this, List.toFinset_card_of_nodup (List.nodup_range 501), List.length_range]
      decide)
  exact ⟨t, h1, h2⟩

end Queue

/-! ## Optimality: depth assignments -/

theorem pairCost_cons (p : Int × Nat) (M : Multiset (Int × Nat)) :
    pairCost (p ::ₘ M) = p.1 * (p.2 : Int) + pairCost M := by
  simp [pairCost]

theorem kraftSum_cons (N d : Nat) (D : Multiset Nat) :
    kraftSum N (d ::ₘ D) = 2 ^ (N - d) + kraftSum N D := by
  simp [kraftSum]

theorem pairCost_nonneg (M : Multiset (Int × Nat)) (h : ∀ p ∈ M, 0 ≤ p.1) :
    0 ≤ pairCost M := by
  apply Multiset.sum_nonneg
  intro x hx
  obtain ⟨p, hp, rfl⟩ := Multiset.mem_map.mp hx
  exact mul_nonneg (h p hp) (Int.natCast_nonneg _)

theorem exists_max_depth (M : Multiset (Int × Nat)) (h : M ≠ 0) :
    ∃ p ∈ M, ∀ q ∈ M, q.2 ≤ p.2 := by
  induction M using Multiset.induction_on with
  | empty => exact absurd rfl h
  | cons a M ih =>
    by_cases hM : M = 0
    · subst hM
      exact ⟨a, by simp, by simp⟩
    · obtain ⟨p, hp, hmax⟩ := ih hM
      by_cases hle : p.2 ≤ a.2
      · refine ⟨a, by simp, ?_⟩
        intro q hq
        rcases Multiset.mem_cons.mp hq with rfl | hq
        · exact le_refl _
        · exact le_trans (hmax q hq) hle
      · refine ⟨p, by simp [hp], ?_⟩
        intro q hq
        rcases Multiset.mem_cons.mp hq with rfl | hq
        · omega
        · exact hmax q hq

/-- Exchange step: a minimal weight can be moved to a deepest position without
increasing the cost; the depths and the other weights are kept. -/
theorem swap_min (x : Int) (L : Nat) (R : Multiset (Int × Nat)) (a : Int) (W : Multiset Int)
    (hw : ((x, L) ::ₘ R).map Prod.fst = a ::ₘ W) (hmin : ∀ w ∈ W, a ≤ w)
    (hL : ∀ p ∈ R, p.2 ≤ L) :
    ∃ R1 : Multiset (Int × Nat), R1.map Prod.fst = W ∧ R1.map Prod.snd = R.map Prod.snd ∧
      pairCost ((a, L) ::ₘ R1) ≤ pairCost ((x, L) ::ₘ R) := by
  rw [Multiset.map_cons] at hw
  rcases Multiset.cons_eq_cons.mp hw with ⟨hxa, hR⟩ | ⟨hxa, cs, hR, hW⟩
  · simp only at hxa
    subst hxa
    exact ⟨R, hR, rfl, le_refl _⟩
  · simp only at hxa hR hW
    have hmem : a ∈ R.map Prod.fst := by rw [hR]; simp
    obtain ⟨p, hp, hpa⟩ := Multiset.mem_map.mp hmem
    obtain ⟨R0, hR0⟩ := Multiset.exists_cons_of_mem hp
    obtain ⟨w, l⟩ := p
    simp only at hpa
    subst hpa
    subst hR0
    refine ⟨(x, l) ::ₘ R0, ?_, ?_, ?_⟩
    · rw [Multiset.map_cons, Multiset.cons_inj_right] at hR
      rw [Multiset.map_cons, hR, hW]
    · simp
    · have hle : l ≤ L := hL (w, l) (by simp)
      have hax : w ≤ x := hmin x (by rw [hW]; simp)
      simp only [pairCost_cons]
      have hl : (l : Int) ≤ (L : Int) := by exact_mod_cast hle
      nlinarith [mul_nonneg (sub_nonneg.mpr hax) (sub_nonneg.mpr hl)]

/-- When exactly one depth is maximal, it can be lowered by one without
breaking the Kraft bound. -/
theorem kraftSum_lower (N L : Nat) (D : Multiset Nat) (hLN : L ≤ N) (hlt : ∀ d ∈ D, d < L)
    (hK : kraftSum N (L ::ₘ D) ≤ 2 ^ N) (hne : D ≠ 0) :
    kraftSum N ((L - 1) ::ₘ D) ≤ 2 ^ N := by
  obtain ⟨d0, hd0⟩ := Multiset.exists_mem_of_ne_zero hne
  have hL1 : 1 ≤ L := by
    have := hlt d0 hd0
    omega
  rw [kraftSum_cons] at hK ⊢
  have hq : 2 ^ (N - (L - 1)) = 2 * 2 ^ (N - L) := by
    rw [← pow_succ']
    congr 1
    omega
  have hdvd : 2 ^ (N - (L - 1)) ∣ kraftSum N D := by
    apply Multiset.dvd_sum
    intro y hy
    obtain ⟨d, hd, rfl⟩ := Multiset.mem_map.mp hy
    apply pow_dvd_pow
    have := hlt d hd
    omega
  have hdvdN : 2 ^ (N - (L - 1)) ∣ 2 ^ N := pow_dvd_pow 2 (by omega)
  obtain ⟨k, hk⟩ := hdvd
  obtain ⟨m, hm⟩ := hdvdN
  have hpos : 0 < 2 ^ (N - L) := pow_pos (by norm_num) _
  rw [hq] at hk hm ⊢
  generalize 2 ^ (N - L) = h at hk hm hpos hK ⊢
  generalize kraftSum N D = K at hk hK ⊢
  generalize 2 ^ N = P at hm hK ⊢
  subst hk hm
  have hkm : k < m := by
    by_contra hcon
    have := Nat.mul_le_mul_left (2 * h) (not_lt.mp hcon)
    omega
  have := Nat.mul_le_mul_left (2 * h) (Nat.succ_le_of_lt hkm)
  rw [Nat.mul_succ] at this
  omega

/-- Merge step on depth assignments: from an assignment of depths to weights
within the Kraft bound, in which `a` and `b` are two smallest weights, there is
an assignment for the weights with `a` and `b` replaced by `a + b`, within the
Kraft bound, that costs at least `a + b` less. -/
theorem exists_merge (N : Nat) : ∀ (n : Nat) (M : Multiset (Int × Nat)) (a b : Int)
    (W0 : Multiset Int), (M.map Prod.snd).sum = n → M.map Prod.fst = a ::ₘ b ::ₘ W0 →
    a ≤ b → (∀ w ∈ W0, b ≤ w) → (∀ p ∈ M, 0 ≤ p.1) → (∀ p ∈ M, p.2 ≤ N) →
    kraftSum N (M.map Prod.snd) ≤ 2 ^ N →
    ∃ M1 : Multiset (Int × Nat), M1.map Prod.fst = (a + b) ::ₘ W0 ∧ (∀ p ∈ M1, p.2 ≤ N) ∧
      kraftSum N (M1.map Prod.snd) ≤ 2 ^ N ∧ pairCost M1 + (a + b) ≤ pairCost M := by
  intro n
  induction n using Nat.strong_induction_on with
  | _ n ih =>
    intro M a b W0 hn hw hab hb hnonneg hdepth hK
    have hM0 : M ≠ 0 := by
      rintro rfl
      simp at hw
    obtain ⟨p, hp, hmax⟩ := exists_max_depth M hM0
    obtain ⟨M1, rfl⟩ := Multiset.exists_cons_of_mem hp
    obtain ⟨x, L⟩ := p
    have hM1 : ∀ q ∈ M1, q.2 ≤ L := fun q hq => hmax q (Multiset.mem_cons_of_mem hq)
    have hLN : L ≤ N := hdepth (x, L) (by simp)
    have hcard : 1 ≤ Multiset.card M1 := by
      have := congrArg Multiset.card hw
      simp only [Multiset.card_map, Multiset.card_cons] at this
      omega
    have hM1ne : M1 ≠ 0 := by
      rintro rfl
      simp at hcard
    rw [Multiset.map_cons] at hK hn
    simp only at hK hn
    by_cases hex : ∃ q ∈ M1, q.2 = L
    · -- two positions of maximal depth
      obtain ⟨q, hq, hqL⟩ := hex
      have hL1 : 1 ≤ L := by
        by_contra hcon
        have hL0 : L = 0 := by omega
        obtain ⟨M2, rfl⟩ := Multiset.exists_cons_of_mem hq
        rw [Multiset.map_cons, kraftSum_cons, kraftSum_cons, hqL, hL0] at hK
        have hpos : 0 < 2 ^ N := pow_pos (by norm_num) _
        simp only [Nat.sub_zero] at hK
        omega
      obtain ⟨R1, hR1w, hR1d, hR1c⟩ := swap_min x L M1 a (b ::ₘ W0) hw
        (by
          intro w hwm
          rcases Multiset.mem_cons.mp hwm with rfl | hwm
          · exact hab
          · exact le_trans hab (hb w hwm))
        hM1
      have hLmem : L ∈ R1.map Prod.snd := by
        rw [hR1d]
        exact Multiset.mem_map.mpr ⟨q, hq, hqL⟩
      obtain ⟨q1, hq1, hq1L⟩ := Multiset.mem_map.mp hLmem
      obtain ⟨R2, rfl⟩ := Multiset.exists_cons_of_mem hq1
      obtain ⟨y, Ly⟩ := q1
      simp only at hq1L
      subst hq1L
      have hR2 : ∀ r ∈ R2, r.2 ≤ Ly := by
        intro r hr
        have : r.2 ∈ M1.map Prod.snd := by
          rw [← hR1d]
          exact Multiset.mem_map.mpr ⟨r, Multiset.mem_cons_of_mem hr, rfl⟩
        obtain ⟨r1, hr1, hr1e⟩ := Multiset.mem_map.mp this
        rw [← hr1e]
        exact hM1 r1 hr1
      obtain ⟨R3, hR3w, hR3d, hR3c⟩ := swap_min y Ly R2 b W0 hR1w hb hR2
      refine ⟨(a + b, Ly - 1) ::ₘ R3, ?_, ?_, ?_, ?_⟩
      · rw [Multiset.map_cons, hR3w]
      · intro r hr
        rcases Multiset.mem_cons.mp hr with rfl | hr
        · simp only
          omega
        · have : r.2 ∈ M1.map Prod.snd := by
            rw [← hR1d, Multiset.map_cons, ← hR3d]
            exact Multiset.mem_cons_of_mem (Multiset.mem_map.mpr ⟨r, hr, rfl⟩)
          obtain ⟨r1, hr1, hr1e⟩ := Multiset.mem_map.mp this
          rw [← hr1e]
          exact hdepth r1 (Multiset.mem_cons_of_mem hr1)
      · rw [← hR1d, Multiset.map_cons, ← hR3d, kraftSum_cons, kraftSum_cons] at hK
        rw [Multiset.map_cons, kraftSum_cons]
        have hq2 : 2 ^ (N - (Ly - 1)) = 2 * 2 ^ (N - Ly) := by
          rw [← pow_succ']
          congr 1
          omega
        simp only at hK ⊢
        rw [hq2]
        omega
      · simp only [pairCost_cons] at hR1c hR3c ⊢
        have hcast : ((Ly - 1 : Nat) : Int) = (Ly : Int) - 1 := by
          rw [Nat.cast_sub hL1]
          simp
        rw [hcast]
        nlinarith [hR1c, hR3c]
    · -- one position of maximal depth: lower it
      have hlt : ∀ q ∈ M1, q.2 < L := by
        intro q hq
        have h1 := hM1 q hq
        have h2 : q.2 ≠ L := fun h => hex ⟨q, hq, h⟩
        omega
      obtain ⟨q0, hq0⟩ := Multiset.exists_mem_of_ne_zero hM1ne
      have hL1 : 1 ≤ L := by
        have := hlt q0 hq0
        omega
      have hK1 : kraftSum N ((L - 1) ::ₘ M1.map Prod.snd) ≤ 2 ^ N := by
        apply kraftSum_lower N L _ hLN _ hK
        · intro h0
          rw [Multiset.map_eq_zero] at h0
          exact hM1ne h0
        · intro d hd
          obtain ⟨r, hr, rfl⟩ := Multiset.mem_map.mp hd
          exact hlt r hr
      rw [Multiset.sum_cons] at hn
      obtain ⟨M2, h1, h2, h3, h4⟩ := ih (n - 1) (by omega) ((x, L - 1) ::ₘ M1) a b W0
        (by
          rw [Multiset.map_cons, Multiset.sum_cons]
          simp only
          omega)
        (by
          rw [Multiset.map_cons] at hw ⊢
          exact hw)
        hab hb
        (by
          intro r hr
          rcases Multiset.mem_cons.mp hr with rfl | hr
          · exact hnonneg (x, L) (by simp)
          · exact hnonneg r (Multiset.mem_cons_of_mem hr))
        (by
          intro r hr
          rcases Multiset.mem_cons.mp hr with rfl | hr
          · simp only
            omega
          · exact hdepth r (Multiset.mem_cons_of_mem hr))
        (by
          rw [Multiset.map_cons]
          exact hK1)
      refine ⟨M2, h1, h2, h3, le_trans h4 ?_⟩
      simp only [pairCost_cons]
      have hx : 0 ≤ x := hnonneg (x, L) (by simp)
      have hcast : ((L - 1 : Nat) : Int) = (L : Int) - 1 := by
        rw [Nat.cast_sub hL1]
        simp
      rw [hcast]
      nlinarith

section Optimal
variable {α : Type}

theorem leafFreqs_merge (c : Option α) (f : Int) (a b : huffmanTree α)
    (ha : a.isNull = false) :
    leafFreqs (huffmanTree.node c f a b) = leafFreqs a ++ leafFreqs b := by
  simp [leafFreqs, leafEntries_merge _ _ _ _ ha]

theorem depthPairs_fst (d : Nat) (t : huffmanTree α) :
    (depthPairs d t).map Prod.fst = leafFreqs t := by
  induction t generalizing d with
  | null => rfl
  | node c f l r ihl ihr =>
    simp only [depthPairs, leafFreqs, leafEntries]
    split
    · rfl
    · simp only [List.map_append, ihl, ihr, leafFreqs]

theorem wplAt_eq_pairCost (d : Nat) (t : huffmanTree α) :
    wplAt d t = pairCost (depthPairs d t : Multiset (Int × Nat)) := by
  induction t generalizing d with
  | null => simp [wplAt, depthPairs, pairCost]
  | node c f l r ihl ihr =>
    simp only [wplAt, depthPairs]
    split
    · simp [pairCost]
    · rw [ihl, ihr]
      simp [pairCost]

theorem wplAt_succ (d : Nat) (t : huffmanTree α) :
    wplAt (d + 1) t = wplAt d t + (leafFreqs t).sum := by
  induction t generalizing d with
  | null => simp [wplAt, leafFreqs, leafEntries]
  | node c f l r ihl ihr =>
    simp only [wplAt, leafFreqs, leafEntries]
    split
    · simp
      ring
    · rw [ihl, ihr]
      simp only [leafFreqs, List.map_append, List.sum_append]
      ring

theorem depthPairs_depth_lt (d : Nat) (t : huffmanTree α) :
    ∀ p ∈ depthPairs d t, p.2 < d + height t := by
  induction t generalizing d with
  | null => simp [depthPairs]
  | node c f l r ihl ihr =>
    intro p hp
    simp only [depthPairs] at hp
    simp only [height]
    split at hp
    · simp only [List.mem_singleton] at hp
      subst hp
      simp only
      omega
    · rcases List.mem_append.mp hp with h | h
      · have := ihl (d + 1) p h
        omega
      · have := ihr (d + 1) p h
        omega

theorem height_pos_of_not_null (t : huffmanTree α) (h : t.isNull = false) : 1 ≤ height t := by
  cases t with
  | null => simp at h
  | node c f l r => simp [height]

/-- Kraft inequality for the leaves of a binary tree. -/
theorem kraftSum_depthPairs (N d : Nat) (t : huffmanTree α) (h : d + height t ≤ N + 1) :
    kraftSum N (((depthPairs d t).map Prod.snd : List Nat) : Multiset Nat) ≤ 2 ^ (N - d) := by
  induction t generalizing d with
  | null => simp [depthPairs, kraftSum]
  | node c f l r ihl ihr =>
    simp only [depthPairs]
    simp only [height] at h
    split
    · simp [kraftSum]
    · rename_i hleaf
      have hchild : 1 ≤ max (height l) (height r) := by
        cases l with
        | null =>
          cases r with
          | null => simp at hleaf
          | node c2 f2 l2 r2 => simp [height]
        | node c1 f1 l1 r1 => simp [height]
      have h1 := ihl (d + 1) (by omega)
      have h2 := ihr (d + 1) (by omega)
      have hpow : 2 ^ (N - d) = 2 * 2 ^ (N - (d + 1)) := by
        rw [← pow_succ']
        congr 1
        omega
      rw [hpow]
      simp only [List.map_append, ← Multiset.coe_add, kraftSum, Multiset.map_add,
        Multiset.sum_add] at h1 h2 ⊢
      omega

/-- Optimality of the tree built from a table with counts that are not
negative and add up to at most `INT_MAX`. -/
theorem build_tree_optimal_of_nonneg (table : List (item α)) (hne : table ≠ [])
    (hpos : ∀ it ∈ table, 0 ≤ it.freq)
    (hsum : (table.map item.freq).sum ≤ 2147483647) :
    ∃ t, build_tree table = Except.ok t ∧
      ∀ other : huffmanTree α, (leafFreqs other).Perm (table.map item.freq) →
        weightedPathLength t ≤ weightedPathLength other := by
  obtain ⟨t0, hb0, _, _⟩ := build_tree_rule (fun _ => True) (fun _ _ _ _ _ _ _ _ => trivial)
    table hne trivial
  refine ⟨t0, hb0, ?_⟩
  intro other hother
  obtain ⟨t, hb, _, hI⟩ := build_tree_rule
    (fun F => (∀ t ∈ F, t.isNull = false ∧ (∀ w ∈ leafFreqs t, 0 ≤ w) ∧
        t.freq = (leafFreqs t).sum) ∧
      (F.map huffmanTree.freq).sum ≤ 2147483647 ∧
      ∃ M : Multiset (Int × Nat), M.map Prod.fst = F.map huffmanTree.freq ∧
        (∀ p ∈ M, p.2 ≤ height other) ∧
        kraftSum (height other) (M.map Prod.snd) ≤ 2 ^ height other ∧
        (F.map weightedPathLength).sum + pairCost M ≤ weightedPathLength other)
    (by
      intro a b rest ha hb hab hmin hI
      obtain ⟨hall, hle, M, hMw, hMd, hMK, hMc⟩ := hI
      obtain ⟨_, hna, hfa⟩ := hall a (by simp)
      obtain ⟨_, hnb, hfb⟩ := hall b (by simp)
      have hwrap := wrapInt_merge a b rest
        (by
          intro t ht
          obtain ⟨_, hnt, hft⟩ := hall t ht
          rw [hft]
          exact List.sum_nonneg hnt)
        hle
      rw [hwrap]
      simp only [Multiset.map_cons] at hMw
      obtain ⟨M1, h1, h2, h3, h4⟩ := exists_merge (height other) _ M a.freq b.freq
        (rest.map huffmanTree.freq) rfl hMw hab
        (by
          intro w hw
          obtain ⟨c, hc, rfl⟩ := Multiset.mem_map.mp hw
          exact hmin c hc)
        (by
          intro p hp
          have : p.1 ∈ M.map Prod.fst := Multiset.mem_map.mpr ⟨p, hp, rfl⟩
          rw [hMw] at this
          have hmem : p.1 ∈ (a ::ₘ b ::ₘ rest).map huffmanTree.freq := by
            simpa using this
          obtain ⟨c, hc, hce⟩ := Multiset.mem_map.mp hmem
          obtain ⟨_, hnc, hfc⟩ := hall c hc
          rw [← hce, hfc]
          exact List.sum_nonneg hnc)
        hMd hMK
      refine ⟨?_, ?_, M1, ?_, h2, h3, ?_⟩
      · intro t ht
        rcases Multiset.mem_cons.mp ht with rfl | ht
        · refine ⟨rfl, ?_, ?_⟩
          · intro w hw
            rw [leafFreqs_merge _ _ _ _ ha] at hw
            rcases List.mem_append.mp hw with h | h
            · exact hna w h
            · exact hnb w h
          · rw [leafFreqs_merge _ _ _ _ ha, List.sum_append, ← hfa, ← hfb]
            rfl
        · exact hall t (by simp [ht])
      · simp only [Multiset.map_cons, Multiset.sum_cons] at hle ⊢
        show a.freq + b.freq + _ ≤ _
        omega
      · rw [h1]
        simp [huffmanTree.freq]
      · simp only [Multiset.map_cons, Multiset.sum_cons] at hMc ⊢
        have hw : weightedPathLength (huffmanTree.node none (a.freq + b.freq) a b) =
            weightedPathLength a + a.freq + (weightedPathLength b + b.freq) := by
          simp only [weightedPathLength, wplAt, ha, Bool.false_and, Bool.false_eq_true,
            if_false]
          rw [wplAt_succ, wplAt_succ, ← hfa, ← hfb]
        rw [hw]
        linarith)
    table hne
    (by
      refine ⟨?_, ?_, ?_⟩
      · intro t ht
        obtain ⟨it, hit, rfl⟩ := List.mem_map.mp (by simpa using ht)
        refine ⟨rfl, ?_, ?_⟩
        · intro w hw
          simp only [leafFreqs, leafOfItem, leafEntries, isNull_null, Bool.and_self, if_true,
            List.map_cons, List.map_nil, List.mem_singleton] at hw
          subst hw
          exact hpos it hit
        · simp [leafFreqs, leafOfItem, leafEntries, huffmanTree.freq]
      · rw [sum_freq_leafOfItem]
        exact hsum
      · refine ⟨(depthPairs 0 other : Multiset (Int × Nat)), ?_, ?_, ?_, ?_⟩
        · rw [Multiset.map_coe, Multiset.map_coe, depthPairs_fst, List.map_map]
          rw [Multiset.coe_eq_coe]
          refine hother.trans ?_
          rw [List.perm_iff_count]
          intro x
          rfl
        · intro p hp
          have := depthPairs_depth_lt 0 other p (by simpa using hp)
          omega
        · have := kraftSum_depthPairs (height other) 0 other (by omega)
          simpa using this
        · have hz : (((table.map leafOfItem : List (huffmanTree α)) :
              Multiset (huffmanTree α)).map weightedPathLength).sum = 0 := by
            apply Multiset.sum_eq_zero
            intro x hx
            obtain ⟨t, ht, rfl⟩ := Multiset.mem_map.mp hx
            obtain ⟨it, _, rfl⟩ := List.mem_map.mp (by simpa using ht)
            simp [weightedPathLength, wplAt, leafOfItem]
          rw [hz, ← wplAt_eq_pairCost]
          simp [weightedPathLength])
  rw [hb0] at hb
  cases hb
  obtain ⟨hall, _, M, hMw, _, _, hMc⟩ := hI
  simp only [Multiset.map_singleton, Multiset.sum_singleton] at hMc hMw
  have hnn : 0 ≤ pairCost M := by
    apply pairCost_nonneg
    intro p hp
    have : p.1 ∈ M.map Prod.fst := Multiset.mem_map.mpr ⟨p, hp, rfl⟩
    rw [hMw, Multiset.mem_singleton] at this
    obtain ⟨_, hnt, hft⟩ := hall t0 (by simp)
    rw [this, hft]
    exact List.sum_nonneg hnt
  linarith

/-- C3, counterexample: for the table of four entries of count `2^30` each,
`build_tree` returns the chain `(((1 2) 3) 4)`, whose first sum is stored as
`-2147483648`; its weighted path length `9 * 2^30` is larger than the weighted
path length `8 * 2^30` of the balanced tree `((1 2) (3 4))`, which carries the
same frequencies. -/
theorem build_tree_not_optimal_past_int_max :
    2 ≤ overflowTable.length ∧
    (∀ it ∈ overflowTable, 0 < it.freq) ∧
    build_tree overflowTable = Except.ok overflowChain ∧
    (leafFreqs overflowBalanced).Perm (overflowTable.map item.freq) ∧
    weightedPathLength overflowChain = 9663676416 ∧
    weightedPathLength overflowBalanced = 8589934592 ∧
    ¬ ∃ t, build_tree overflowTable = Except.ok t ∧
      ∀ other : huffmanTree Nat, (leafFreqs other).Perm (overflowTable.map item.freq) →
        weightedPathLength t ≤ weightedPathLength other := by
  have hb : build_tree overflowTable = Except.ok overflowChain := by decide
  have hperm : (leafFreqs overflowBalanced).Perm (overflowTable.map item.freq) :=
    List.Perm.of_eq (by decide)
  have h1 : weightedPathLength overflowChain = 9663676416 := by decide
  have h2 : weightedPathLength overflowBalanced = 8589934592 := by decide
  refine ⟨by decide, by decide, hb, hperm, h1, h2, ?_⟩
  rintro ⟨t, ht, hall⟩
  rw [hb] at ht
  cases ht
  have hle := hall overflowBalanced hperm
  rw [h1, h2] at hle
  exact absurd hle (by decide)

/-- C3: for every frequency table with `n ≥ 2` entries of positive counts that
add up to at most `INT_MAX` = 2147483647, the weighted path length (sum over the
leaves of frequency times depth) of the tree returned by `build_tree` is at most
that of every binary tree whose leaves carry the same multiset of
frequencies. -/
theorem build_tree_optimal_up_to_int_max (table : List (item α)) (hn : 2 ≤ table.length)
    (hpos : ∀ it ∈ table, 0 < it.freq)
    (hsum : (table.map item.freq).sum ≤ 2147483647) :
    ∃ t, build_tree table = Except.ok t ∧
      ∀ other : huffmanTree α, (leafFreqs other).Perm (table.map item.freq) →
        weightedPathLength t ≤ weightedPathLength other := by
  apply build_tree_optimal_of_nonneg table
  · rintro rfl
    simp at hn
  · exact fun it hit => le_of_lt (hpos it hit)
  · exact hsum

theorem build_tree_optimal_up_to_int_max_witness :
    2 ≤ ([⟨1, 3⟩, ⟨2, 2⟩, ⟨3, 1⟩] : List (item Nat)).length ∧
    (∀ it ∈ ([⟨1, 3⟩, ⟨2, 2⟩, ⟨3, 1⟩] : List (item Nat)), 0 < it.freq) ∧
    (([⟨1, 3⟩, ⟨2, 2⟩, ⟨3, 1⟩] : List (item Nat)).map item.freq).sum ≤ 2147483647 ∧
    ∃ t, build_tree ([⟨1, 3⟩, ⟨2, 2⟩, ⟨3, 1⟩] : List (item Nat)) = Except.ok t ∧
      ∀ other : huffmanTree Nat,
        (leafFreqs other).Perm (([⟨1, 3⟩, ⟨2, 2⟩, ⟨3, 1⟩] : List (item Nat)).map item.freq) →
        weightedPathLength t ≤ weightedPathLength other :=
  ⟨by decide, by decide, by decide,
    build_tree_optimal_up_to_int_max [⟨1, 3⟩, ⟨2, 2⟩, ⟨3, 1⟩] (by decide) (by decide)
      (by decide)⟩

end Optimal

/-! ## The code table below the queue ceiling -/

theorem bstKeys_node {α : Type} (ch : α) (enc : List Char) (l r : bst α) :
    (bst.node ch enc l r).toList.map Prod.fst =
      l.toList.map Prod.fst ++ ch :: r.toList.map Prod.fst := by
  simp [bst.toList]

section CodeTable
variable {α : Type} [LinearOrder α]

theorem bstSorted_node_iff (ch : α) (enc : List Char) (l r : bst α) :
    ((bst.node ch enc l r).toList.map Prod.fst).Sorted (· < ·) ↔
      (l.toList.map Prod.fst).Sorted (· < ·) ∧ (r.toList.map Prod.fst).Sorted (· < ·) ∧
      (∀ k ∈ l.toList.map Prod.fst, k < ch) ∧ (∀ k ∈ r.toList.map Prod.fst, ch < k) := by
  rw [bstKeys_node]
  simp only [List.Sorted, List.pairwise_append, List.pairwise_cons, List.mem_cons]
  constructor
  · rintro ⟨hl, ⟨hr1, hr2⟩, hlr⟩
    exact ⟨hl, hr2, fun k hk => hlr k hk ch (Or.inl rfl), hr1⟩
  · rintro ⟨hl, hr, hlt, hgt⟩
    refine ⟨hl, ⟨hgt, hr⟩, ?_⟩
    rintro a ha b (rfl | hb)
    · exact hlt a ha
    · exact lt_trans (hlt a ha) (hgt b hb)

/-- Entries of the code table after `insertBst` of a symbol that is not in it. -/
theorem toList_insertBst (root : bst α) (x : α) (path : List Char)
    (hx : x ∉ root.toList.map Prod.fst) :
    (insertBst root x path).toList.Perm ((x, path) :: root.toList) := by
  induction root with
  | null => simp [insertBst, bst.toList]
  | node ch enc l r ihl ihr =>
    rw [bstKeys_node] at hx
    simp only [List.mem_append, List.mem_cons, not_or] at hx
    obtain ⟨h1, h2, h3⟩ := hx
    unfold insertBst
    split
    · simp only [bst.toList, List.append_assoc]
      exact (ihl h1).append_right _
    · split
      · simp only [bst.toList]
        refine ((ihr h3).append_left (l.toList ++ [(ch, enc)])).trans ?_
        exact List.perm_middle
      · rename_i ha hb
        exact absurd (le_antisymm (not_lt.mp hb) (not_lt.mp ha)) h2

/-- The function `insertBst` keeps the symbols in ascending order. -/
theorem sorted_insertBst (root : bst α) (x : α) (path : List Char)
    (hx : x ∉ root.toList.map Prod.fst)
    (h : (root.toList.map Prod.fst).Sorted (· < ·)) :
    ((insertBst root x path).toList.map Prod.fst).Sorted (· < ·) := by
  induction root with
  | null => simp [insertBst, bst.toList]
  | node ch enc l r ihl ihr =>
    rw [bstSorted_node_iff] at h
    obtain ⟨hl, hr, hlt, hgt⟩ := h
    rw [bstKeys_node] at hx
    simp only [List.mem_append, List.mem_cons, not_or] at hx
    obtain ⟨h1, h2, h3⟩ := hx
    unfold insertBst
    split
    · rename_i hlt1
      rw [bstSorted_node_iff]
      refine ⟨ihl h1 hl, hr, ?_, hgt⟩
      intro k hk
      have := ((toList_insertBst l x path h1).map Prod.fst).mem_iff.mp hk
      rcases List.mem_cons.mp this with rfl | hk
      · exact hlt1
      · exact hlt k hk
    · split
      · rename_i _ hgt1
        rw [bstSorted_node_iff]
        refine ⟨hl, ihr h3 hr, hlt, ?_⟩
        intro k hk
        have := ((toList_insertBst r x path h3).map Prod.fst).mem_iff.mp hk
        rcases List.mem_cons.mp this with rfl | hk
        · exact hgt1
        · exact hgt k hk
      · rw [bstSorted_node_iff]
        exact ⟨hl, hr, hlt, hgt⟩

/-- In an ordered code table `findNode` finds the entry of every symbol of the
table. -/
theorem findNode_of_mem (root : bst α) (x : α) (path : List Char)
    (h : (root.toList.map Prod.fst).Sorted (· < ·)) (hmem : (x, path) ∈ root.toList) :
    ∃ l r, findNode root x = Except.ok (bst.node x path l r) := by
  induction root with
  | null => simp [bst.toList] at hmem
  | node ch enc l r ihl ihr =>
    rw [bstSorted_node_iff] at h
    obtain ⟨hl, hr, hlt, hgt⟩ := h
    simp only [bst.toList, List.mem_append, List.mem_singleton, Prod.mk.injEq] at hmem
    unfold findNode
    rcases hmem with (hm | ⟨rfl, rfl⟩) | hm
    · have : x < ch := hlt x (List.mem_map.mpr ⟨(x, path), hm, rfl⟩)
      simp only [this, if_true]
      exact ihl hl hm
    · simp only [lt_irrefl, if_false, gt_iff_lt]
      exact ⟨l, r, rfl⟩
    · have : ch < x := hgt x (List.mem_map.mpr ⟨(x, path), hm, rfl⟩)
      simp only [not_lt.mpr (le_of_lt this), if_false, gt_iff_lt, this, if_true]
      exact ihr hr hm

end CodeTable

theorem leafPaths_of_not_leaf {α : Type} (c : Option α) (f : Int) (l r : huffmanTree α)
    (hleaf : (l.isNull && r.isNull) = false) :
    leafPaths (huffmanTree.node c f l r) =
      (leafPaths l).map (fun e => (e.1, '0' :: e.2)) ++
        (leafPaths r).map (fun e => (e.1, '1' :: e.2)) := by
  simp [leafPaths, hleaf]

theorem childCells_paths {α : Type} (c : Option α) (f : Int) (path : List Char)
    (l r : huffmanTree α) (hleaf : (l.isNull && r.isNull) = false) :
    (childCells path l r).flatMap
        (fun q => (leafPaths q.node).map (fun e => (e.1, q.path ++ e.2))) =
      (leafPaths (huffmanTree.node c f l r)).map (fun e => (e.1, path ++ e.2)) := by
  rw [leafPaths_of_not_leaf c f l r hleaf]
  cases l with
  | null =>
    cases r with
    | null => simp at hleaf
    | node c2 f2 l2 r2 =>
      simp only [childCells, isNull_null, isNull_node, if_true, Bool.false_eq_true, if_false,
        List.nil_append, List.flatMap_cons, List.flatMap_nil, List.append_nil]
      simp [leafPaths]
  | node c1 f1 l1 r1 =>
    cases r with
    | null =>
      simp only [childCells, isNull_null, isNull_node, if_true, Bool.false_eq_true, if_false,
        List.append_nil, List.flatMap_cons, List.flatMap_nil]
      simp [leafPaths]
    | node c2 f2 l2 r2 =>
      simp only [childCells, isNull_node, Bool.false_eq_true, if_false,
        List.singleton_append, List.flatMap_cons, List.flatMap_nil, List.append_nil,
        List.map_append, List.map_map]
      congr 1 <;> apply List.map_congr_left <;> intro e _ <;> simp

theorem childCells_length_le {α : Type} (path : List Char) (l r : huffmanTree α) :
    (childCells path l r).length ≤ numNodes l + numNodes r := by
  cases l <;> cases r <;> simp [childCells, numNodes]
  omega

theorem length_le_sum_numNodes {α : Type} (L : List (nodeQueue α))
    (h : ∀ q ∈ L, q.node.isNull = false) :
    L.length ≤ (L.map (fun q => numNodes q.node)).sum := by
  induction L with
  | nil => simp
  | cons q rest ih =>
    have hq := h q (List.mem_cons_self _ _)
    have := ih (fun q1 hq1 => h q1 (List.mem_cons_of_mem _ hq1))
    simp only [List.length_cons, List.map_cons, List.sum_cons]
    cases hn : q.node with
    | null => rw [hn] at hq; simp at hq
    | node c f l r =>
      simp only [numNodes]
      omega

section Table
variable {α : Type} [LinearOrder α]

theorem bfsVisitLeaf_eq (st : bfsState α) (x : α) (path : List Char)
    (hfirst : st.isFirstLeaf = false → st.root = bst.null) :
    bfsVisitLeaf st (some x) path = Except.ok (true, insertBst st.root x path) := by
  simp only [bfsVisitLeaf]
  cases hb : st.isFirstLeaf with
  | false =>
    simp only [if_true, hfirst hb]
    rfl
  | true => simp

/-- One iteration of the loop of `bfsTraversal`, on a tree that fits the queue
and whose leaves have pairwise distinct characters. -/
theorem bfsStep_table (t : huffmanTree α) (hlab : ∀ e ∈ leafPaths t, e.1.isSome = true)
    (hnd : ((leafPaths t).map Prod.fst).Nodup) (hcap : numNodes t ≤ MAX_QUEUE_LENGTH)
    (st : bfsState α) (hJ : bfsTableInv t st) (hlt : st.front < st.queue.length) :
    ∃ st1, bfsStep st = Except.ok st1 ∧ bfsTableInv t st1 ∧ st1.front = st.front + 1 := by
  obtain ⟨hfl, hsum, hnn, hfirst, hsorted, hperm⟩ := hJ
  have hdrop := List.drop_eq_getElem_cons hlt
  have hget : st.queue.get? st.front = some st.queue[st.front] := by
    rw [List.get?_eq_getElem?, List.getElem?_eq_getElem hlt]
  generalize st.queue[st.front] = cur at hdrop hget
  have hlen : st.queue.length = st.front + 1 + (st.queue.drop (st.front + 1)).length := by
    rw [List.length_drop]
    omega
  simp only [pendingPaths] at hperm
  rw [hdrop] at hnn hsum hperm
  have hcur := hnn cur (List.mem_cons_self _ _)
  have hrest : ∀ q ∈ st.queue.drop (st.front + 1), q.node.isNull = false :=
    fun q hq => hnn q (List.mem_cons_of_mem _ hq)
  have hrestlen := length_le_sum_numNodes _ hrest
  simp only [List.map_cons, List.sum_cons, List.flatMap_cons] at hsum hperm
  obtain ⟨node, path⟩ := cur
  cases node with
  | null => simp at hcur
  | node c f l r =>
    simp only [numNodes] at hsum
    have hcl := childCells_length_le path l r
    have hroom : st.queue.length + (childCells path l r).length ≤ MAX_QUEUE_LENGTH := by
      omega
    rw [bfsStep_eq st c f l r path hget, enqueueChildren_eq _ _ _ _ (by omega), if_pos hroom]
    by_cases hleaf : (l.isNull && r.isNull) = true
    · -- a leaf: its entry goes into the table
      have hcells : childCells path l r = [] := by
        simp only [Bool.and_eq_true] at hleaf
        simp [childCells, hleaf.1, hleaf.2]
      simp only [leafPaths, hleaf, if_true, List.map_cons, List.map_nil, List.append_nil,
        List.singleton_append] at hperm
      have hc : c.isSome = true :=
        hlab (c, path) (hperm.mem_iff.mp (List.mem_append_right _ (List.mem_cons_self _ _)))
      obtain ⟨x, rfl⟩ := Option.isSome_iff_exists.mp hc
      have hx : x ∉ st.root.toList.map Prod.fst := by
        intro hxm
        have hnd2 := ((hperm.map Prod.fst).nodup_iff).mpr hnd
        rw [List.map_append, List.nodup_append] at hnd2
        obtain ⟨e, he, hex⟩ := List.mem_map.mp hxm
        have hdis := hnd2.2.2
        have hm1 : some x ∈ List.map Prod.fst
            (List.map (fun e : α × List Char => (some e.1, e.2)) st.root.toList) :=
          List.mem_map.mpr ⟨(some e.1, e.2), List.mem_map.mpr ⟨e, he, rfl⟩, by simp [hex]⟩
        exact hdis hm1 (by simp)
      simp only [hleaf, if_true, bfsVisitLeaf_eq st x path hfirst, hcells, List.append_nil]
      refine ⟨_, rfl, ⟨?_, ?_, ?_, ?_, ?_, ?_⟩, rfl⟩
      · exact hlt
      · simp only [Bool.and_eq_true] at hleaf
        cases l with
        | null =>
          cases r with
          | null =>
            simp only [numNodes] at hsum
            simp only
            omega
          | node c2 f2 l2 r2 => simp at hleaf
        | node c1 f1 l1 r1 => simp at hleaf
      · exact hrest
      · intro h
        simp at h
      · exact sorted_insertBst _ _ _ hx hsorted
      · simp only [pendingPaths]
        refine List.Perm.trans ?_ hperm
        have h1 := (toList_insertBst st.root x path hx).map
          (fun e : α × List Char => (some e.1, e.2))
        refine (h1.append_right _).trans ?_
        simp only [List.map_cons, List.cons_append]
        exact List.perm_middle.symm
    · -- an internal node: its children are enqueued
      have hleaf2 : (l.isNull && r.isNull) = false := by simpa using hleaf
      simp only [hleaf2, Bool.false_eq_true, if_false]
      refine ⟨_, rfl, ⟨?_, ?_, ?_, ?_, ?_, ?_⟩, rfl⟩
      · simp only [List.length_append]
        omega
      · simp only
        rw [List.drop_append_of_le_length (by omega)]
        simp only [List.map_append, List.sum_append, childCells_numNodes]
        omega
      · simp only
        rw [List.drop_append_of_le_length (by omega)]
        intro q hq
        rcases List.mem_append.mp hq with hq | hq
        · exact hrest q hq
        · exact (childCells_spec c f path l r q hq).1
      · exact hfirst
      · exact hsorted
      · simp only [pendingPaths]
        rw [List.drop_append_of_le_length (by omega), List.flatMap_append,
          childCells_paths c f path l r hleaf2]
        refine List.Perm.trans ?_ hperm
        exact List.Perm.append_left _ List.perm_append_comm

/-- The loop of `bfsTraversal` ends within the fuel it is given and keeps the
invariant. -/
theorem bfsLoop_table (t : huffmanTree α) (hlab : ∀ e ∈ leafPaths t, e.1.isSome = true)
    (hnd : ((leafPaths t).map Prod.fst).Nodup) (hcap : numNodes t ≤ MAX_QUEUE_LENGTH)
    (fuel : Nat) (st : bfsState α) (hJ : bfsTableInv t st)
    (hfuel : MAX_QUEUE_LENGTH ≤ fuel + st.front) :
    ∃ st1, bfsLoop fuel st = Except.ok st1 ∧ bfsTableInv t st1 ∧
      st1.front = st1.queue.length := by
  have hbound : ∀ s : bfsState α, bfsTableInv t s → s.queue.length ≤ MAX_QUEUE_LENGTH := by
    intro s hs
    obtain ⟨h1, h2, h3, _⟩ := hs
    have := length_le_sum_numNodes _ h3
    rw [List.length_drop] at this
    omega
  induction fuel generalizing st with
  | zero =>
    have := hbound st hJ
    exact ⟨st, rfl, hJ, by have := hJ.1; omega⟩
  | succ fuel ih =>
    unfold bfsLoop
    by_cases hlt : st.front < st.queue.length
    · simp only [hlt, if_true]
      obtain ⟨st1, hok, hJ1, hfront⟩ := bfsStep_table t hlab hnd hcap st hJ hlt
      rw [hok]
      exact ih st1 hJ1 (by omega)
    · simp only [hlt, if_false]
      exact ⟨st, rfl, hJ, by have := hJ.1; omega⟩

/-- Below the queue ceiling, `bfsTraversal` returns an ordered code table whose
entries are the leaves of the tree with their paths from the root. -/
theorem bfsTraversal_table (t : huffmanTree α) (hnn : t.isNull = false)
    (hlab : ∀ e ∈ leafPaths t, e.1.isSome = true)
    (hnd : ((leafPaths t).map Prod.fst).Nodup) (hcap : numNodes t ≤ MAX_QUEUE_LENGTH) :
    ∃ root, bfsTraversal t = Except.ok root ∧
      (root.toList.map Prod.fst).Sorted (· < ·) ∧
      (root.toList.map (fun e => (some e.1, e.2))).Perm (leafPaths t) := by
  obtain ⟨st1, hok, hJ1, hend⟩ := bfsLoop_table t hlab hnd hcap MAX_QUEUE_LENGTH (bfsInit t)
    (by
      refine ⟨by simp [bfsInit], by simp [bfsInit], ?_, fun _ => rfl, by simp [bfsInit,
        bst.toList], ?_⟩
      · intro q hq
        simp only [bfsInit, List.drop_zero, List.mem_singleton] at hq
        subst hq
        exact hnn
      · simp [bfsInit, pendingPaths, bst.toList])
    (by simp)
  refine ⟨st1.root, ?_, hJ1.2.2.2.2.1, ?_⟩
  · unfold bfsTraversal
    rw [hok]
  · have := hJ1.2.2.2.2.2
    simp only [pendingPaths, hend, List.drop_length, List.flatMap_nil, List.append_nil] at this
    exact this

end Table

section RoundTrip
variable {α : Type}

theorem leafPaths_fst (t : huffmanTree α) :
    (leafPaths t).map Prod.fst = (leafEntries t).map Prod.fst := by
  induction t with
  | null => rfl
  | node c f l r ihl ihr =>
    simp only [leafPaths, leafEntries]
    split
    · rfl
    · simp only [List.map_append, List.map_map, ← ihl, ← ihr]
      rfl

/-- Decoding the path of a leaf, from the node the path starts at, emits the
character of the leaf and returns to the root. -/
theorem decodeLoop_path (tree cur : huffmanTree α) (hleaf : cur.isLeaf = false)
    (c : Option α) (p : List Char) (hmem : (c, p) ∈ leafPaths cur)
    (out : List (Option α)) (rest : List Char) :
    decodeLoop tree cur out (p ++ rest) = decodeLoop tree tree (out ++ [c]) rest := by
  induction cur generalizing p with
  | null => simp [leafPaths] at hmem
  | node c0 f l r ihl ihr =>
    simp only [huffmanTree.isLeaf] at hleaf
    rw [leafPaths_of_not_leaf c0 f l r hleaf] at hmem
    rcases List.mem_append.mp hmem with h | h
    · obtain ⟨e, he, hep⟩ := List.mem_map.mp h
      simp only [Prod.mk.injEq] at hep
      obtain ⟨rfl, rfl⟩ := hep
      cases l with
      | null => simp [leafPaths] at he
      | node c1 f1 l1 r1 =>
        simp only [List.cons_append, decodeLoop, decodeMove, if_true]
        by_cases hl : (l1.isNull && r1.isNull) = true
        · simp only [leafPaths, hl, if_true, List.mem_singleton] at he
          subst he
          simp only [hl, if_true]
          rfl
        · have hl2 : (l1.isNull && r1.isNull) = false := by simpa using hl
          simp only [hl2, Bool.false_eq_true, if_false]
          exact ihl (by simp [huffmanTree.isLeaf, hl2]) e.2 he
    · obtain ⟨e, he, hep⟩ := List.mem_map.mp h
      simp only [Prod.mk.injEq] at hep
      obtain ⟨rfl, rfl⟩ := hep
      cases r with
      | null => simp [leafPaths] at he
      | node c1 f1 l1 r1 =>
        have h10 : ¬ ('1' = '0') := by decide
        simp only [List.cons_append, decodeLoop, decodeMove, h10, if_false, if_true]
        by_cases hl : (l1.isNull && r1.isNull) = true
        · simp only [leafPaths, hl, if_true, List.mem_singleton] at he
          subst he
          simp only [hl, if_true]
          rfl
        · have hl2 : (l1.isNull && r1.isNull) = false := by simpa using hl
          simp only [hl2, Bool.false_eq_true, if_false]
          exact ihr (by simp [huffmanTree.isLeaf, hl2]) e.2 he

end RoundTrip

section RoundTripOrdered
variable {α : Type} [LinearOrder α]

/-- With a code table that holds the paths of the leaves of `tree`, the reading
loop of `encode` appends the paths of the symbols read, and `decode` maps that
string back to the symbols. -/
theorem encodeLoop_decodeLoop (tree : huffmanTree α) (root : bst α)
    (hleaf : tree.isLeaf = false)
    (hsorted : (root.toList.map Prod.fst).Sorted (· < ·))
    (hperm : (root.toList.map (fun e => (some e.1, e.2))).Perm (leafPaths tree))
    (stream : List α) (hstream : ∀ x ∈ stream, ∃ p, (some x, p) ∈ leafPaths tree)
    (acc : List Char) :
    ∃ enc, encodeLoop root acc stream = Except.ok (acc ++ enc) ∧
      ∀ out, decodeLoop tree tree out enc = Except.ok (out ++ stream.map some) := by
  induction stream generalizing acc with
  | nil => exact ⟨[], by simp [encodeLoop], fun out => by simp [decodeLoop]⟩
  | cons x rest ih =>
    obtain ⟨p, hp⟩ := hstream x (List.mem_cons_self _ _)
    have hmem : (x, p) ∈ root.toList := by
      obtain ⟨e, he, hee⟩ := List.mem_map.mp (hperm.mem_iff.mpr hp)
      simp only [Prod.mk.injEq, Option.some.injEq] at hee
      obtain ⟨h1, h2⟩ := hee
      have : e = (x, p) := Prod.ext h1 h2
      rw [← this]
      exact he
    obtain ⟨l, r, hfind⟩ := findNode_of_mem root x p hsorted hmem
    obtain ⟨enc, henc, hdec⟩ := ih (fun y hy => hstream y (List.mem_cons_of_mem _ hy)) (acc ++ p)
    refine ⟨p ++ enc, ?_, ?_⟩
    · simp only [encodeLoop, encodeStep, hfind, bst.encoding]
      rw [henc, List.append_assoc]
    · intro out
      rw [decodeLoop_path tree tree hleaf (some x) p hp out enc, hdec]
      simp

/-- Below the queue ceiling the tree of a stream is built and its code table is
derived: the table is ordered, its entries are the leaves of the tree with
their paths, and every symbol of the stream has an entry. -/
theorem createHuffmanTree_table (stream : List α) (h1 : 1 ≤ stream.toFinset.card)
    (h500 : stream.toFinset.card ≤ 500) :
    ∃ t root, createHuffmanTree stream = Except.ok t ∧ t.isNull = false ∧
      numLeaves t = stream.toFinset.card ∧
      bfsTraversal t = Except.ok root ∧
      (root.toList.map Prod.fst).Sorted (· < ·) ∧
      (root.toList.map (fun e => (some e.1, e.2))).Perm (leafPaths t) ∧
      ∀ x ∈ stream, ∃ p, (some x, p) ∈ leafPaths t := by
  rw [createHuffmanTree_eq]
  have hlen : ((stream.toFinset.sort (· ≤ ·)).map
      (fun s => ({ character := s, freq := wrapInt (stream.count s : Int) } : item α))).length =
      stream.toFinset.card := by
    simp
  obtain ⟨t, hb, hnn, hl, hi, _, hperm⟩ := build_tree_shape_of_ne_nil
    ((stream.toFinset.sort (· ≤ ·)).map
      (fun s => ({ character := s, freq := wrapInt (stream.count s : Int) } : item α)))
    (by
      intro hnil
      rw [hnil] at hlen
      simp at hlen
      omega)
  rw [hlen] at hl hi
  have hkeys : ((leafPaths t).map Prod.fst).Perm
      ((stream.toFinset.sort (· ≤ ·)).map some) := by
    rw [leafPaths_fst]
    refine (hperm.map Prod.fst).trans ?_
    simp only [List.map_map]
    exact List.Perm.of_eq (List.map_congr_left (fun s _ => rfl))
  have hlab : ∀ e ∈ leafPaths t, e.1.isSome = true := by
    intro e he
    have := hkeys.mem_iff.mp (List.mem_map.mpr ⟨e, he, rfl⟩)
    obtain ⟨s, _, hs⟩ := List.mem_map.mp this
    rw [← hs]
    rfl
  have hnd : ((leafPaths t).map Prod.fst).Nodup := by
    rw [hkeys.nodup_iff]
    exact (Finset.sort_nodup _ _).map (Option.some_injective α)
  have hcap : numNodes t ≤ MAX_QUEUE_LENGTH := by
    rw [numNodes_eq]
    simp only [MAX_QUEUE_LENGTH]
    omega
  obtain ⟨root, hbfs, hsorted, htable⟩ := bfsTraversal_table t hnn hlab hnd hcap
  refine ⟨t, root, hb, hnn, hl, hbfs, hsorted, htable, ?_⟩
  intro x hx
  have : some x ∈ (leafPaths t).map Prod.fst := by
    rw [hkeys.mem_iff]
    exact List.mem_map.mpr ⟨x, by simpa using hx, rfl⟩
  obtain ⟨e, he, hee⟩ := List.mem_map.mp this
  exact ⟨e.2, by rw [← hee]; exact he⟩

theorem isLeaf_false_of_two_leaves {β : Type} (t : huffmanTree β) (h : 2 ≤ numLeaves t) :
    t.isLeaf = false := by
  cases t with
  | null => rfl
  | node c f l r =>
    simp only [huffmanTree.isLeaf]
    by_contra hcon
    have hcon2 : (l.isNull && r.isNull) = true := by simpa using hcon
    simp only [numLeaves, hcon2, if_true] at h
    omega

/-- Round trip below the queue ceiling: for a stream with at least two and at
most 500 distinct symbols, `encode` returns an encoding that `decode` maps back
to the symbols of the stream, in order. -/
theorem round_trip_below_ceiling (stream : List α) (h2 : 2 ≤ stream.toFinset.card)
    (h500 : stream.toFinset.card ≤ 500) :
    ∃ t enc, createHuffmanTree stream = Except.ok t ∧
      encode t stream = Except.ok (some enc) ∧
      decode t enc = Except.ok (stream.map some) := by
  obtain ⟨t, root, hb, hnn, hl, hbfs, hsorted, htable, hstream⟩ :=
    createHuffmanTree_table stream (by omega) h500
  have hleaf : t.isLeaf = false := isLeaf_false_of_two_leaves t (by omega)
  obtain ⟨enc, henc, hdec⟩ := encodeLoop_decodeLoop t root hleaf hsorted htable stream hstream []
  refine ⟨t, enc, hb, ?_, ?_⟩
  · cases t with
    | null => simp at hnn
    | node c f l r =>
      unfold encode
      simp only [hbfs, henc, List.nil_append]
  · unfold decode
    rw [hdec]
    simp

theorem round_trip_below_ceiling_witness :
    2 ≤ ([1, 1, 1, 2, 2, 3] : List Nat).toFinset.card ∧
    ([1, 1, 1, 2, 2, 3] : List Nat).toFinset.card ≤ 500 ∧
    ∃ t enc, createHuffmanTree ([1, 1, 1, 2, 2, 3] : List Nat) = Except.ok t ∧
      encode t [1, 1, 1, 2, 2, 3] = Except.ok (some enc) ∧
      decode t enc = Except.ok (([1, 1, 1, 2, 2, 3] : List Nat).map some) :=
  ⟨by decide, by decide, round_trip_below_ceiling [1, 1, 1, 2, 2, 3] (by decide) (by decide)⟩

/-- The paths of the leaves of a tree: none is the start of another. -/
theorem leafPaths_pairwise {β : Type} (t : huffmanTree β) :
    (leafPaths t).Pairwise
      (fun e1 e2 => (¬ ∃ s, e1.2 ++ s = e2.2) ∧ (¬ ∃ s, e2.2 ++ s = e1.2)) := by
  induction t with
  | null => simp [leafPaths]
  | node c f l r ihl ihr =>
    simp only [leafPaths]
    split
    · simp
    · rw [List.pairwise_append]
      refine ⟨?_, ?_, ?_⟩
      · rw [List.pairwise_map]
        refine ihl.imp ?_
        intro a b hab
        simpa using hab
      · rw [List.pairwise_map]
        refine ihr.imp ?_
        intro a b hab
        simpa using hab
      · intro a ha b hb
        obtain ⟨a1, _, rfl⟩ := List.mem_map.mp ha
        obtain ⟨b1, _, rfl⟩ := List.mem_map.mp hb
        simp

/-- The paths of the leaves of a tree whose root is not a leaf are not empty. -/
theorem leafPaths_ne_nil {β : Type} (t : huffmanTree β) (hleaf : t.isLeaf = false) :
    ∀ e ∈ leafPaths t, e.2 ≠ [] := by
  intro e he
  cases t with
  | null => simp [leafPaths] at he
  | node c f l r =>
    simp only [huffmanTree.isLeaf] at hleaf
    rw [leafPaths_of_not_leaf c f l r hleaf] at he
    rcases List.mem_append.mp he with h | h
    · obtain ⟨a, _, rfl⟩ := List.mem_map.mp h
      simp
    · obtain ⟨a, _, rfl⟩ := List.mem_map.mp h
      simp

/-- Code of the built tree below the queue ceiling: for a stream with at least
two and at most 500 distinct symbols the derived code table has an entry for
every symbol of the stream, its bit-paths are not empty, and no bit-path is the
start of the bit-path of another symbol. -/
theorem prefix_code_below_ceiling (stream : List α) (h2 : 2 ≤ stream.toFinset.card)
    (h500 : stream.toFinset.card ≤ 500) :
    ∃ t root, createHuffmanTree stream = Except.ok t ∧ bfsTraversal t = Except.ok root ∧
      (∀ x ∈ stream, ∃ p, (x, p) ∈ root.toList) ∧
      (∀ e ∈ root.toList, e.2 ≠ []) ∧
      root.toList.Pairwise (fun e1 e2 => e1.1 ≠ e2.1 ∧
        (¬ ∃ s, e1.2 ++ s = e2.2) ∧ (¬ ∃ s, e2.2 ++ s = e1.2)) := by
  obtain ⟨t, root, hb, hnn, hl, hbfs, hsorted, htable, hstream⟩ :=
    createHuffmanTree_table stream (by omega) h500
  have hleaf : t.isLeaf = false := isLeaf_false_of_two_leaves t (by omega)
  refine ⟨t, root, hb, hbfs, ?_, ?_, ?_⟩
  · intro x hx
    obtain ⟨p, hp⟩ := hstream x hx
    obtain ⟨e, he, hee⟩ := List.mem_map.mp (htable.mem_iff.mpr hp)
    simp only [Prod.mk.injEq, Option.some.injEq] at hee
    exact ⟨p, by rw [← hee.1, ← hee.2]; exact he⟩
  · intro e he
    exact leafPaths_ne_nil t hleaf (some e.1, e.2)
      (htable.mem_iff.mp (List.mem_map.mpr ⟨e, he, rfl⟩))
  · have hpw : (root.toList.map (fun e => (some e.1, e.2))).Pairwise
        (fun e1 e2 => (¬ ∃ s, e1.2 ++ s = e2.2) ∧ (¬ ∃ s, e2.2 ++ s = e1.2)) := by
      refine (htable.pairwise_iff ?_).mpr (leafPaths_pairwise t)
      intro a b hab
      exact ⟨hab.2, hab.1⟩
    rw [List.pairwise_map] at hpw
    have hkeys : root.toList.Pairwise (fun e1 e2 => e1.1 ≠ e2.1) := by
      have := hsorted
      rw [List.Sorted, List.pairwise_map] at this
      exact this.imp (fun h => ne_of_lt h)
    exact hkeys.and hpw

theorem prefix_code_below_ceiling_witness :
    2 ≤ ([1, 1, 1, 2, 2, 3] : List Nat).toFinset.card ∧
    ([1, 1, 1, 2, 2, 3] : List Nat).toFinset.card ≤ 500 ∧
    ∃ t root, createHuffmanTree ([1, 1, 1, 2, 2, 3] : List Nat) = Except.ok t ∧
      bfsTraversal t = Except.ok root ∧
      (∀ x ∈ ([1, 1, 1, 2, 2, 3] : List Nat), ∃ p, (x, p) ∈ root.toList) ∧
      (∀ e ∈ root.toList, e.2 ≠ []) ∧
      root.toList.Pairwise (fun e1 e2 => e1.1 ≠ e2.1 ∧
        (¬ ∃ s, e1.2 ++ s = e2.2) ∧ (¬ ∃ s, e2.2 ++ s = e1.2)) :=
  ⟨by decide, by decide, prefix_code_below_ceiling [1, 1, 1, 2, 2, 3] (by decide) (by decide)⟩

end RoundTripOrdered

/-! ## Decoding: no error is signalled -/

section DecodeErrors
variable {α : Type}

/-- The function `decode` on the string `"01"`, when the left child of the root
is a leaf and the right child is not `NULL`. -/
theorem decodeLoop_01_left_leaf (c : Option α) (f : Int) (cl : Option α) (fl : Int)
    (r : huffmanTree α) (hr : r.isNull = false) :
    decodeLoop (huffmanTree.node c f (huffmanTree.node cl fl huffmanTree.null huffmanTree.null) r)
      (huffmanTree.node c f (huffmanTree.node cl fl huffmanTree.null huffmanTree.null) r) []
      ['0', '1'] = Except.ok (if r.isLeaf then [cl, r.character] else [cl]) := by
  cases r with
  | null => simp at hr
  | node cr fr lr rr =>
    have h10 : ¬ ('1' = '0') := by decide
    by_cases hleaf : (lr.isNull && rr.isNull) = true
    · simp [decodeLoop, decodeMove, h10, huffmanTree.isLeaf, huffmanTree.character, hleaf]
    · have hleaf2 : (lr.isNull && rr.isNull) = false := by simpa using hleaf
      simp [decodeLoop, decodeMove, h10, huffmanTree.isLeaf, hleaf2]

/-- C11 (as the code behaves): decoding the bit string `"01"` against any tree
whose root's left child is a leaf and whose right child is not `NULL` signals no
error: the first character emits the character of the left leaf and resets to
the root, the second character moves from the root to its right child, whose
character is emitted too when it is a leaf, and `decode` returns normally. -/
theorem decode_01_returns_normally (c : Option α) (f : Int) (cl : Option α) (fl : Int)
    (r : huffmanTree α) (hr : r.isNull = false) :
    decode (huffmanTree.node c f (huffmanTree.node cl fl huffmanTree.null huffmanTree.null) r)
      ['0', '1'] = Except.ok (if r.isLeaf then [cl, r.character] else [cl]) :=
  decodeLoop_01_left_leaf c f cl fl r hr

theorem decode_01_returns_normally_witness :
    scenarioMerged.isNull = false ∧
    decode (huffmanTree.node none 6
      (huffmanTree.node (some 'a') 3 huffmanTree.null huffmanTree.null) scenarioMerged)
      ['0', '1'] =
      Except.ok (if scenarioMerged.isLeaf then [some 'a', scenarioMerged.character]
        else [some 'a']) :=
  ⟨by decide, decode_01_returns_normally none 6 (some 'a') 3 scenarioMerged (by decide)⟩

/-- C11 (counterexample): the left child of the root of the tree of Scenario A is
a leaf, and decoding `"01"` against that tree returns normally with the symbol
`a`; no error is signalled at the second character. -/
theorem decode_01_scenario_no_error :
    (huffmanTree.node (some 'a') 3 huffmanTree.null huffmanTree.null).isLeaf = true ∧
    scenarioTree = huffmanTree.node none 6
      (huffmanTree.node (some 'a') 3 huffmanTree.null huffmanTree.null) scenarioMerged ∧
    decode scenarioTree ['0', '1'] = Except.ok [some 'a'] ∧
    ¬ ∃ e, decode scenarioTree ['0', '1'] = Except.error e := by
  have hd : decode scenarioTree ['0', '1'] = Except.ok [some 'a'] := by decide
  refine ⟨by decide, by decide, hd, ?_⟩
  rintro ⟨e, he⟩
  rw [hd] at he
  cases he

/-- Reading a proper start of the path of a leaf emits nothing. -/
theorem decodeLoop_partial_path (tree cur : huffmanTree α) (hleaf : cur.isLeaf = false)
    (c : Option α) (q s : List Char) (hmem : (c, q ++ s) ∈ leafPaths cur) (hs : s ≠ [])
    (out : List (Option α)) :
    decodeLoop tree cur out q = Except.ok out := by
  induction cur generalizing q with
  | null => simp [leafPaths] at hmem
  | node c0 f l r ihl ihr =>
    cases q with
    | nil => rfl
    | cons ch q1 =>
      simp only [huffmanTree.isLeaf] at hleaf
      rw [leafPaths_of_not_leaf c0 f l r hleaf] at hmem
      rcases List.mem_append.mp hmem with h | h
      · obtain ⟨e, he, hep⟩ := List.mem_map.mp h
        simp only [List.cons_append, Prod.mk.injEq, List.cons.injEq] at hep
        obtain ⟨rfl, rfl, hq⟩ := hep
        cases l with
        | null => simp [leafPaths] at he
        | node c1 f1 l1 r1 =>
          simp only [decodeLoop, decodeMove, if_true]
          by_cases hl : (l1.isNull && r1.isNull) = true
          · simp only [leafPaths, hl, if_true, List.mem_singleton] at he
            subst he
            simp only at hq
            have := List.append_eq_nil.mp hq.symm
            exact absurd this.2 hs
          · have hl2 : (l1.isNull && r1.isNull) = false := by simpa using hl
            simp only [hl2, Bool.false_eq_true, if_false]
            exact ihl (by simp [huffmanTree.isLeaf, hl2]) q1 (by rw [← hq]; exact he)
      · obtain ⟨e, he, hep⟩ := List.mem_map.mp h
        simp only [List.cons_append, Prod.mk.injEq, List.cons.injEq] at hep
        obtain ⟨rfl, rfl, hq⟩ := hep
        cases r with
        | null => simp [leafPaths] at he
        | node c1 f1 l1 r1 =>
          have h10 : ¬ ('1' = '0') := by decide
          simp only [decodeLoop, decodeMove, h10, if_false, if_true]
          by_cases hl : (l1.isNull && r1.isNull) = true
          · simp only [leafPaths, hl, if_true, List.mem_singleton] at he
            subst he
            simp only at hq
            have := List.append_eq_nil.mp hq.symm
            exact absurd this.2 hs
          · have hl2 : (l1.isNull && r1.isNull) = false := by simpa using hl
            simp only [hl2, Bool.false_eq_true, if_false]
            exact ihr (by simp [huffmanTree.isLeaf, hl2]) q1 (by rw [← hq]; exact he)

/-- An encoding cut in the middle of a codeword: the complete codewords are
decoded, the incomplete one is dropped, and `decode` returns normally. -/
theorem decode_cut_codeword (tree : huffmanTree α) (hleaf : tree.isLeaf = false)
    (cs : List (Option α × List Char)) (hcs : ∀ e ∈ cs, e ∈ leafPaths tree)
    (c : Option α) (q s : List Char) (hmem : (c, q ++ s) ∈ leafPaths tree) (hs : s ≠ []) :
    decode tree (cs.flatMap Prod.snd ++ q) = Except.ok (cs.map Prod.fst) := by
  unfold decode
  have key : ∀ (cs : List (Option α × List Char)) (out : List (Option α)),
      (∀ e ∈ cs, e ∈ leafPaths tree) →
      decodeLoop tree tree out (cs.flatMap Prod.snd ++ q) =
        Except.ok (out ++ cs.map Prod.fst) := by
    intro cs
    induction cs with
    | nil =>
      intro out _
      simp only [List.flatMap_nil, List.nil_append, List.map_nil, List.append_nil]
      exact decodeLoop_partial_path tree tree hleaf c q s hmem hs out
    | cons e rest ih =>
      intro out hall
      have he := hall e (List.mem_cons_self _ _)
      simp only [List.flatMap_cons, List.append_assoc, List.map_cons]
      rw [decodeLoop_path tree tree hleaf e.1 e.2 he out,
        ih (out ++ [e.1]) (fun x hx => hall x (List.mem_cons_of_mem _ hx))]
      simp
  have := key cs [] hcs
  simpa using this

/-- On a tree in which every internal node has two children and whose root is
not a leaf, the loop of `decode` dereferences no `NULL`, whatever the
characters of the encoding are. -/
theorem decodeRun_total (tree : huffmanTree α) (htree : tree.isNull = false)
    (hleaf : tree.isLeaf = false) (hfull : bothChildren tree) (enc : List Char) :
    ∀ (cur : huffmanTree α) (out : List (Option α)), cur.isNull = false →
      cur.isLeaf = false → bothChildren cur →
      ∃ res, decodeRun tree cur out enc = Except.ok res := by
  induction enc with
  | nil => exact fun cur out _ _ _ => ⟨_, rfl⟩
  | cons ch rest ih =>
    intro cur out hnn hnl hbc
    cases cur with
    | null => simp at hnn
    | node c f l r =>
      simp only [huffmanTree.isLeaf] at hnl
      obtain ⟨hkids, hbl, hbr⟩ := hbc
      have hl : l.isNull = false ∧ r.isNull = false := by
        rcases hkids with ⟨h1, h2⟩ | h
        · rw [h1, h2] at hnl
          simp at hnl
        · exact h
      have hstep : ∀ nxt : huffmanTree α, nxt.isNull = false → bothChildren nxt →
          ∃ res, (match (Except.ok nxt : Except Fault (huffmanTree α)) with
            | Except.error e => Except.error e
            | Except.ok huffmanTree.null => Except.error Fault.nullDeref
            | Except.ok (huffmanTree.node character f left right) =>
                if left.isNull && right.isNull then
                  decodeRun tree tree (out ++ [character]) rest
                else decodeRun tree (huffmanTree.node character f left right) out rest) =
            Except.ok res := by
        intro nxt hn hb
        cases nxt with
        | null => simp at hn
        | node c1 f1 l1 r1 =>
          simp only
          split
          · exact ih tree _ htree hleaf hfull
          · rename_i hnleaf
            exact ih _ _ rfl (by simpa [huffmanTree.isLeaf] using hnleaf) hb
      simp only [decodeRun, decodeMove]
      by_cases h0 : ch = '0'
      · simp only [h0, if_true]
        exact hstep l hl.1 hbl
      · simp only [h0, if_false]
        by_cases h1 : ch = '1'
        · simp only [h1, if_true]
          exact hstep r hl.2 hbr
        · simp only [h1, if_false]
          exact hstep (huffmanTree.node c f l r) rfl ⟨hkids, hbl, hbr⟩

end DecodeErrors

/-! ## Selection of the two minima: ties -/

section FirstSeen
variable {α : Type}

/-- Loop invariant of `findTwoMins` with the tie-break: after the slots below
`k` were scanned, `*min1` is the first active slot of minimum frequency and
`*min2` is the first slot of minimum frequency among the other active slots. -/
theorem findTwoMins_first_seen_inv (nodes : List (huffmanTree α)) (k : Nat) :
    (∀ i, (findTwoMins nodes k).1 = some i →
        i < k ∧ (nodes.getD i huffmanTree.null).isNull = false) ∧
    (∀ j, (findTwoMins nodes k).2 = some j →
        j < k ∧ (nodes.getD j huffmanTree.null).isNull = false ∧
        ∃ i, (findTwoMins nodes k).1 = some i ∧ i ≠ j) ∧
    (∀ m, m < k → (nodes.getD m huffmanTree.null).isNull = false →
        ∃ i, (findTwoMins nodes k).1 = some i ∧
          ((nodes.getD i huffmanTree.null).freq < (nodes.getD m huffmanTree.null).freq ∨
            ((nodes.getD i huffmanTree.null).freq = (nodes.getD m huffmanTree.null).freq ∧
              i ≤ m)) ∧
          (m ≠ i → ∃ j, (findTwoMins nodes k).2 = some j ∧
            ((nodes.getD j huffmanTree.null).freq < (nodes.getD m huffmanTree.null).freq ∨
              ((nodes.getD j huffmanTree.null).freq = (nodes.getD m huffmanTree.null).freq ∧
                j ≤ m)))) := by
  induction k with
  | zero => simp [findTwoMins]
  | succ k ih =>
    rw [findTwoMins_succ]
    obtain ⟨h1, h2, h3⟩ := ih
    generalize findTwoMins nodes k = mins at h1 h2 h3
    obtain ⟨m1, m2⟩ := mins
    simp only at h1 h2 h3
    unfold findTwoMinsStep
    by_cases hnull : (nodes.getD k huffmanTree.null).isNull = true
    · simp only [hnull, if_true]
      refine ⟨fun i hi => ⟨Nat.lt_succ_of_lt (h1 i hi).1, (h1 i hi).2⟩,
        fun j hj => ⟨Nat.lt_succ_of_lt (h2 j hj).1, (h2 j hj).2.1, (h2 j hj).2.2⟩, ?_⟩
      intro m hm hact
      have hmk : m ≠ k := by
        rintro rfl
        rw [hnull] at hact
        exact Bool.noConfusion hact
      exact h3 m (by omega) hact
    · have hact : (nodes.getD k huffmanTree.null).isNull = false := by
        simpa using hnull
      simp only [hact, Bool.false_eq_true, if_false]
      cases m1 with
      | none =>
        simp only [displaces, if_true]
        refine ⟨?_, ?_, ?_⟩
        · intro i hi
          simp only [Option.some.injEq] at hi
          subst hi
          exact ⟨Nat.lt_succ_self _, hact⟩
        · intro j hj
          simp at hj
        · intro m hm hm_act
          by_cases hmk : m = k
          · subst hmk
            exact ⟨m, rfl, Or.inr ⟨rfl, le_refl _⟩, fun h => absurd rfl h⟩
          · obtain ⟨i, hi, _⟩ := h3 m (by omega) hm_act
            simp at hi
      | some a =>
        obtain ⟨ha_lt, ha_act⟩ := h1 a rfl
        by_cases hlt : (nodes.getD k huffmanTree.null).freq < (nodes.getD a huffmanTree.null).freq
        · simp only [displaces, hlt, decide_True, if_true]
          refine ⟨?_, ?_, ?_⟩
          · intro i hi
            simp only [Option.some.injEq] at hi
            subst hi
            exact ⟨Nat.lt_succ_self _, hact⟩
          · intro j hj
            simp only [Option.some.injEq] at hj
            subst hj
            exact ⟨by omega, ha_act, k, rfl, by omega⟩
          · intro m hm hm_act
            by_cases hmk : m = k
            · subst hmk
              exact ⟨m, rfl, Or.inr ⟨rfl, le_refl _⟩, fun h => absurd rfl h⟩
            · obtain ⟨i, hi, hlex, _⟩ := h3 m (by omega) hm_act
              simp only [Option.some.injEq] at hi
              subst hi
              refine ⟨k, rfl, Or.inl (by omega), fun _ => ⟨a, rfl, hlex⟩⟩
        · simp only [displaces, hlt, decide_False, Bool.false_eq_true, if_false]
          cases m2 with
          | none =>
            simp only [if_true]
            refine ⟨?_, ?_, ?_⟩
            · intro i hi
              simp only [Option.some.injEq] at hi
              subst hi
              exact ⟨by omega, ha_act⟩
            · intro j hj
              simp only [Option.some.injEq] at hj
              subst hj
              exact ⟨Nat.lt_succ_self _, hact, a, rfl, by omega⟩
            · intro m hm hm_act
              by_cases hmk : m = k
              · subst hmk
                exact ⟨a, rfl, by omega, fun _ => ⟨m, rfl, Or.inr ⟨rfl, le_refl _⟩⟩⟩
              · obtain ⟨i, hi, hlex, h2nd⟩ := h3 m (by omega) hm_act
                refine ⟨i, hi, hlex, fun hmi => ?_⟩
                obtain ⟨j, hj, _⟩ := h2nd hmi
                simp at hj
          | some b =>
            obtain ⟨hb_lt, hb_act, i0, hi0, hne⟩ := h2 b rfl
            simp only [Option.some.injEq] at hi0
            subst hi0
            by_cases hlt2 : (nodes.getD k huffmanTree.null).freq <
                (nodes.getD b huffmanTree.null).freq
            · simp only [hlt2, decide_True, if_true]
              refine ⟨?_, ?_, ?_⟩
              · intro i hi
                simp only [Option.some.injEq] at hi
                subst hi
                exact ⟨by omega, ha_act⟩
              · intro j hj
                simp only [Option.some.injEq] at hj
                subst hj
                exact ⟨Nat.lt_succ_self _, hact, a, rfl, by omega⟩
              · intro m hm hm_act
                by_cases hmk : m = k
                · subst hmk
                  exact ⟨a, rfl, by omega, fun _ => ⟨m, rfl, Or.inr ⟨rfl, le_refl _⟩⟩⟩
                · obtain ⟨i, hi, hlex, h2nd⟩ := h3 m (by omega) hm_act
                  refine ⟨i, hi, hlex, fun hmi => ?_⟩
                  obtain ⟨j, hj, hjlex⟩ := h2nd hmi
                  simp only [Option.some.injEq] at hj
                  subst hj
                  exact ⟨k, rfl, Or.inl (by omega)⟩
            · simp only [hlt2, decide_False, Bool.false_eq_true, if_false]
              refine ⟨?_, ?_, ?_⟩
              · intro i hi
                simp only [Option.some.injEq] at hi
                subst hi
                exact ⟨by omega, ha_act⟩
              · intro j hj
                simp only [Option.some.injEq] at hj
                subst hj
                exact ⟨by omega, hb_act, a, rfl, hne⟩
              · intro m hm hm_act
                by_cases hmk : m = k
                · subst hmk
                  exact ⟨a, rfl, by omega, fun _ => ⟨b, rfl, by omega⟩⟩
                · exact h3 m (by omega) hm_act

/-- With at least two active slots, the two slots `findTwoMins` selects, with the
tie-break of each. -/
theorem findTwoMins_first_seen (nodes : List (huffmanTree α)) (size : Nat)
    (hlen : nodes.length = size) (h2 : 2 ≤ (activeNodes nodes).length) :
    ∃ i j, findTwoMins nodes size = (some i, some j) ∧ i ≠ j ∧ i < size ∧ j < size ∧
      (nodes.getD i huffmanTree.null).isNull = false ∧
      (nodes.getD j huffmanTree.null).isNull = false ∧
      (∀ m, (nodes.getD m huffmanTree.null).isNull = false →
        (nodes.getD i huffmanTree.null).freq < (nodes.getD m huffmanTree.null).freq ∨
          ((nodes.getD i huffmanTree.null).freq = (nodes.getD m huffmanTree.null).freq ∧
            i ≤ m)) ∧
      (∀ m, (nodes.getD m huffmanTree.null).isNull = false → m ≠ i →
        (nodes.getD j huffmanTree.null).freq < (nodes.getD m huffmanTree.null).freq ∨
          ((nodes.getD j huffmanTree.null).freq = (nodes.getD m huffmanTree.null).freq ∧
            j ≤ m)) := by
  obtain ⟨i, j, hfind, hij, hi, hj, _, _⟩ := findTwoMins_two nodes size hlen h2
  obtain ⟨_, _, h3⟩ := findTwoMins_first_seen_inv nodes size
  rw [hfind] at h3
  simp only [Option.some.injEq] at h3
  have hilt : i < size := hlen ▸ isNull_getD_false_lt nodes i hi
  have hjlt : j < size := hlen ▸ isNull_getD_false_lt nodes j hj
  refine ⟨i, j, hfind, hij, hilt, hjlt, hi, hj, ?_, ?_⟩
  · intro m hm
    have hmlt : m < size := hlen ▸ isNull_getD_false_lt nodes m hm
    obtain ⟨i1, hi1, hlex, _⟩ := h3 m hmlt hm
    subst hi1
    exact hlex
  · intro m hm hmi
    have hmlt : m < size := hlen ▸ isNull_getD_false_lt nodes m hm
    obtain ⟨i1, hi1, _, h2nd⟩ := h3 m hmlt hm
    subst hi1
    obtain ⟨j1, hj1, hlex⟩ := h2nd hmi
    subst hj1
    exact hlex

/-- C14: for every slot array with at least two active (non-`NULL`) entries,
`findTwoMins` returns in `min1` the lowest index among the active entries of
minimum frequency and in `min2` the lowest index among the remaining active
entries (`min1` excluded) of minimum frequency among them; `min1` and `min2`
are distinct valid active indices. -/
theorem findTwoMins_first_seen_wins (nodes : List (huffmanTree α)) (size : Nat)
    (hlen : nodes.length = size) (h2 : 2 ≤ (activeNodes nodes).length) :
    ∃ i j, findTwoMins nodes size = (some i, some j) ∧ i ≠ j ∧ i < size ∧ j < size ∧
      (nodes.getD i huffmanTree.null).isNull = false ∧
      (nodes.getD j huffmanTree.null).isNull = false ∧
      (∀ m, (nodes.getD m huffmanTree.null).isNull = false →
        (nodes.getD i huffmanTree.null).freq ≤ (nodes.getD m huffmanTree.null).freq) ∧
      (∀ m, (nodes.getD m huffmanTree.null).isNull = false →
        (nodes.getD m huffmanTree.null).freq = (nodes.getD i huffmanTree.null).freq → i ≤ m) ∧
      (∀ m, (nodes.getD m huffmanTree.null).isNull = false → m ≠ i →
        (nodes.getD j huffmanTree.null).freq ≤ (nodes.getD m huffmanTree.null).freq) ∧
      (∀ m, (nodes.getD m huffmanTree.null).isNull = false → m ≠ i →
        (nodes.getD m huffmanTree.null).freq = (nodes.getD j huffmanTree.null).freq →
          j ≤ m) := by
  obtain ⟨i, j, hfind, hij, hilt, hjlt, hi, hj, h1, h2⟩ :=
    findTwoMins_first_seen nodes size hlen h2
  refine ⟨i, j, hfind, hij, hilt, hjlt, hi, hj, ?_, ?_, ?_, ?_⟩
  · intro m hm
    have := h1 m hm
    omega
  · intro m hm heq
    have := h1 m hm
    omega
  · intro m hm hmi
    have := h2 m hm hmi
    omega
  · intro m hm hmi heq
    have := h2 m hm hmi
    omega

end FirstSeen

theorem findTwoMins_first_seen_wins_witness :
    tieSlots.length = 5 ∧ 2 ≤ (activeNodes tieSlots).length ∧
    ∃ i j, findTwoMins tieSlots 5 = (some i, some j) ∧ i ≠ j ∧ i < 5 ∧ j < 5 ∧
      (tieSlots.getD i huffmanTree.null).isNull = false ∧
      (tieSlots.getD j huffmanTree.null).isNull = false ∧
      (∀ m, (tieSlots.getD m huffmanTree.null).isNull = false →
        (tieSlots.getD i huffmanTree.null).freq ≤ (tieSlots.getD m huffmanTree.null).freq) ∧
      (∀ m, (tieSlots.getD m huffmanTree.null).isNull = false →
        (tieSlots.getD m huffmanTree.null).freq = (tieSlots.getD i huffmanTree.null).freq →
          i ≤ m) ∧
      (∀ m, (tieSlots.getD m huffmanTree.null).isNull = false → m ≠ i →
        (tieSlots.getD j huffmanTree.null).freq ≤ (tieSlots.getD m huffmanTree.null).freq) ∧
      (∀ m, (tieSlots.getD m huffmanTree.null).isNull = false → m ≠ i →
        (tieSlots.getD m huffmanTree.null).freq = (tieSlots.getD j huffmanTree.null).freq →
          j ≤ m) :=
  ⟨by decide, by decide, findTwoMins_first_seen_wins tieSlots 5 (by decide) (by decide)⟩

/-! ## The merge step and the merge loop -/

section MergeStep
variable {α : Type}

/-- C13 (as the code behaves): in every merge step, on an array with at least
two active slots, the node in the slot `min1` becomes the left child of the new
internal node and the node in the slot `min2` its right child; `min1` holds the
selected node of lower frequency, and the node at the smaller position only
when the two frequencies are equal, so the left child can come from the larger
of the two positions.  The new node is stored in the slot `min1` and the slot
`min2` becomes `NULL`. -/
theorem merge_left_child_is_min1 (nodes : List (huffmanTree α)) (size : Nat)
    (hlen : nodes.length = size) (h2 : 2 ≤ (activeNodes nodes).length) :
    ∃ i j, findTwoMins nodes size = (some i, some j) ∧ i ≠ j ∧
      mergeTwoMins nodes (some i) (some j) =
        Except.ok ((nodes.set i (huffmanTree.node none
          (wrapInt ((nodes.getD i huffmanTree.null).freq +
            (nodes.getD j huffmanTree.null).freq))
          (nodes.getD i huffmanTree.null) (nodes.getD j huffmanTree.null))).set j
            huffmanTree.null) ∧
      (nodes.getD i huffmanTree.null).freq ≤ (nodes.getD j huffmanTree.null).freq ∧
      ((nodes.getD i huffmanTree.null).freq = (nodes.getD j huffmanTree.null).freq → i < j) := by
  obtain ⟨i, j, hfind, hij, _, _, hi, hj, h1, _⟩ := findTwoMins_first_seen nodes size hlen h2
  refine ⟨i, j, hfind, hij, mergeTwoMins_ok nodes i j hi hj, ?_, ?_⟩
  · have := h1 j hj
    omega
  · intro heq
    have := h1 j hj
    omega

theorem merge_left_child_is_min1_witness :
    tieSlots.length = 5 ∧ 2 ≤ (activeNodes tieSlots).length ∧
    ∃ i j, findTwoMins tieSlots 5 = (some i, some j) ∧ i ≠ j ∧
      mergeTwoMins tieSlots (some i) (some j) =
        Except.ok ((tieSlots.set i (huffmanTree.node none
          (wrapInt ((tieSlots.getD i huffmanTree.null).freq +
            (tieSlots.getD j huffmanTree.null).freq))
          (tieSlots.getD i huffmanTree.null) (tieSlots.getD j huffmanTree.null))).set j
            huffmanTree.null) ∧
      (tieSlots.getD i huffmanTree.null).freq ≤ (tieSlots.getD j huffmanTree.null).freq ∧
      ((tieSlots.getD i huffmanTree.null).freq = (tieSlots.getD j huffmanTree.null).freq →
        i < j) :=
  ⟨by decide, by decide, merge_left_child_is_min1 tieSlots 5 (by decide) (by decide)⟩

/-- C13 (counterexample): for the table `x:2, y:1` the only merge step selects
`min1 = 1` and `min2 = 0`; the node at the larger position 1 (`y`) becomes the
left child and the node at the smaller position 0 (`x`) the right child. -/
theorem merge_left_child_from_larger_position :
    findTwoMins (descendingTable.map leafOfItem) 2 = (some 1, some 0) ∧
    mergeTwoMins (descendingTable.map leafOfItem) (some 1) (some 0) =
      Except.ok [huffmanTree.null,
        huffmanTree.node none 3
          (huffmanTree.node (some 'y') 1 huffmanTree.null huffmanTree.null)
          (huffmanTree.node (some 'x') 2 huffmanTree.null huffmanTree.null)] ∧
    (descendingTable.map leafOfItem).getD 1 huffmanTree.null =
      huffmanTree.node (some 'y') 1 huffmanTree.null huffmanTree.null ∧
    build_tree descendingTable =
      Except.ok (huffmanTree.node none 3
        (huffmanTree.node (some 'y') 1 huffmanTree.null huffmanTree.null)
        (huffmanTree.node (some 'x') 2 huffmanTree.null huffmanTree.null)) := by
  decide

/-- Running `a + b` iterations of the merge loop is running `a` iterations and
then `b` more. -/
theorem mergeLoop_add (size a b : Nat) (nodes : List (huffmanTree α)) :
    mergeLoop size (a + b) nodes =
      match mergeLoop size a nodes with
      | Except.error e => Except.error e
      | Except.ok nodes1 => mergeLoop size b nodes1 := by
  induction a generalizing nodes with
  | zero => simp [mergeLoop]
  | succ a ih =>
    rw [Nat.succ_add]
    simp only [mergeLoop]
    cases mergeTwoMins nodes (findTwoMins nodes size).1 (findTwoMins nodes size).2 with
    | error e => rfl
    | ok nodes1 => exact ih nodes1

/-- Each merge removes one active slot: `k` merges on an array with more than
`k` active slots do not fault and leave `k` active slots fewer. -/
theorem mergeLoop_active_count (size k : Nat) (nodes : List (huffmanTree α))
    (hlen : nodes.length = size) (hk : k + 1 ≤ (activeNodes nodes).length) :
    ∃ nodes1, mergeLoop size k nodes = Except.ok nodes1 ∧ nodes1.length = size ∧
      (activeNodes nodes1).length + k = (activeNodes nodes).length := by
  induction k generalizing nodes with
  | zero => exact ⟨nodes, rfl, hlen, rfl⟩
  | succ k ih =>
    obtain ⟨i, j, hfind, hij, hi, hj, _, _⟩ := findTwoMins_two nodes size hlen (by omega)
    have hmerge := mergeTwoMins_ok nodes i j hi hj
    obtain ⟨rest, hp1, hp2, _⟩ := activeNodes_merge nodes i j hij hi hj
      (huffmanTree.node none
        (wrapInt ((nodes.getD i huffmanTree.null).freq + (nodes.getD j huffmanTree.null).freq))
        (nodes.getD i huffmanTree.null) (nodes.getD j huffmanTree.null)) rfl
    generalize hn2 : (nodes.set i (huffmanTree.node none
        (wrapInt ((nodes.getD i huffmanTree.null).freq + (nodes.getD j huffmanTree.null).freq))
        (nodes.getD i huffmanTree.null) (nodes.getD j huffmanTree.null))).set j
          huffmanTree.null = nodes2 at hmerge hp2
    have hlen2 : nodes2.length = size := by
      rw [← hn2]
      simpa using hlen
    have hl1 := hp1.length_eq
    have hl2 := hp2.length_eq
    simp only [List.length_cons] at hl1 hl2
    obtain ⟨nodes1, hloop, hl, hcount⟩ := ih nodes2 hlen2 (by omega)
    refine ⟨nodes1, ?_, hl, by omega⟩
    simp only [mergeLoop, hfind, hmerge]
    exact hloop

/-- C15: for a table of `n ≥ 1` entries, after `k` merges (`0 ≤ k ≤ n - 1`) of the
loop of `createHuffmanTree` exactly `n - k` slots of the working array are not
`NULL`; every call of `findTwoMins` in the loop sees at least two active slots
and leaves neither `min1` nor `min2` at `UNINITIALISED`; and after the `n - 1`
merges exactly one slot is not `NULL`, the node returned as the root. -/
theorem merge_loop_invariant (table : List (item α)) (hn : 1 ≤ table.length) :
    (∀ k, k ≤ table.length - 1 →
      ∃ nodes, mergeLoop table.length k (table.map leafOfItem) = Except.ok nodes ∧
        nodes.length = table.length ∧
        (activeNodes nodes).length = table.length - k ∧
        mergeLoop table.length (table.length - 1) (table.map leafOfItem) =
          mergeLoop table.length (table.length - 1 - k) nodes ∧
        (k < table.length - 1 →
          2 ≤ (activeNodes nodes).length ∧
          ∃ i j, findTwoMins nodes table.length = (some i, some j) ∧ i ≠ j ∧
            (nodes.getD i huffmanTree.null).isNull = false ∧
            (nodes.getD j huffmanTree.null).isNull = false)) ∧
    ∃ nodes t, mergeLoop table.length (table.length - 1) (table.map leafOfItem) =
        Except.ok nodes ∧
      activeNodes nodes = [t] ∧ build_tree table = Except.ok t := by
  have hinit : (activeNodes (table.map leafOfItem)).length = table.length := by
    rw [activeNodes_map_leafOfItem]
    simp
  constructor
  · intro k hk
    obtain ⟨nodes, hloop, hl, hcount⟩ := mergeLoop_active_count table.length k
      (table.map leafOfItem) (by simp) (by omega)
    refine ⟨nodes, hloop, hl, by omega, ?_, ?_⟩
    · have hsplit : table.length - 1 = k + (table.length - 1 - k) := by omega
      conv_lhs => rw [hsplit]
      rw [mergeLoop_add, hloop]
    · intro hlt
      have h2 : 2 ≤ (activeNodes nodes).length := by omega
      obtain ⟨i, j, hfind, hij, hi, hj, _, _⟩ := findTwoMins_two nodes table.length hl h2
      exact ⟨h2, i, j, hfind, hij, hi, hj⟩
  · obtain ⟨nodes, hloop, hl, hcount⟩ := mergeLoop_active_count table.length
      (table.length - 1) (table.map leafOfItem) (by simp) (by omega)
    have hone : (activeNodes nodes).length = 1 := by omega
    obtain ⟨t, ht⟩ := List.length_eq_one.mp hone
    refine ⟨nodes, t, hloop, ht, ?_⟩
    unfold build_tree treeOfItems
    have h0 : ¬ table.length = 0 := by omega
    simp only [h0, if_false, lt_irrefl, List.take_length, hloop]
    rw [← hl, List.take_length, firstNonNull_eq, ht]
    rfl

theorem merge_loop_invariant_witness :
    1 ≤ scenarioTable.length ∧
    ((∀ k, k ≤ scenarioTable.length - 1 →
      ∃ nodes, mergeLoop scenarioTable.length k (scenarioTable.map leafOfItem) =
          Except.ok nodes ∧
        nodes.length = scenarioTable.length ∧
        (activeNodes nodes).length = scenarioTable.length - k ∧
        mergeLoop scenarioTable.length (scenarioTable.length - 1)
            (scenarioTable.map leafOfItem) =
          mergeLoop scenarioTable.length (scenarioTable.length - 1 - k) nodes ∧
        (k < scenarioTable.length - 1 →
          2 ≤ (activeNodes nodes).length ∧
          ∃ i j, findTwoMins nodes scenarioTable.length = (some i, some j) ∧ i ≠ j ∧
            (nodes.getD i huffmanTree.null).isNull = false ∧
            (nodes.getD j huffmanTree.null).isNull = false)) ∧
    ∃ nodes t, mergeLoop scenarioTable.length (scenarioTable.length - 1)
        (scenarioTable.map leafOfItem) = Except.ok nodes ∧
      activeNodes nodes = [t] ∧ build_tree scenarioTable = Except.ok t) :=
  ⟨by decide, merge_loop_invariant scenarioTable (by decide)⟩

end MergeStep

/-! ## Scenario A -/

/-- C17: for the stream `[a,a,a,b,b,c]` the frequency table is `a:3, b:2, c:1`;
the first merge selects the slots of `c` and `b` and pairs leaf `c` (left) with
leaf `b` (right); the second merge selects the slot of `a` and the slot of the
merged node and pairs leaf `a` (left) with the merged node (right); the derived
code table gives `a` a bit-path of length 1 and `b` and `c` bit-paths of
length 2. -/
theorem scenario_a_shape :
    CounterItems (createCounterBst scenarioStream) = Except.ok (scenarioTable, 3) ∧
    findTwoMins (scenarioTable.map leafOfItem) 3 = (some 2, some 1) ∧
    mergeLoop 3 1 (scenarioTable.map leafOfItem) =
      Except.ok [huffmanTree.node (some 'a') 3 huffmanTree.null huffmanTree.null,
        huffmanTree.null,
        huffmanTree.node none 3
          (huffmanTree.node (some 'c') 1 huffmanTree.null huffmanTree.null)
          (huffmanTree.node (some 'b') 2 huffmanTree.null huffmanTree.null)] ∧
    findTwoMins [huffmanTree.node (some 'a') 3 huffmanTree.null huffmanTree.null,
        huffmanTree.null, scenarioMerged] 3 = (some 0, some 2) ∧
    mergeLoop 3 2 (scenarioTable.map leafOfItem) =
      Except.ok [huffmanTree.node none 6
          (huffmanTree.node (some 'a') 3 huffmanTree.null huffmanTree.null) scenarioMerged,
        huffmanTree.null, huffmanTree.null] ∧
    createHuffmanTree scenarioStream = Except.ok scenarioTree ∧
    (bfsTraversal scenarioTree).map bst.toList =
      Except.ok [('a', ['0']), ('b', ['1', '1']), ('c', ['1', '0'])] ∧
    (bfsTraversal scenarioTree).map (fun root => root.toList.map (fun e => (e.1, e.2.length))) =
      Except.ok [('a', 1), ('b', 2), ('c', 2)] := by
  decide

/-- C18 (as the code behaves): for the stream `[a,a,a,b,b,c]`, the internal node
created by merging `(c,1)` and `(b,2)` has frequency 3, and the root created by
merging `(a,3)` with that node has frequency 6. -/
theorem scenario_a_frequencies :
    mergeTwoMins (scenarioTable.map leafOfItem) (some 2) (some 1) =
      Except.ok [huffmanTree.node (some 'a') 3 huffmanTree.null huffmanTree.null,
        huffmanTree.null,
        huffmanTree.node none 3
          (huffmanTree.node (some 'c') 1 huffmanTree.null huffmanTree.null)
          (huffmanTree.node (some 'b') 2 huffmanTree.null huffmanTree.null)] ∧
    mergeTwoMins [huffmanTree.node (some 'a') 3 huffmanTree.null huffmanTree.null,
        huffmanTree.null, scenarioMerged] (some 0) (some 2) =
      Except.ok [huffmanTree.node none 6
          (huffmanTree.node (some 'a') 3 huffmanTree.null huffmanTree.null) scenarioMerged,
        huffmanTree.null, huffmanTree.null] ∧
    createHuffmanTree scenarioStream =
      Except.ok (huffmanTree.node none 6
        (huffmanTree.node (some 'a') 3 huffmanTree.null huffmanTree.null)
        (huffmanTree.node none 3
          (huffmanTree.node (some 'c') 1 huffmanTree.null huffmanTree.null)
          (huffmanTree.node (some 'b') 2 huffmanTree.null huffmanTree.null))) ∧
    scenarioMerged.freq = 3 ∧ scenarioTree.freq = 6 := by
  decide

/-- C18 (counterexample): in the tree built for the stream `[a,a,a,b,b,c]` the
node that merges `(c,1)` and `(b,2)` does not have frequency 4 and the root does
not have frequency 7. -/
theorem scenario_a_frequencies_not_4_7 :
    createHuffmanTree scenarioStream = Except.ok scenarioTree ∧
    scenarioTree = huffmanTree.node none scenarioTree.freq
      (huffmanTree.node (some 'a') 3 huffmanTree.null huffmanTree.null) scenarioMerged ∧
    scenarioMerged = huffmanTree.node none scenarioMerged.freq
      (huffmanTree.node (some 'c') 1 huffmanTree.null huffmanTree.null)
      (huffmanTree.node (some 'b') 2 huffmanTree.null huffmanTree.null) ∧
    scenarioMerged.freq ≠ 4 ∧ scenarioTree.freq ≠ 7 := by
  decide

/-! ## The queue ceiling, continued -/

section Ceiling
variable {α : Type} [LinearOrder α]

/-- Below the queue ceiling `findNode` finds every symbol of the stream in the
derived code table, with the path from the root to the leaf of the symbol as
its encoding. -/
theorem lookup_below_ceiling (stream : List α) (h1 : 1 ≤ stream.toFinset.card)
    (h500 : stream.toFinset.card ≤ 500) :
    ∃ t root, createHuffmanTree stream = Except.ok t ∧ bfsTraversal t = Except.ok root ∧
      ∀ x ∈ stream, ∃ p l r, (some x, p) ∈ leafPaths t ∧
        findNode root x = Except.ok (bst.node x p l r) := by
  obtain ⟨t, root, hb, _, _, hbfs, hsorted, htable, hstream⟩ :=
    createHuffmanTree_table stream h1 h500
  refine ⟨t, root, hb, hbfs, ?_⟩
  intro x hx
  obtain ⟨p, hp⟩ := hstream x hx
  have hmem : (x, p) ∈ root.toList := by
    obtain ⟨e, he, hee⟩ := List.mem_map.mp (htable.mem_iff.mpr hp)
    simp only [Prod.mk.injEq, Option.some.injEq] at hee
    have : e = (x, p) := Prod.ext hee.1 hee.2
    rw [← this]
    exact he
  obtain ⟨l, r, hfind⟩ := findNode_of_mem root x p hsorted hmem
  exact ⟨p, l, r, hp, hfind⟩

/-- The fault of `bfsTraversal` on a large tree does not depend on the number of
iterations the loop is allowed. -/
theorem bfsLoop_fault_any_fuel (t : huffmanTree α) (hnn : t.isNull = false)
    (hlab : ∀ e ∈ leafEntries t, e.1.isSome = true) (hbig : MAX_QUEUE_LENGTH < numNodes t)
    (fuel : Nat) (hfuel : MAX_QUEUE_LENGTH ≤ fuel) :
    bfsLoop fuel (bfsInit t) = Except.error Fault.outOfBounds := by
  have hfront : (bfsInit t).front = 0 := rfl
  apply bfsLoop_fault (numNodes t) hbig fuel (bfsInit t) ?_ (by omega)
  refine ⟨?_, ?_, ?_, ?_⟩
  · simp [bfsInit]
  · simp [bfsInit, MAX_QUEUE_LENGTH]
  · intro q hq
    simp only [bfsInit, List.drop_zero, List.mem_singleton] at hq
    subst hq
    exact ⟨hnn, hlab⟩
  · simp [bfsInit]

end Ceiling

/-- C16: for the non-empty stream of the 502 distinct symbols 0, 1, ..., 501 the
tree is built, but `bfsTraversal` returns no code table (it writes outside its
queue), so there is no table in which `findNode` could find the symbols of the
stream. -/
theorem lookup_fault_502_symbols :
    List.range 502 ≠ [] ∧
    ∃ t, createHuffmanTree (List.range 502) = Except.ok t ∧
      bfsTraversal t = Except.error Fault.outOfBounds ∧
      ¬ ∃ root, bfsTraversal t = Except.ok root := by
  refine ⟨fun h => by simpa using congrArg List.length h, ?_⟩
  obtain ⟨t, h1, h2, _⟩ := encode_fault_of_many_symbols (List.range 502)
    (by rw [List.toFinset_card_of_nodup (List.nodup_range 502), List.length_range]; decide)
  refine ⟨t, h1, h2, ?_⟩
  rintro ⟨root, hroot⟩
  rw [h2] at hroot
  cases hroot

/-- C19: the table of the 501 symbols 0, 1, ..., 500 with counts 1, 2, ..., 501
gives a Huffman tree of 1001 nodes, more than `MAX_QUEUE_LENGTH`; on it the
loop of `bfsTraversal` writes outside the queue, whatever number of iterations
it is allowed, and the traversal does not complete. -/
theorem queue_ceiling_1001_nodes :
    ∃ t : huffmanTree Nat,
      build_tree ((List.range 501).map
        (fun n => ({ character := n, freq := (n : Int) + 1 } : item Nat))) = Except.ok t ∧
      numNodes t = 1001 ∧ MAX_QUEUE_LENGTH < numNodes t ∧
      (∀ fuel, MAX_QUEUE_LENGTH ≤ fuel →
        bfsLoop fuel (bfsInit t) = Except.error Fault.outOfBounds) ∧
      bfsTraversal t = Except.error Fault.outOfBounds := by
  obtain ⟨t, hb, hnn, hl, hi, _, hperm⟩ := build_tree_shape_of_ne_nil
    ((List.range 501).map (fun n => ({ character := n, freq := (n : Int) + 1 } : item Nat)))
    (by
      intro h
      have := congrArg List.length h
      simp at this)
  simp only [List.length_map, List.length_range] at hl hi
  have hnodes : numNodes t = 1001 := by
    rw [numNodes_eq]
    omega
  have hlab : ∀ e ∈ leafEntries t, e.1.isSome = true := by
    intro e he
    obtain ⟨it, _, rfl⟩ := List.mem_map.mp (hperm.mem_iff.mp he)
    rfl
  have hbig : MAX_QUEUE_LENGTH < numNodes t := by
    rw [hnodes]
    decide
  exact ⟨t, hb, hnodes, hbig,
    fun fuel hfuel => bfsLoop_fault_any_fuel t hnn hlab hbig fuel hfuel,
    bfsTraversal_fault t hnn hlab hbig⟩

/-- C20: for the stream of the 501 distinct symbols 0, 1, ..., 500 followed by a
second 0 the tree is built, but `encode` returns no string at all (it ends in
the out-of-bounds write of `bfsTraversal`), so there is no encoding whose length
could equal the weighted path length. -/
theorem encoded_length_fault_501_symbols :
    ∃ t, createHuffmanTree (List.range 501 ++ [0]) = Except.ok t ∧
      encode t (List.range 501 ++ [0]) = Except.error Fault.outOfBounds ∧
      ¬ ∃ enc, encode t (List.range 501 ++ [0]) = Except.ok (some enc) := by
  obtain ⟨t, h1, _, h3⟩ := encode_fault_of_many_symbols (List.range 501 ++ [0])
    (by
      have : (List.range 501 ++ [0]).toFinset = (List.range 501).toFinset := by
        ext s
        simp only [List.toFinset_append, List.toFinset_cons, List.toFinset_nil,
          Finset.mem_union, List.mem_toFinset, List.mem_range, Finset.mem_insert,
          Finset.not_mem_empty, or_false]
        omega
      rw [this, List.toFinset_card_of_nodup (List.nodup_range 501), List.length_range]
      decide)
  refine ⟨t, h1, h3, ?_⟩
  rintro ⟨enc, henc⟩
  rw [h3] at henc
  cases henc

/-! ## Length of the encoding below the queue ceiling -/

section Rows
variable {α : Type}

theorem leafPaths_eq_rows (t : huffmanTree α) :
    leafPaths t = (leafRows t).map (fun e => (e.1, e.2.2)) := by
  induction t with
  | null => rfl
  | node c f l r ihl ihr =>
    simp only [leafPaths, leafRows]
    split
    · rfl
    · simp only [List.map_append, List.map_map, ihl, ihr]
      rfl

theorem leafEntries_eq_rows (t : huffmanTree α) :
    leafEntries t = (leafRows t).map (fun e => (e.1, e.2.1)) := by
  induction t with
  | null => rfl
  | node c f l r ihl ihr =>
    simp only [leafEntries, leafRows]
    split
    · rfl
    · simp only [List.map_append, List.map_map, ihl, ihr]
      rfl

theorem wplAt_eq_rows (d : Nat) (t : huffmanTree α) :
    wplAt d t = ((leafRows t).map (fun e => e.2.1 * ((d : Int) + (e.2.2.length : Int)))).sum := by
  induction t generalizing d with
  | null => simp [wplAt, leafRows]
  | node c f l r ihl ihr =>
    simp only [wplAt, leafRows]
    split
    · simp
    · rw [ihl, ihr]
      simp only [List.map_append, List.sum_append, List.map_map]
      congr 2 <;>
      · apply List.map_congr_left
        intro e _
        simp only [Function.comp, List.length_cons]
        push_cast
        ring

end Rows

section EncodedLength
variable {α : Type} [LinearOrder α]

/-- In a list of pairs with pairwise distinct first components, the search for a
first component finds the pair that has it. -/
theorem find_of_mem_nodup (L : List (Option α × List Char))
    (hnd : (L.map Prod.fst).Nodup) (k : Option α) (p : List Char) (hmem : (k, p) ∈ L) :
    L.find? (fun e => decide (e.1 = k)) = some (k, p) := by
  induction L with
  | nil => simp at hmem
  | cons e rest ih =>
    simp only [List.map_cons, List.nodup_cons] at hnd
    rcases List.mem_cons.mp hmem with h | h
    · subst h
      simp
    · have hne : e.1 ≠ k := by
        intro heq
        apply hnd.1
        rw [heq]
        exact List.mem_map.mpr ⟨(k, p), h, rfl⟩
      rw [List.find?_cons_of_neg _ (by simpa using hne)]
      exact ih hnd.2 h

theorem codeOf_eq (t : huffmanTree α) (hnd : ((leafPaths t).map Prod.fst).Nodup) (x : α)
    (p : List Char) (hmem : (some x, p) ∈ leafPaths t) : codeOf t x = p := by
  unfold codeOf
  rw [find_of_mem_nodup (leafPaths t) hnd (some x) p hmem]

/-- With a code table that holds the paths of the leaves of `tree`, the reading
loop of `encode` appends the bit-paths of the symbols read, in order. -/
theorem encodeLoop_codeOf (tree : huffmanTree α) (root : bst α)
    (hsorted : (root.toList.map Prod.fst).Sorted (· < ·))
    (hperm : (root.toList.map (fun e => (some e.1, e.2))).Perm (leafPaths tree))
    (hnd : ((leafPaths tree).map Prod.fst).Nodup)
    (stream : List α) (hstream : ∀ x ∈ stream, ∃ p, (some x, p) ∈ leafPaths tree)
    (acc : List Char) :
    encodeLoop root acc stream = Except.ok (acc ++ stream.flatMap (codeOf tree)) := by
  induction stream generalizing acc with
  | nil => simp [encodeLoop]
  | cons x rest ih =>
    obtain ⟨p, hp⟩ := hstream x (List.mem_cons_self _ _)
    have hmem : (x, p) ∈ root.toList := by
      obtain ⟨e, he, hee⟩ := List.mem_map.mp (hperm.mem_iff.mpr hp)
      simp only [Prod.mk.injEq, Option.some.injEq] at hee
      have : e = (x, p) := Prod.ext hee.1 hee.2
      rw [← this]
      exact he
    obtain ⟨l, r, hfind⟩ := findNode_of_mem root x p hsorted hmem
    simp only [encodeLoop, encodeStep, hfind, bst.encoding]
    rw [ih (fun y hy => hstream y (List.mem_cons_of_mem _ hy)) (acc ++ p),
      List.flatMap_cons, codeOf_eq tree hnd x p hp, List.append_assoc]

/-- Encoded length below the queue ceiling: for a stream of at most `INT_MAX`
symbols with at least one and at most 500 distinct symbols, `encode` returns the
concatenation, in order, of the bit-paths of the symbols of the stream, and the
length of that string is the weighted path length of the tree: the sum over the
leaves of frequency times depth. -/
theorem encoded_length_below_ceiling (stream : List α) (h1 : 1 ≤ stream.toFinset.card)
    (h500 : stream.toFinset.card ≤ 500) (hmax : stream.length ≤ 2147483647) :
    ∃ t, createHuffmanTree stream = Except.ok t ∧
      encode t stream = Except.ok (some (stream.flatMap (codeOf t))) ∧
      ((stream.flatMap (codeOf t)).length : Int) = weightedPathLength t ∧
      weightedPathLength t =
        ((leafRows t).map (fun e => e.2.1 * (e.2.2.length : Int))).sum := by
  obtain ⟨t, root, hb, hnn, hl, hbfs, hsorted, htable, hstream⟩ :=
    createHuffmanTree_table stream h1 h500
  have hb2 := hb
  rw [createHuffmanTree_eq] at hb2
  obtain ⟨t2, hb3, _, _, _, _, hperm⟩ := build_tree_shape_of_ne_nil
    ((stream.toFinset.sort (· ≤ ·)).map
      (fun s => ({ character := s, freq := wrapInt (stream.count s : Int) } : item α)))
    (by
      intro hnil
      have hlen0 := congrArg List.length hnil
      rw [List.length_map, Finset.length_sort, List.length_nil] at hlen0
      omega)
  rw [hb2] at hb3
  cases hb3
  have hkeys : ((leafPaths t).map Prod.fst).Perm
      ((stream.toFinset.sort (· ≤ ·)).map some) := by
    rw [leafPaths_fst]
    refine (hperm.map Prod.fst).trans ?_
    simp only [List.map_map]
    exact List.Perm.of_eq (List.map_congr_left (fun s _ => rfl))
  have hnd : ((leafPaths t).map Prod.fst).Nodup := by
    rw [hkeys.nodup_iff]
    exact (Finset.sort_nodup _ _).map (Option.some_injective α)
  have henc := encodeLoop_codeOf t root hsorted htable hnd stream hstream []
  have hwpl : weightedPathLength t =
      ((leafRows t).map (fun e => e.2.1 * (e.2.2.length : Int))).sum := by
    unfold weightedPathLength
    rw [wplAt_eq_rows]
    simp
  refine ⟨t, hb, ?_, ?_, hwpl⟩
  · cases t with
    | null => simp at hnn
    | node c f l r =>
      unfold encode
      simp only [hbfs, henc, List.nil_append]
  · -- every row stores the count of its symbol and the bit-path of its symbol
    have hrow : ∀ e ∈ leafRows t,
        e.2.1 * (e.2.2.length : Int) =
          (match e.1 with
            | some s => (stream.count s : Int) * ((codeOf t s).length : Int)
            | none => 0) := by
      intro e he
      have hent : (e.1, e.2.1) ∈ leafEntries t := by
        rw [leafEntries_eq_rows]
        exact List.mem_map.mpr ⟨e, he, rfl⟩
      obtain ⟨it, hit, hite⟩ := List.mem_map.mp (hperm.mem_iff.mp hent)
      obtain ⟨s, _, rfl⟩ := List.mem_map.mp hit
      simp only [Prod.mk.injEq] at hite
      obtain ⟨hk, hf⟩ := hite
      have hpath : (some s, e.2.2) ∈ leafPaths t := by
        rw [leafPaths_eq_rows, hk]
        exact List.mem_map.mpr ⟨e, he, rfl⟩
      rw [← hk, ← hf]
      simp only
      rw [wrapInt_natCast _ (le_trans (List.count_le_length _ _) hmax),
        codeOf_eq t hnd s e.2.2 hpath]
    have hsum1 : ((leafRows t).map (fun e => e.2.1 * (e.2.2.length : Int))).sum =
        (((leafRows t).map Prod.fst).map (fun k : Option α =>
          match k with
          | some s => (stream.count s : Int) * ((codeOf t s).length : Int)
          | none => 0)).sum := by
      rw [List.map_map]
      congr 1
      apply List.map_congr_left
      intro e he
      exact hrow e he
    have hkeys2 : ((leafRows t).map Prod.fst).Perm
        ((stream.toFinset.sort (· ≤ ·)).map some) := by
      have : (leafRows t).map Prod.fst = (leafPaths t).map Prod.fst := by
        rw [leafPaths_eq_rows, List.map_map]
        rfl
      rw [this]
      exact hkeys
    rw [hwpl, hsum1, (hkeys2.map _).sum_eq, List.map_map]
    have hlen : ((stream.flatMap (codeOf t)).length : Int) =
        ((stream.map (fun s => ((codeOf t s).length : Int))).sum) := by
      induction stream with
      | nil => simp
      | cons x rest _ =>
        clear * -
        induction (x :: rest) with
        | nil => simp
        | cons y ys ih =>
          simp only [List.flatMap_cons, List.length_append, List.map_cons, List.sum_cons]
          push_cast
          rw [ih]
    rw [hlen, Finset.sum_list_map_count]
    rw [← List.sum_toFinset _ (Finset.sort_nodup (· ≤ ·) stream.toFinset),
      Finset.sort_toFinset]
    apply Finset.sum_congr rfl
    intro s _
    simp [mul_comm]

theorem encoded_length_below_ceiling_witness :
    1 ≤ ([1, 1, 1, 2, 2, 3] : List Nat).toFinset.card ∧
    ([1, 1, 1, 2, 2, 3] : List Nat).toFinset.card ≤ 500 ∧
    ([1, 1, 1, 2, 2, 3] : List Nat).length ≤ 2147483647 ∧
    ∃ t, createHuffmanTree ([1, 1, 1, 2, 2, 3] : List Nat) = Except.ok t ∧
      encode t [1, 1, 1, 2, 2, 3] =
        Except.ok (some (([1, 1, 1, 2, 2, 3] : List Nat).flatMap (codeOf t))) ∧
      ((([1, 1, 1, 2, 2, 3] : List Nat).flatMap (codeOf t)).length : Int) =
        weightedPathLength t ∧
      weightedPathLength t =
        ((leafRows t).map (fun e => e.2.1 * (e.2.2.length : Int))).sum :=
  ⟨by decide, by decide, by decide,
    encoded_length_below_ceiling [1, 1, 1, 2, 2, 3] (by decide) (by decide) (by decide)⟩

end EncodedLength

end Huffman
